import Mathlib

/-!
Package rlwe: the MetaData codec and the Paterson-Stockmeyer evaluator.

A shallow embedding of `rlwe/metadata.go` and `rlwe/polynomial_evaluation.go`.

* Go `int` is the 64-bit signed integer; values are carried as `Int` and the
  operations that can leave the range wrap explicitly (`wrapInt64`).
* A `[]byte` buffer is a `List Byte`; a write through an index is `List.set`
  guarded by the bounds check that Go performs.
* A run-time panic is a result of its own (`Outcome.panicked`), distinct from a
  returned `error`.
* Types and methods that the two files use but do not declare (`Scale` and its
  codec, `Ciphertext`, `PowerBasis`, the evaluator interface, ...) are parameters.
-/

namespace rlwe

/-! ## Go run-time model -/

/-- Byte of a Go byte slice. -/
abbrev Byte := Fin 256

/-- Run-time panics that the embedded code can raise. -/
inductive Panic where
  | indexOutOfRange
  | nilDereference
  | scaleDiscrepancy
  deriving DecidableEq, Repr

/-- Result of running a Go function body: it returns its results or it panics. -/
inductive Outcome (α : Type) where
  | returned (a : α)
  | panicked (p : Panic)
  deriving DecidableEq, Repr

/-- Sequencing of two steps; a panic in the first skips the second. -/
def Outcome.bind {α β : Type} (x : Outcome α) (f : α → Outcome β) : Outcome β :=
  match x with
  | .returned a => f a
  | .panicked p => .panicked p

instance : Monad Outcome where
  pure := Outcome.returned
  bind := Outcome.bind

/-- Go conversion `uint8(x)` of an `int`: the low eight bits of the two's complement form. -/
def uint8OfInt (x : Int) : Byte := ⟨(x % 256).toNat, by omega⟩

/-- Go conversion `int(int8(b))` of a byte: reinterpretation as a signed byte. -/
def intOfInt8 (b : Byte) : Int :=
  if b.val < 128 then (b.val : Int) else (b.val : Int) - 256

/-- Indexed write `p[n] = v` with the bounds check of Go. -/
def store (p : List Byte) (n : Nat) (v : Byte) : Outcome (List Byte) :=
  if n < p.length then .returned (p.set n v) else .panicked .indexOutOfRange

/-- Indexed read `p[n]` with the bounds check of Go. -/
def load (p : List Byte) (n : Nat) : Outcome Byte :=
  match p[n]? with
  | some b => .returned b
  | none => .panicked .indexOutOfRange

/-! ## metadata.go -/

/-- Constants `SlotsDomain` and `CoefficientsDomain` of type `EncodingDomain` (an `int`). -/
def SlotsDomain : Int := 0

/-- See `SlotsDomain`. -/
def CoefficientsDomain : Int := 1

/-- The `Scale` type is declared outside the two files; its codec and its comparison are
parameters.  `Encode` and `Decode` return the byte count, the error (if any) and the
buffer contents, resp. the receiver, after the call.  Byte counts and sizes are lengths,
hence naturals.  `Equal s t` stands for `cmp.Equal(&s, &t)`. -/
structure ScaleCodec (Sc SE : Type) where
  BinarySize : Sc → Nat
  Encode : Sc → List Byte → Nat × Option SE × List Byte
  Decode : Sc → List Byte → Nat × Option SE × Sc
  Equal : Sc → Sc → Bool

/-- Errors returned by the MetaData codec: the two size errors built with `fmt.Errorf`, or
an error handed up from the Scale codec. -/
inductive CodecError (SE : Type) where
  | encodeTooSmall
  | decodeTooSmall
  | scale (e : SE)
  deriving DecidableEq, Repr

/-- The struct `MetaData`; `LogSlots` is the array `[2]int`. -/
structure MetaData (Sc : Type) where
  Scale : Sc
  EncodingDomain : Int
  LogSlots : Int × Int
  IsNTT : Bool
  IsMontgomery : Bool
  deriving DecidableEq, Repr

variable {Sc SE : Type}

/-- The method `MetaData.Equal`. -/
def MetaData.Equal (c : ScaleCodec Sc SE) (m other : MetaData Sc) : Bool :=
  let res := c.Equal m.Scale other.Scale
  let res := res && decide (m.EncodingDomain = other.EncodingDomain)
  let res := res && decide (m.LogSlots = other.LogSlots)
  let res := res && decide (m.IsNTT = other.IsNTT)
  let res := res && decide (m.IsMontgomery = other.IsMontgomery)
  res

/-- The method `MetaData.BinarySize`. -/
def MetaData.BinarySize (c : ScaleCodec Sc SE) (m : MetaData Sc) : Nat :=
  5 + c.BinarySize m.Scale

/-- The method `MetaData.Encode`: the results are `(n, err, p)` with `p` the buffer after the call. -/
def MetaData.Encode (c : ScaleCodec Sc SE) (m : MetaData Sc) (p : List Byte) :
    Outcome (Nat × Option (CodecError SE) × List Byte) :=
  if p.length < m.BinarySize c then
    .returned (0, some .encodeTooSmall, p)
  else
    match c.Encode m.Scale p with
    | (_, some e, p) => .returned (0, some (.scale e), p)
    | (n, none, p) => do
      let p ← store p n (uint8OfInt m.EncodingDomain)
      let n := n + 1
      let p ← store p n (uint8OfInt m.LogSlots.1)
      let n := n + 1
      let p ← store p n (uint8OfInt m.LogSlots.2)
      let n := n + 1
      let p ← if m.IsNTT then store p n 1 else pure p
      let n := n + 1
      let p ← if m.IsMontgomery then store p n 1 else pure p
      let n := n + 1
      pure (n, none, p)

/-- The method `MetaData.Decode`: the results are `(n, err, m)` with `m` the receiver after the call. -/
def MetaData.Decode (c : ScaleCodec Sc SE) (m : MetaData Sc) (p : List Byte) :
    Outcome (Nat × Option (CodecError SE) × MetaData Sc) :=
  if p.length < m.BinarySize c then
    .returned (0, some .decodeTooSmall, m)
  else
    match c.Decode m.Scale p with
    | (n, some e, s) => .returned (n, some (.scale e), { m with Scale := s })
    | (n, none, s) => do
      let m := { m with Scale := s }
      let b ← load p n
      let m := { m with EncodingDomain := (b.val : Int) }
      let n := n + 1
      let b ← load p n
      let m := { m with LogSlots := (intOfInt8 b, m.LogSlots.2) }
      let n := n + 1
      let b ← load p n
      let m := { m with LogSlots := (m.LogSlots.1, intOfInt8 b) }
      let n := n + 1
      let b ← load p n
      let m := { m with IsNTT := decide (b = 1) }
      let n := n + 1
      let b ← load p n
      let m := { m with IsMontgomery := decide (b = 1) }
      let n := n + 1
      pure (n, none, m)

/-- The method `MetaData.MarshalBinary`: the results are `(p, err)`. -/
def MetaData.MarshalBinary (c : ScaleCodec Sc SE) (m : MetaData Sc) :
    Outcome (List Byte × Option (CodecError SE)) :=
  let p := List.replicate (m.BinarySize c) (0 : Byte)
  match m.Encode c p with
  | .returned (_, err, p) => .returned (p, err)
  | .panicked x => .panicked x

/-- The method `MetaData.UnmarshalBinary`: the results are `err` and the receiver after the call. -/
def MetaData.UnmarshalBinary (c : ScaleCodec Sc SE) (m : MetaData Sc) (p : List Byte) :
    Outcome (Option (CodecError SE) × MetaData Sc) :=
  match m.Decode c p with
  | .returned (_, err, m) => .returned (err, m)
  | .panicked x => .panicked x

/-- A Scale codec succeeds on every buffer of at least its own binary size: no error, the
byte count is the binary size, and encoding leaves the buffer length alone. -/
def ScaleCodec.Succeeds (c : ScaleCodec Sc SE) : Prop :=
  ∀ (s : Sc) (p : List Byte), c.BinarySize s ≤ p.length →
    (∃ q, c.Encode s p = (c.BinarySize s, none, q) ∧ q.length = p.length) ∧
    (∃ t, c.Decode s p = (c.BinarySize s, none, t))

/-- A Scale codec round-trips: it is of fixed size; encoding succeeds on a large enough
buffer, writes only its own leading bytes, and decoding any buffer that starts with those
bytes succeeds with a Scale that `Equal` accepts. -/
def ScaleCodec.RoundTrips (c : ScaleCodec Sc SE) : Prop :=
  (∀ s r : Sc, c.BinarySize s = c.BinarySize r) ∧
  ∀ (s : Sc) (p : List Byte), c.BinarySize s ≤ p.length →
    ∃ q, c.Encode s p = (c.BinarySize s, none, q) ∧ q.length = p.length ∧
      (∀ j, c.BinarySize s ≤ j → q[j]? = p[j]?) ∧
      ∀ (r : Sc) (t : List Byte), t.length = q.length →
        (∀ j, j < c.BinarySize s → t[j]? = q[j]?) →
        ∃ s', c.Decode r t = (c.BinarySize s, none, s') ∧ c.Equal s' s = true

/-- A one-byte Scale codec, used to run the MetaData codec on concrete buffers: the Scale
is a byte, written at and read from offset 0. -/
def byteScaleCodec : ScaleCodec Byte Unit where
  BinarySize := fun _ => 1
  Encode := fun s p => if 0 < p.length then (1, none, p.set 0 s) else (0, some (), p)
  Decode := fun r p =>
    match p with
    | b :: _ => (1, none, b)
    | [] => (0, some (), r)
  Equal := fun s t => decide (s = t)


/-- Buffer left by the five trailing writes of `Encode`, starting at offset `n`. -/
def encodeTail (m : MetaData Sc) (n : Nat) (q : List Byte) : List Byte :=
  let q := q.set n (uint8OfInt m.EncodingDomain)
  let q := q.set (n + 1) (uint8OfInt m.LogSlots.1)
  let q := q.set (n + 2) (uint8OfInt m.LogSlots.2)
  let q := if m.IsNTT then q.set (n + 3) 1 else q
  if m.IsMontgomery then q.set (n + 4) 1 else q

/-- Receiver left by the five trailing reads of `Decode`, starting at offset `n`. -/
def decodeTail (s : Sc) (n : Nat) (p : List Byte) : MetaData Sc :=
  { Scale := s
    EncodingDomain := ((p.getD n 0).val : Int)
    LogSlots := (intOfInt8 (p.getD (n + 1) 0), intOfInt8 (p.getD (n + 2) 0))
    IsNTT := decide (p.getD (n + 3) 0 = 1)
    IsMontgomery := decide (p.getD (n + 4) 0 = 1) }

/-! ## polynomial_evaluation.go -/

/-- Go conversion of an arbitrary-precision result to `int`: two's complement wrap to 64 bits. -/
def wrapInt64 (x : Int) : Int := (x + 2 ^ 63) % 2 ^ 64 - 2 ^ 63

/-- Go conversion `uint64(x)` of an `int`. -/
def uint64OfInt (x : Int) : Nat := (x % 2 ^ 64).toNat

/-- Number of bits of `x` among its lowest `fuel` bits. -/
def bitLen : Nat → Nat → Nat
  | 0, _ => 0
  | fuel + 1, x => if x = 0 then 0 else bitLen fuel (x / 2) + 1

/-- Go `bits.Len64`: the minimum number of bits needed to represent `x`; 0 for `x = 0`. -/
def Len64 (x : Nat) : Nat := bitLen 64 x

/-- The line `deg := 1 << bits.Len64(uint64(tmp[i].Degree))`, a shift of the `int` 1. -/
def mergeExponent (degree : Int) : Int := wrapInt64 (2 ^ Len64 (uint64OfInt degree))

/-- The line `odd.Degree = 2*deg - 1`, in `int` arithmetic. -/
def mergedDegree (deg : Int) : Int := wrapInt64 (2 * deg - 1)

/-- Modelled from the spec: the type `Polynomial` is declared outside the two files; the
evaluator reads its fields `Level` and `Scale` and the result of its method `Degree()`,
kept here as a field. -/
structure Polynomial (Sc : Type) where
  Level : Int
  Scale : Sc
  Degree : Int
  deriving DecidableEq, Repr

/-- Modelled from the spec: the type `PolynomialVector`, a sequence of polynomials (one per
slot group) plus a `SlotsIndex`. -/
structure PolynomialVector (Sc SI : Type) where
  Value : List (Polynomial Sc)
  SlotsIndex : SI
  deriving DecidableEq, Repr

/-- Modelled from the spec: one slot group of a `PatersonStockmeyerPolynomialVector`, split
into its baby-step chunks `Value[i]`. -/
structure PatersonStockmeyerPolynomial (Sc : Type) where
  Value : List (Polynomial Sc)
  deriving DecidableEq, Repr

/-- Modelled from the spec: the type `PatersonStockmeyerPolynomialVector`. -/
structure PatersonStockmeyerPolynomialVector (Sc SI : Type) where
  Value : List (PatersonStockmeyerPolynomial Sc)
  SlotsIndex : SI
  deriving DecidableEq, Repr

/-- Modelled from the spec: the type `PowerBasis`, a map from exponent to ciphertext; a Go map
lookup is total (an absent key gives the zero value). -/
structure PowerBasis (H : Type) where
  Value : Int → H

/-- The interface `PolynomialEvaluatorInterface`, declared outside the two files, as a
parameter: each method acts on the evaluator and ciphertext memory `σ`; ciphertexts are
handles `H` (pointers), errors are values of `E`. -/
structure PolynomialEvaluatorInterface (σ H E Sc SI : Type) where
  EvaluatePolynomialVectorFromPowerBasis :
    Int → PolynomialVector Sc SI → PowerBasis H → Sc → σ → Except E H × σ
  Relinearize : H → H → σ → σ
  Rescale : H → H → σ → Option E × σ
  Mul : H → H → H → σ → σ
  Add : H → H → H → σ → σ

/-- What the evaluator reads of a ciphertext and of the `Scale` type, declared outside the
two files, as a parameter: `Degree()` and the field `Scale` of a ciphertext in memory,
`Scale.InDelta` (its tolerance taken before the conversion to `float64`) and the constant
`ScalePrecision`. -/
structure CiphertextModel (σ H Sc : Type) where
  Degree : σ → H → Int
  Scale : σ → H → Sc
  InDelta : Sc → Sc → Int → Bool
  ScalePrecision : Int

/-- A call made by the evaluator, with its arguments and the result that decides control
flow, recorded in call order. -/
inductive Event (H E Sc SI : Type) where
  | evaluatePolynomialVectorFromPowerBasis (level : Int) (polyVec : PolynomialVector Sc SI)
      (scale : Sc) (res : Except E H)
  | relinearize (op0 opOut : H)
  | rescale (op0 opOut : H) (err : Option E)
  | mul (op0 op1 opOut : H)
  | inDelta (a b : H) (ok : Bool)
  | add (op0 op1 opOut : H)

/-- The error value returned by the evaluator: `err` itself, or `err` wrapped by
`fmt.Errorf("cannot EvaluatePatersonStockmeyerPolynomial: polynomial[%d]: %w", i, err)`. -/
inductive EvalError (E : Type) where
  | plain (e : E)
  | polynomial (i : Nat) (e : E)
  deriving DecidableEq, Repr

/-- How a call of the evaluator ends: `(res, nil)`, `(nil, err)`, a panic, or the loop
budget of the model exhausted. -/
inductive Result (H E : Type) where
  | ok (res : H)
  | error (err : EvalError E)
  | panic (p : Panic)
  | outOfFuel
  deriving DecidableEq, Repr

/-- The state threaded through a run: the memory, the calls made so far and the number of
rounds of the merge loop started so far. -/
structure Run (σ H E Sc SI : Type) where
  st : σ
  log : List (Event H E Sc SI)
  rounds : Nat

/-- The local struct `Poly`. -/
structure Poly (H : Type) where
  Degree : Int
  Value : H
  deriving DecidableEq, Repr

/-- A step of a loop: go on with a value, or leave the function. -/
inductive Flow (α R H E : Type) where
  | next (a : α) (w : R)
  | exit (r : Result H E) (w : R)

variable {σ H E SI : Type}

/-- Record a call and the memory it leaves. -/
def Run.record (w : Run σ H E Sc SI) (st : σ) (ev : Event H E Sc SI) : Run σ H E Sc SI :=
  { w with st := st, log := w.log ++ [ev] }

/-- The start of a run on memory `st`. -/
def Run.init (st : σ) : Run σ H E Sc SI := { st := st, log := [], rounds := 0 }

/-- Read `tmp[i]` and follow the pointer, with the checks of Go. -/
def deref (tmp : List (Option (Poly H))) (i : Nat) : Outcome (Poly H) :=
  match tmp[i]? with
  | none => .panicked .indexOutOfRange
  | some none => .panicked .nilDereference
  | some (some p) => .returned p

/-- The function `evalMonomial`: the results are `err`, or a panic. -/
def evalMonomial (eval : PolynomialEvaluatorInterface σ H E Sc SI) (cm : CiphertextModel σ H Sc)
    (a b xpow : H) (w : Run σ H E Sc SI) : Outcome (Option E) × Run σ H E Sc SI :=
  let w := if cm.Degree w.st b = 2 then
      w.record (eval.Relinearize b b w.st) (.relinearize b b)
    else w
  match eval.Rescale b b w.st with
  | (some e, st) => (.returned (some e), w.record st (.rescale b b (some e)))
  | (none, st) =>
    let w := w.record st (.rescale b b none)
    let w := w.record (eval.Mul b xpow b w.st) (.mul b xpow b)
    let ok := cm.InDelta (cm.Scale w.st a) (cm.Scale w.st b) (cm.ScalePrecision - 12)
    let w := w.record w.st (.inDelta a b ok)
    if !ok then
      (.panicked .scaleDiscrepancy, w)
    else
      let w := w.record (eval.Add b a b w.st) (.add b a b)
      (.returned none, w)

/-- The inner loop `for i := 0; i < len(tmp); i++` of the merge phase, from index `i`; the
first argument bounds the number of iterations. -/
def scan (eval : PolynomialEvaluatorInterface σ H E Sc SI) (cm : CiphertextModel σ H Sc)
    (pb : PowerBasis H) :
    Nat → Nat → List (Option (Poly H)) → Run σ H E Sc SI →
      Flow (List (Option (Poly H))) (Run σ H E Sc SI) H E
  | 0, _, _, w => .exit .outOfFuel w
  | fuel + 1, i, tmp, w =>
    if i < tmp.length then
      if i = tmp.length - 1 then
        if i = 0 then .exit (.panic .indexOutOfRange) w
        else
          match deref tmp (i - 1) with
          | .panicked x => .exit (.panic x) w
          | .returned prev =>
            match deref tmp i with
            | .panicked x => .exit (.panic x) w
            | .returned cur =>
              scan eval cm pb fuel (i + 1) (tmp.set i (some { cur with Degree := prev.Degree })) w
      else
        match deref tmp i with
        | .panicked x => .exit (.panic x) w
        | .returned even =>
          match deref tmp (i + 1) with
          | .panicked x => .exit (.panic x) w
          | .returned odd =>
            if even.Degree = odd.Degree then
              let deg := mergeExponent even.Degree
              match evalMonomial eval cm even.Value odd.Value (pb.Value deg) w with
              | (.panicked x, w) => .exit (.panic x) w
              | (.returned (some e), w) => .exit (.error (.plain e)) w
              | (.returned none, w) =>
                let tmp := tmp.set (i + 1) (some { odd with Degree := mergedDegree deg })
                let tmp := tmp.set i none
                scan eval cm pb fuel (i + 1 + 1) tmp w
            else
              scan eval cm pb fuel (i + 1) tmp w
    else
      .next tmp w

/-- The loop `for i := range tmp` that discards processed entries, with `n` iterations left
from index `i`; the results are the list and `idx`. -/
def compactFrom : Nat → Nat → Nat → List (Option (Poly H)) →
    Outcome (List (Option (Poly H)) × Nat)
  | 0, _, idx, tmp => .returned (tmp, idx)
  | n + 1, i, idx, tmp =>
    match tmp[i]? with
    | none => .panicked .indexOutOfRange
    | some none => compactFrom n (i + 1) idx tmp
    | some (some p) =>
      if idx < tmp.length then compactFrom n (i + 1) (idx + 1) (tmp.set idx (some p))
      else .panicked .indexOutOfRange

/-- The compaction of a round, ending with `tmp = tmp[:idx]`. -/
def compact (tmp : List (Option (Poly H))) : Outcome (List (Option (Poly H))) :=
  match compactFrom tmp.length 0 0 tmp with
  | .panicked x => .panicked x
  | .returned (tmp, idx) =>
    if idx ≤ tmp.length then .returned (tmp.take idx) else .panicked .indexOutOfRange

/-- The loop `for len(tmp) != 1`; the first argument bounds the number of rounds. -/
def mergeLoop (eval : PolynomialEvaluatorInterface σ H E Sc SI) (cm : CiphertextModel σ H Sc)
    (pb : PowerBasis H) :
    Nat → List (Option (Poly H)) → Run σ H E Sc SI →
      Flow (List (Option (Poly H))) (Run σ H E Sc SI) H E
  | 0, _, w => .exit .outOfFuel w
  | fuel + 1, tmp, w =>
    if tmp.length ≠ 1 then
      let w := { w with rounds := w.rounds + 1 }
      match scan eval cm pb (tmp.length + 1) 0 tmp w with
      | .exit r w => .exit r w
      | .next tmp w =>
        match compact tmp with
        | .panicked x => .exit (.panic x) w
        | .returned tmp => mergeLoop eval cm pb fuel tmp w
    else
      .next tmp w

/-- The transposition loop `polyVec.Value[j] = poly.Value[j].Value[i]` over the groups. -/
def transpose (i : Nat) : List (PatersonStockmeyerPolynomial Sc) → Outcome (List (Polynomial Sc))
  | [] => .returned []
  | g :: gs =>
    match g.Value[i]? with
    | none => .panicked .indexOutOfRange
    | some c =>
      match transpose i gs with
      | .panicked x => .panicked x
      | .returned cs => .returned (c :: cs)

/-- The loop `for i := range tmp` of the small steps, with `n` iterations left from index
`i`; `g0` is `poly.Value[0]`. -/
def smallSteps (eval : PolynomialEvaluatorInterface σ H E Sc SI)
    (poly : PatersonStockmeyerPolynomialVector Sc SI) (g0 : PatersonStockmeyerPolynomial Sc)
    (pb : PowerBasis H) (split : Nat) :
    Nat → Nat → List (Option (Poly H)) → Run σ H E Sc SI →
      Flow (List (Option (Poly H))) (Run σ H E Sc SI) H E
  | 0, _, tmp, w => .next tmp w
  | n + 1, i, tmp, w =>
    match transpose i poly.Value with
    | .panicked x => .exit (.panic x) w
    | .returned vs =>
      let polyVec : PolynomialVector Sc SI := { Value := vs, SlotsIndex := poly.SlotsIndex }
      match g0.Value[i]? with
      | none => .exit (.panic .indexOutOfRange) w
      | some c =>
        let level := c.Level
        let scale := c.Scale
        let idx := split - i - 1
        if i < split ∧ idx < tmp.length then
          match eval.EvaluatePolynomialVectorFromPowerBasis level polyVec pb scale w.st with
          | (.error e, st) =>
            .exit (.error (.polynomial i e))
              (w.record st (.evaluatePolynomialVectorFromPowerBasis level polyVec scale (.error e)))
          | (.ok ct, st) =>
            smallSteps eval poly g0 pb split n (i + 1) (tmp.set idx (some ⟨c.Degree, ct⟩))
              (w.record st (.evaluatePolynomialVectorFromPowerBasis level polyVec scale (.ok ct)))
        else .exit (.panic .indexOutOfRange) w

/-- The last lines of the evaluator, once the merge loop has ended. -/
def finalize (eval : PolynomialEvaluatorInterface σ H E Sc SI) (cm : CiphertextModel σ H Sc)
    (tmp : List (Option (Poly H))) (w : Run σ H E Sc SI) : Result H E × Run σ H E Sc SI :=
  match deref tmp 0 with
  | .panicked x => (.panic x, w)
  | .returned p =>
    let w := if cm.Degree w.st p.Value = 2 then
        w.record (eval.Relinearize p.Value p.Value w.st) (.relinearize p.Value p.Value)
      else w
    match eval.Rescale p.Value p.Value w.st with
    | (some e, st) => (.error (.plain e), w.record st (.rescale p.Value p.Value (some e)))
    | (none, st) => (.ok p.Value, w.record st (.rescale p.Value p.Value none))

/-- The function `EvaluatePatersonStockmeyerPolynomialVector`, run on memory `st` with at most `fuel`
rounds of the merge loop; the results are how the call ends and the final state of the run. -/
def EvaluatePatersonStockmeyerPolynomialVector (eval : PolynomialEvaluatorInterface σ H E Sc SI)
    (cm : CiphertextModel σ H Sc) (fuel : Nat) (poly : PatersonStockmeyerPolynomialVector Sc SI)
    (pb : PowerBasis H) (st : σ) : Result H E × Run σ H E Sc SI :=
  let w : Run σ H E Sc SI := Run.init st
  match poly.Value[0]? with
  | none => (.panic .indexOutOfRange, w)
  | some g0 =>
    let split := g0.Value.length
    let tmp : List (Option (Poly H)) := List.replicate split none
    match smallSteps eval poly g0 pb split split 0 tmp w with
    | .exit r w => (r, w)
    | .next tmp w =>
      match mergeLoop eval cm pb fuel tmp w with
      | .exit r w => (r, w)
      | .next tmp w => finalize eval cm tmp w

/-! ## A small concrete evaluator, used to run the embedding on examples -/

/-- A ciphertext of the example evaluator: its degree, the exponent of its scale and its
level. -/
structure ToyCiphertext where
  degree : Int
  scale : Int
  level : Int
  deriving DecidableEq, Repr

/-- The ciphertext behind handle `h` in the example memory (a fresh one if `h` is unused). -/
def toyGet (st : List ToyCiphertext) (h : Nat) : ToyCiphertext := st.getD h ⟨1, 0, 0⟩

/-- The example evaluator: a memory of ciphertexts addressed by index.  The power-basis
evaluation fails (error 7) on a negative level and else allocates a degree-1 ciphertext;
`Rescale` fails (error 9) at level 0 and else drops one level and one unit of scale; `Mul`
adds degrees and scales. -/
def toyEval : PolynomialEvaluatorInterface (List ToyCiphertext) Nat Nat Int Unit where
  EvaluatePolynomialVectorFromPowerBasis := fun level _ _ scale st =>
    if level < 0 then (.error 7, st) else (.ok st.length, st ++ [⟨1, scale, level⟩])
  Relinearize := fun op0 opOut st => st.set opOut { toyGet st op0 with degree := 1 }
  Rescale := fun op0 opOut st =>
    if (toyGet st op0).level ≤ 0 then (some 9, st)
    else (none, st.set opOut
      { toyGet st op0 with scale := (toyGet st op0).scale - 1, level := (toyGet st op0).level - 1 })
  Mul := fun op0 op1 opOut st =>
    st.set opOut ⟨(toyGet st op0).degree + (toyGet st op1).degree,
      (toyGet st op0).scale + (toyGet st op1).scale, min (toyGet st op0).level (toyGet st op1).level⟩
  Add := fun _ op1 opOut st => st.set opOut (toyGet st op1)

/-- The ciphertext view of the example evaluator; two scales are within tolerance when
they are equal. -/
def toyModel : CiphertextModel (List ToyCiphertext) Nat Int where
  Degree := fun st h => (toyGet st h).degree
  Scale := fun st h => (toyGet st h).scale
  InDelta := fun s t _ => decide (s = t)
  ScalePrecision := 128

/-- The example power basis: every exponent is served by the ciphertext at handle 0. -/
def toyBasis : PowerBasis Nat where
  Value := fun _ => 0

/-- The example memory at the start of a run: the power-basis ciphertext alone. -/
def toyMemory : List ToyCiphertext := [⟨1, 1, 9⟩]

/-- An example input of one slot group whose chunks have the given levels, scales and
degrees, in this order. -/
def toyPoly (chunks : List (Int × Int × Int)) : PatersonStockmeyerPolynomialVector Int Unit where
  Value := [⟨chunks.map (fun c => ⟨c.1, c.2.1, c.2.2⟩)⟩]
  SlotsIndex := ()

/-- Entry `k` of the working list is a live (non-nil) pointer. -/
def Live (tmp : List (Option (Poly H))) (k : Nat) : Prop := ∃ p, tmp[k]? = some (some p)

/-- Every entry of the working list is live. -/
def AllLive (tmp : List (Option (Poly H))) : Prop := ∀ k, k < tmp.length → Live tmp k

/-- The last two entries of the working list are live and have the same tracked degree. -/
def EqLast (tmp : List (Option (Poly H))) : Prop :=
  2 ≤ tmp.length ∧ ∃ p q, tmp[tmp.length - 2]? = some (some p) ∧
    tmp[tmp.length - 1]? = some (some q) ∧ p.Degree = q.Degree

/-- The calls to `Relinearize` that `evalMonomial` and the finalization make on `b`: one
if `b` has degree 2, none otherwise. -/
def relinCalls (cm : CiphertextModel σ H Sc) (st : σ) (b : H) : List (Event H E Sc SI) :=
  if cm.Degree st b = 2 then [.relinearize b b] else []

/-- A run of the merge phase ends as the source intends: with an error returned by
`Rescale`, or with the scale-discrepancy panic. -/
def MergeAbort (r : Result H E) : Prop :=
  (∃ e, r = .error (.plain e)) ∨ r = .panic .scaleDiscrepancy

/-- The merge loop, run with `fuel` rounds allowed, ends within `bound` further rounds: with
one live entry left, or with a merge abort. -/
def MergeEnds (eval : PolynomialEvaluatorInterface σ H E Sc SI) (cm : CiphertextModel σ H Sc)
    (pb : PowerBasis H) (fuel : Nat) (tmp : List (Option (Poly H))) (w : Run σ H E Sc SI)
    (bound : Nat) : Prop :=
  (∃ p w', mergeLoop eval cm pb fuel tmp w = .next [some p] w' ∧ w'.rounds ≤ w.rounds + bound) ∨
  (∃ r w', mergeLoop eval cm pb fuel tmp w = .exit r w' ∧ MergeAbort r ∧
    w'.rounds ≤ w.rounds + bound)

/-- A recorded call failed: the power-basis evaluation or `Rescale` returned an error, or
the scale check found the scales out of tolerance. -/
def Event.isFailure : Event H E Sc SI → Bool
  | .evaluatePolynomialVectorFromPowerBasis _ _ _ (.error _) => true
  | .rescale _ _ (some _) => true
  | .inDelta _ _ false => true
  | _ => false

/-- No call recorded in `l` failed. -/
def NoFailure (l : List (Event H E Sc SI)) : Prop := ∀ ev, ev ∈ l → ev.isFailure = false

/-- The calls `l` made by a part of the merge phase or of the finalization that leaves the
function with `r`: a failed `Rescale` is the last call and its error is returned as it is;
a failed scale check is the last call and the function panics; otherwise no call failed. -/
def Aborted (r : Result H E) (l : List (Event H E Sc SI)) : Prop :=
  (∃ l0 a b e, r = .error (.plain e) ∧ l = l0 ++ [.rescale a b (some e)] ∧ NoFailure l0) ∨
  (∃ l0 a b, r = .panic .scaleDiscrepancy ∧ l = l0 ++ [.inDelta a b false] ∧ NoFailure l0) ∨
  ((r = .outOfFuel ∨ r = .panic .indexOutOfRange ∨ r = .panic .nilDereference) ∧ NoFailure l)

/-- Every call recorded in `l` is a power-basis evaluation that succeeded. -/
def AllEvaluated (l : List (Event H E Sc SI)) : Prop :=
  ∀ ev, ev ∈ l → ∃ level polyVec scale ct,
    ev = .evaluatePolynomialVectorFromPowerBasis level polyVec scale (.ok ct)

/-- The results of the evaluator after its last `Rescale` on `res`: `(res, nil)` if
`Rescale` returned no error, `(nil, err)` otherwise. -/
def finalResult (res : H) : Option E → Result H E
  | none => .ok res
  | some e => .error (.plain e)

/-! ## metadata.go: Slots, WriteTo, ReadFrom -/

/-- Go shift `1 << k` of the `int` 1 by an `int` count: a negative count is a run-time
panic (`none`); otherwise the result wraps to 64 bits, so it is 0 from 64 on. -/
def shiftLeftOne (k : Int) : Option Int :=
  if k < 0 then none else some (wrapInt64 (2 ^ k.toNat))

/-- The method `MetaData.Slots`; `none` is the panic of a negative shift count. -/
def MetaData.Slots (m : MetaData Sc) : Option (Int × Int) :=
  match shiftLeftOne m.LogSlots.1, shiftLeftOne m.LogSlots.2 with
  | some s0, some s1 => some (s0, s1)
  | _, _ => none

/-- Errors returned by `WriteTo` and `ReadFrom`: an error of the stream (`io.Writer`,
`io.Reader`), or an error of the MetaData codec. -/
inductive StreamError (IE SE : Type) where
  | io (e : IE)
  | codec (e : CodecError SE)
  deriving DecidableEq, Repr

/-- The method `MetaData.WriteTo`; `write p` stands for `w.Write(p)` and returns the byte
count and the error.  The results are `(n, err)`. -/
def MetaData.WriteTo {IE : Type} (c : ScaleCodec Sc SE) (m : MetaData Sc)
    (write : List Byte → Nat × Option IE) : Outcome (Nat × Option (StreamError IE SE)) :=
  match m.MarshalBinary c with
  | .panicked x => .panicked x
  | .returned (_, some err) => .returned (0, some (.codec err))
  | .returned (p, none) =>
    match write p with
    | (n, some err) => .returned (n, some (.io err))
    | (n, none) => .returned (n, none)

/-- The method `MetaData.ReadFrom`; `read p` stands for `r.Read(p)` and returns the byte
count, the error and the buffer after the call.  The results are `(n, err)` and the
receiver after the call. -/
def MetaData.ReadFrom {IE : Type} (c : ScaleCodec Sc SE) (m : MetaData Sc)
    (read : List Byte → Nat × Option IE × List Byte) :
    Outcome (Nat × Option (StreamError IE SE) × MetaData Sc) :=
  let p := List.replicate (m.BinarySize c) (0 : Byte)
  match read p with
  | (n, some _, _) => .returned (n, none, m)
  | (n, none, p) =>
    match m.UnmarshalBinary c p with
    | .panicked x => .panicked x
    | .returned (err, m) => .returned (n, err.map StreamError.codec, m)

/-! ## polynomial_evaluation.go: one round of the merge loop, and counting calls -/

/-- The body of the loop `for len(tmp) != 1`: one round, made of the scan and of the
compaction. -/
def mergeRound (eval : PolynomialEvaluatorInterface σ H E Sc SI) (cm : CiphertextModel σ H Sc)
    (pb : PowerBasis H) (tmp : List (Option (Poly H))) (w : Run σ H E Sc SI) :
    Flow (List (Option (Poly H))) (Run σ H E Sc SI) H E :=
  let w := { w with rounds := w.rounds + 1 }
  match scan eval cm pb (tmp.length + 1) 0 tmp w with
  | .exit r w => .exit r w
  | .next tmp w =>
    match compact tmp with
    | .panicked x => .exit (.panic x) w
    | .returned tmp => .next tmp w

/-- The run left by the merge of the entries `even` and `odd`, that is by the call
`evalMonomial(even.Value, odd.Value, pb.Value[deg], eval)`. -/
def mergeRun (eval : PolynomialEvaluatorInterface σ H E Sc SI) (cm : CiphertextModel σ H Sc)
    (pb : PowerBasis H) (even odd : Poly H) (w : Run σ H E Sc SI) : Run σ H E Sc SI :=
  (evalMonomial eval cm even.Value odd.Value (pb.Value (mergeExponent even.Degree)) w).2

/-- The run at the start of a round: one more round counted. -/
def Run.nextRound (w : Run σ H E Sc SI) : Run σ H E Sc SI := { w with rounds := w.rounds + 1 }

/-- Number of live (non-nil) entries of the working list. -/
def liveCount (tmp : List (Option (Poly H))) : Nat := (tmp.filter Option.isSome).length

/-- The ciphertexts of the live entries of the working list, in list order. -/
def liveValues (tmp : List (Option (Poly H))) : List H :=
  tmp.filterMap (fun x => x.map Poly.Value)

/-- The recorded call is a `Mul`. -/
def Event.isMul : Event H E Sc SI → Bool
  | .mul _ _ _ => true
  | _ => false

/-- The recorded call is an `Add`. -/
def Event.isAdd : Event H E Sc SI → Bool
  | .add _ _ _ => true
  | _ => false

/-- The recorded call is a `Rescale`. -/
def Event.isRescale : Event H E Sc SI → Bool
  | .rescale _ _ _ => true
  | _ => false

/-- The merge of the entries `even` and `odd` made on the run `w`, that is the call
`evalMonomial(even.Value, odd.Value, pb.Value[deg], eval)` on the memory of `w`, returns a nil
error: its `Rescale` succeeds and its scale check passes. -/
def MergeSucceeds (eval : PolynomialEvaluatorInterface σ H E Sc SI) (cm : CiphertextModel σ H Sc)
    (pb : PowerBasis H) (even odd : Poly H) (w : Run σ H E Sc SI) : Prop :=
  (evalMonomial eval cm even.Value odd.Value (pb.Value (mergeExponent even.Degree)) w).1
    = .returned none

/-- The state of the scan at index `i`, as the source relies on it: `i` is within the list,
the entries from `i` on are live, and so is the entry before `i`. -/
def ScanInv (i : Nat) (tmp : List (Option (Poly H))) : Prop :=
  i ≤ tmp.length ∧ (∀ k, i ≤ k → k < tmp.length → Live tmp k) ∧ (0 < i → Live tmp (i - 1))

/-- Entry by entry, `tmp'` is `tmp` with some entries set to nil and the others keeping
their ciphertext (their tracked degree may differ). -/
def KeepsValues (tmp' tmp : List (Option (Poly H))) : Prop :=
  tmp'.length = tmp.length ∧
  ∀ k, k < tmp.length → tmp'[k]? = some none ∨
    ∃ p q, tmp'[k]? = some (some p) ∧ tmp[k]? = some (some q) ∧ p.Value = q.Value

/-! ## An evaluator on which no operator can fail -/

/-- An example evaluator without memory: the power-basis evaluation returns the level as
handle, `Rescale` never fails and the other operators do nothing. -/
def calmEval : PolynomialEvaluatorInterface Unit Nat Nat Int Unit where
  EvaluatePolynomialVectorFromPowerBasis := fun level _ _ _ st => (.ok level.toNat, st)
  Relinearize := fun _ _ st => st
  Rescale := fun _ _ st => (none, st)
  Mul := fun _ _ _ st => st
  Add := fun _ _ _ st => st

/-- The ciphertext view of `calmEval`: every ciphertext has degree 1 and all scales are
within tolerance. -/
def calmModel : CiphertextModel Unit Nat Int where
  Degree := fun _ _ => 1
  Scale := fun _ _ => 0
  InDelta := fun _ _ _ => true
  ScalePrecision := 128

/-- An example reader that fails: `Read` returns 0 bytes and the error 5. -/
def failingRead (p : List Byte) : Nat × Option Nat × List Byte := (0, some 5, p)

/-- An example writer that fails: `Write` returns 0 bytes and the error 5. -/
def failingWrite (_ : List Byte) : Nat × Option Nat := (0, some 5)

/-! # Lemmas and theorems -/

/-! ## Helper lemmas -/

@[simp]
theorem Outcome.returned_bind {α β : Type} (a : α) (f : α → Outcome β) :
    (Outcome.returned a >>= f) = f a := rfl

@[simp]
theorem Outcome.panicked_bind {α β : Type} (x : Panic) (f : α → Outcome β) :
    (Outcome.panicked x >>= f) = Outcome.panicked x := rfl

@[simp]
theorem Outcome.pure_eq {α : Type} (a : α) : (pure a : Outcome α) = Outcome.returned a := rfl

theorem store_of_lt {p : List Byte} {n : Nat} (v : Byte) (h : n < p.length) :
    store p n v = .returned (p.set n v) := by
  simp [store, h]

theorem load_of_lt {p : List Byte} {n : Nat} (h : n < p.length) :
    load p n = .returned (p[n]) := by
  simp [load, h]


theorem encodeTail_length (m : MetaData Sc) (n : Nat) (q : List Byte) :
    (encodeTail m n q).length = q.length := by
  unfold encodeTail
  cases m.IsNTT <;> cases m.IsMontgomery <;> simp

theorem MetaData.Encode_of_scale_ok (c : ScaleCodec Sc SE) (m : MetaData Sc) (p q : List Byte)
    (n : Nat) (hlen : m.BinarySize c ≤ p.length) (he : c.Encode m.Scale p = (n, none, q))
    (hn : n + 4 < q.length) :
    m.Encode c p = .returned (n + 5, none, encodeTail m n q) := by
  have h1 : ¬ p.length < m.BinarySize c := by omega
  unfold MetaData.Encode
  rw [if_neg h1, he]
  simp only []
  rw [store_of_lt _ (by omega)]
  simp only [Outcome.returned_bind]
  rw [store_of_lt _ (by simp; omega)]
  simp only [Outcome.returned_bind]
  rw [store_of_lt _ (by simp; omega)]
  simp only [Outcome.returned_bind]
  unfold encodeTail
  cases hN : m.IsNTT <;> cases hM : m.IsMontgomery <;>
    simp [store, hn, show n + 3 < q.length by omega]

theorem load_of_lt_getD {p : List Byte} {n : Nat} (h : n < p.length) :
    load p n = .returned (p.getD n 0) := by
  simp [load, h, List.getD]

theorem MetaData.Decode_of_scale_ok (c : ScaleCodec Sc SE) (m : MetaData Sc) (p : List Byte)
    (n : Nat) (s : Sc) (hlen : m.BinarySize c ≤ p.length)
    (he : c.Decode m.Scale p = (n, none, s)) (hn : n + 4 < p.length) :
    m.Decode c p = .returned (n + 5, none, decodeTail s n p) := by
  have h1 : ¬ p.length < m.BinarySize c := by omega
  unfold MetaData.Decode
  rw [if_neg h1, he]
  simp only []
  rw [load_of_lt_getD (by omega : n < p.length)]
  simp only [Outcome.returned_bind]
  rw [load_of_lt_getD (by omega : n + 1 < p.length)]
  simp only [Outcome.returned_bind]
  rw [load_of_lt_getD (by omega : n + 1 + 1 < p.length)]
  simp only [Outcome.returned_bind]
  rw [load_of_lt_getD (by omega : n + 1 + 1 + 1 < p.length)]
  simp only [Outcome.returned_bind]
  rw [load_of_lt_getD (by omega : n + 1 + 1 + 1 + 1 < p.length)]
  simp only [Outcome.returned_bind, Outcome.pure_eq]
  rfl

theorem byteScaleCodec_succeeds : byteScaleCodec.Succeeds := by
  intro s p hp
  have hp' : 0 < p.length := hp
  refine ⟨⟨p.set 0 s, ?_, by simp⟩, ?_⟩
  · simp [byteScaleCodec, hp']
  · cases p with
    | nil => simp at hp'
    | cons b t => exact ⟨b, rfl⟩

/-- C2: `Encode` and `Decode` return the size error with byte count 0 exactly when the
buffer is shorter than `BinarySize() = 5 + Scale.BinarySize()`; on every buffer of at least
that length (in particular of exactly that length) they succeed, given a Scale codec that
succeeds on buffers of at least its own size. -/
theorem MetaData.size_contract (c : ScaleCodec Sc SE) (hc : c.Succeeds) (m : MetaData Sc)
    (p : List Byte) :
    m.BinarySize c = 5 + c.BinarySize m.Scale ∧
    ((∃ n q, m.Encode c p = .returned (n, some .encodeTooSmall, q)) ↔
      p.length < m.BinarySize c) ∧
    ((∃ n r, m.Decode c p = .returned (n, some .decodeTooSmall, r)) ↔
      p.length < m.BinarySize c) ∧
    (p.length < m.BinarySize c →
      m.Encode c p = .returned (0, some .encodeTooSmall, p) ∧
      m.Decode c p = .returned (0, some .decodeTooSmall, m)) ∧
    (m.BinarySize c ≤ p.length →
      (∃ q, m.Encode c p = .returned (m.BinarySize c, none, q)) ∧
      (∃ r, m.Decode c p = .returned (m.BinarySize c, none, r))) := by
  have hsmall : p.length < m.BinarySize c →
      m.Encode c p = .returned (0, some .encodeTooSmall, p) ∧
      m.Decode c p = .returned (0, some .decodeTooSmall, m) := by
    intro h
    simp [MetaData.Encode, MetaData.Decode, h]
  have hbig : m.BinarySize c ≤ p.length →
      (∃ q, m.Encode c p = .returned (m.BinarySize c, none, q)) ∧
      (∃ r, m.Decode c p = .returned (m.BinarySize c, none, r)) := by
    intro h
    have hs : c.BinarySize m.Scale ≤ p.length := by
      unfold MetaData.BinarySize at h; omega
    obtain ⟨⟨q, hq, hql⟩, ⟨t, ht⟩⟩ := hc m.Scale p hs
    have hsz : m.BinarySize c = c.BinarySize m.Scale + 5 := by
      unfold MetaData.BinarySize; omega
    refine ⟨⟨encodeTail m (c.BinarySize m.Scale) q, ?_⟩,
      ⟨decodeTail t (c.BinarySize m.Scale) p, ?_⟩⟩
    · rw [hsz]
      exact MetaData.Encode_of_scale_ok c m p q _ h hq (by omega)
    · rw [hsz]
      exact MetaData.Decode_of_scale_ok c m p _ t h ht (by omega)
  refine ⟨rfl, ⟨?_, ?_⟩, ⟨?_, ?_⟩, hsmall, hbig⟩
  · rintro ⟨n, q, h⟩
    by_contra hlt
    obtain ⟨⟨q', hq'⟩, _⟩ := hbig (by omega)
    rw [hq'] at h
    simp at h
  · intro h
    exact ⟨_, _, (hsmall h).1⟩
  · rintro ⟨n, r, h⟩
    by_contra hlt
    obtain ⟨_, ⟨r', hr'⟩⟩ := hbig (by omega)
    rw [hr'] at h
    simp at h
  · intro h
    exact ⟨_, _, (hsmall h).2⟩


theorem encodeTail_getElem?_lt (m : MetaData Sc) (n : Nat) (q : List Byte) (j : Nat) (hj : j < n) :
    (encodeTail m n q)[j]? = q[j]? := by
  have hne : ∀ (l : List Byte) (i : Nat) (v : Byte), n ≤ i → (l.set i v)[j]? = l[j]? :=
    fun l i v hi => List.getElem?_set_ne (by omega)
  unfold encodeTail
  cases m.IsNTT <;> cases m.IsMontgomery <;> simp [hne]

theorem encodeTail_getD (m : MetaData Sc) (n : Nat) (q : List Byte) (hn : n + 4 < q.length) :
    (encodeTail m n q).getD n 0 = uint8OfInt m.EncodingDomain ∧
    (encodeTail m n q).getD (n + 1) 0 = uint8OfInt m.LogSlots.1 ∧
    (encodeTail m n q).getD (n + 2) 0 = uint8OfInt m.LogSlots.2 ∧
    (encodeTail m n q).getD (n + 3) 0 = (if m.IsNTT then 1 else q.getD (n + 3) 0) ∧
    (encodeTail m n q).getD (n + 4) 0 = (if m.IsMontgomery then 1 else q.getD (n + 4) 0) := by
  have h0 : n < q.length := by omega
  have h1 : n + 1 < q.length := by omega
  have h2 : n + 2 < q.length := by omega
  have h3 : n + 3 < q.length := by omega
  unfold encodeTail
  cases m.IsNTT <;> cases m.IsMontgomery <;>
    simp [List.getD_eq_getElem?_getD, List.getElem?_set, h0, h1, h2, h3, hn]

theorem uint8OfInt_val (x : Int) (h0 : 0 ≤ x) (h1 : x ≤ 255) : ((uint8OfInt x).val : Int) = x := by
  simp only [uint8OfInt]
  omega

theorem intOfInt8_uint8OfInt (x : Int) (h0 : -128 ≤ x) (h1 : x ≤ 127) :
    intOfInt8 (uint8OfInt x) = x := by
  simp only [uint8OfInt, intOfInt8]
  split <;> omega

theorem MetaData.Decode_returned (c : ScaleCodec Sc SE) (m m' : MetaData Sc) (p : List Byte)
    (n : Nat) (h : m.Decode c p = .returned (n, none, m')) :
    ∃ k s, c.Decode m.Scale p = (k, none, s) ∧ k + 4 < p.length ∧ n = k + 5 ∧
      m' = decodeTail s k p := by
  unfold MetaData.Decode at h
  split at h
  · simp at h
  · rename_i hlen
    split at h
    · simp at h
    · rename_i k s he
      by_cases hk : k + 4 < p.length
      · have := MetaData.Decode_of_scale_ok c m p k s (by omega) he hk
        unfold MetaData.Decode at this
        rw [if_neg hlen, he] at this
        simp only [] at this
        rw [this] at h
        simp at h
        exact ⟨k, s, he, hk, h.1.symm, h.2.symm⟩
      · exfalso
        simp only [load] at h
        have h4 : p[k + 1 + 1 + 1 + 1]? = none := List.getElem?_eq_none (by omega)
        cases h0 : p[k]? <;> cases h1 : p[k + 1]? <;> cases h2 : p[k + 1 + 1]? <;>
          cases h3 : p[k + 1 + 1 + 1]? <;> simp [h0, h1, h2, h3, h4] at h


theorem byteScaleCodec_roundTrips : byteScaleCodec.RoundTrips := by
  refine ⟨fun _ _ => rfl, ?_⟩
  intro s p hp
  have hp' : 0 < p.length := hp
  refine ⟨p.set 0 s, by simp [byteScaleCodec, hp'], by simp, ?_, ?_⟩
  · intro j hj
    exact List.getElem?_set_ne (by change 1 ≤ j at hj; omega)
  · intro r t ht htq
    cases t with
    | nil => simp at ht; omega
    | cons b u =>
      have := htq 0 (Nat.zero_lt_one)
      simp [hp'] at this
      exact ⟨b, rfl, by simp [byteScaleCodec, this]⟩

/-- C1: for a MetaData whose EncodingDomain is Slots or Coefficients and whose LogSlots lie
in [-128, 127], and a Scale codec that round-trips, `MarshalBinary` succeeds with a buffer
of `BinarySize()` bytes, and `UnmarshalBinary` / `Decode` of that buffer (on any receiver)
succeeds with a MetaData that `Equal` reports identical to the original. -/
theorem MetaData.marshal_roundtrip (c : ScaleCodec Sc SE) (hc : c.RoundTrips) (m : MetaData Sc)
    (hdom : m.EncodingDomain = SlotsDomain ∨ m.EncodingDomain = CoefficientsDomain)
    (hlog0 : -128 ≤ m.LogSlots.1 ∧ m.LogSlots.1 ≤ 127)
    (hlog1 : -128 ≤ m.LogSlots.2 ∧ m.LogSlots.2 ≤ 127) (r : MetaData Sc) :
    ∃ p m', m.MarshalBinary c = .returned (p, none) ∧ p.length = m.BinarySize c ∧
      r.Decode c p = .returned (m.BinarySize c, none, m') ∧
      r.UnmarshalBinary c p = .returned (none, m') ∧
      m'.Equal c m = true := by
  obtain ⟨hfix, hrt⟩ := hc
  set sz := c.BinarySize m.Scale with hsz
  set p0 : List Byte := List.replicate (m.BinarySize c) 0 with hp0
  have hB : m.BinarySize c = sz + 5 := by unfold MetaData.BinarySize; omega
  have hp0l : p0.length = sz + 5 := by simp [hp0, hB]
  obtain ⟨q, hq, hql, hqrest, hdec⟩ := hrt m.Scale p0 (by omega)
  have hql' : q.length = sz + 5 := by omega
  have henc := MetaData.Encode_of_scale_ok c m p0 q sz (by omega) hq (by omega)
  have hpl : (encodeTail m sz q).length = sz + 5 := by rw [encodeTail_length]; exact hql'
  obtain ⟨s', hs', heq⟩ := hdec r.Scale (encodeTail m sz q) (by rw [encodeTail_length])
    (fun j hj => encodeTail_getElem?_lt m sz q j hj)
  have hrB : r.BinarySize c = sz + 5 := by
    unfold MetaData.BinarySize; rw [hfix r.Scale m.Scale]; omega
  have hdecode := MetaData.Decode_of_scale_ok c r (encodeTail m sz q) sz s' (by omega) hs'
    (by omega)
  refine ⟨encodeTail m sz q, decodeTail s' sz (encodeTail m sz q), ?_, by omega, ?_, ?_, ?_⟩
  · simp only [MetaData.MarshalBinary]
    rw [← hp0, henc]
  · rw [hB]; exact hdecode
  · simp only [MetaData.UnmarshalBinary]
    rw [hdecode]
  · obtain ⟨g0, g1, g2, g3, g4⟩ := encodeTail_getD m sz q (by omega)
    have z3 : q.getD (sz + 3) 0 = 0 := by
      rw [List.getD_eq_getElem?_getD, hqrest _ (by omega)]
      simp [hp0]
    have z4 : q.getD (sz + 4) 0 = 0 := by
      rw [List.getD_eq_getElem?_getD, hqrest _ (by omega)]
      simp [hp0]
    have e0 : ((uint8OfInt m.EncodingDomain).val : Int) = m.EncodingDomain := by
      apply uint8OfInt_val <;> rcases hdom with h | h <;> rw [h] <;> decide
    have e1 := intOfInt8_uint8OfInt _ hlog0.1 hlog0.2
    have e2 := intOfInt8_uint8OfInt _ hlog1.1 hlog1.2
    simp only [MetaData.Equal, decodeTail, g0, g1, g2, g3, g4, z3, z4, e0, e1, e2, heq]
    cases m.IsNTT <;> cases m.IsMontgomery <;> simp


/-- Witness for C1 on the one-byte Scale codec. -/
theorem MetaData.marshal_roundtrip_witness :
    byteScaleCodec.RoundTrips ∧
    ((⟨7, 1, (3, -1), true, false⟩ : MetaData Byte).EncodingDomain = SlotsDomain ∨
      (⟨7, 1, (3, -1), true, false⟩ : MetaData Byte).EncodingDomain = CoefficientsDomain) ∧
    ∃ p m', MetaData.MarshalBinary byteScaleCodec ⟨7, 1, (3, -1), true, false⟩
        = .returned (p, none) ∧
      p.length = MetaData.BinarySize byteScaleCodec ⟨7, 1, (3, -1), true, false⟩ ∧
      MetaData.Decode byteScaleCodec ⟨0, 0, (0, 0), false, false⟩ p
        = .returned (MetaData.BinarySize byteScaleCodec ⟨7, 1, (3, -1), true, false⟩, none, m') ∧
      MetaData.UnmarshalBinary byteScaleCodec ⟨0, 0, (0, 0), false, false⟩ p
        = .returned (none, m') ∧
      MetaData.Equal byteScaleCodec m' ⟨7, 1, (3, -1), true, false⟩ = true :=
  ⟨byteScaleCodec_roundTrips, Or.inr rfl,
    MetaData.marshal_roundtrip byteScaleCodec byteScaleCodec_roundTrips
      ⟨7, 1, (3, -1), true, false⟩ (Or.inr rfl) (by decide) (by decide)
      ⟨0, 0, (0, 0), false, false⟩⟩

/-- Witness for C2 on the one-byte Scale codec and a six-byte buffer. -/
theorem MetaData.size_contract_witness :
    byteScaleCodec.Succeeds ∧
    MetaData.BinarySize byteScaleCodec ⟨7, 1, (3, -1), true, false⟩ = 5 + 1 ∧
    (∃ q, MetaData.Encode byteScaleCodec ⟨7, 1, (3, -1), true, false⟩ [0, 0, 0, 0, 0, 0]
      = .returned (6, none, q)) :=
  ⟨byteScaleCodec_succeeds,
    (MetaData.size_contract byteScaleCodec byteScaleCodec_succeeds
      ⟨7, 1, (3, -1), true, false⟩ [0, 0, 0, 0, 0, 0]).1,
    ((MetaData.size_contract byteScaleCodec byteScaleCodec_succeeds
      ⟨7, 1, (3, -1), true, false⟩ [0, 0, 0, 0, 0, 0]).2.2.2.2 (by decide)).1⟩

/-- C3 (the code at the failing input): encoding a MetaData whose two flags are false into a
six-byte buffer that holds 1 at the two flag offsets succeeds with n = 6 and leaves both
flag bytes at 1 instead of 0; decoding that buffer reports both flags true. -/
theorem MetaData.Encode_keeps_stale_flag_bytes :
    MetaData.Encode byteScaleCodec ⟨7, 1, (3, -1), false, false⟩ [9, 9, 9, 9, 1, 1]
      = .returned (6, none, [7, 1, 3, 255, 1, 1]) ∧
    MetaData.Decode byteScaleCodec ⟨0, 0, (0, 0), false, false⟩ [7, 1, 3, 255, 1, 1]
      = .returned (6, none, ⟨7, 1, (3, -1), true, true⟩) := by
  decide

/-- C4 (counterexample): a buffer whose two flag bytes are 2 decodes with both flags false,
although the flag bytes are nonzero. -/
theorem MetaData.Decode_flag_byte_two :
    MetaData.Decode byteScaleCodec ⟨0, 0, (0, 0), false, false⟩ [7, 1, 3, 255, 2, 2]
      = .returned (6, none, ⟨7, 1, (3, -1), false, false⟩) ∧
    ([7, 1, 3, 255, 2, 2] : List Byte)[4]? ≠ some 0 ∧
    ([7, 1, 3, 255, 2, 2] : List Byte)[5]? ≠ some 0 := by
  decide

/-- C4 (amended): whenever `Decode` succeeds with byte count n, the flag bytes sit at
offsets n - 2 and n - 1 of the buffer, and IsNTT (resp. IsMontgomery) is true exactly when
its flag byte equals 1; every other byte value, zero or not, gives false. -/
theorem MetaData.Decode_flags (c : ScaleCodec Sc SE) (m m' : MetaData Sc) (p : List Byte)
    (n : Nat) (h : m.Decode c p = .returned (n, none, m')) :
    ∃ b3 b4, 5 ≤ n ∧ p[n - 2]? = some b3 ∧ p[n - 1]? = some b4 ∧
      (m'.IsNTT = true ↔ b3 = 1) ∧ (m'.IsMontgomery = true ↔ b4 = 1) := by
  obtain ⟨k, s, _, hk, hn, hm⟩ := MetaData.Decode_returned c m m' p n h
  subst hn hm
  have h3 : k + 3 < p.length := by omega
  refine ⟨p.getD (k + 3) 0, p.getD (k + 4) 0, by omega, ?_, ?_, ?_, ?_⟩
  · rw [show k + 5 - 2 = k + 3 by omega]
    simp [List.getD_eq_getElem?_getD, h3]
  · rw [show k + 5 - 1 = k + 4 by omega]
    simp [List.getD_eq_getElem?_getD, hk]
  · simp [decodeTail]
  · simp [decodeTail]

/-- Witness for the amended C4 on the one-byte Scale codec. -/
theorem MetaData.Decode_flags_witness :
    MetaData.Decode byteScaleCodec ⟨0, 0, (0, 0), false, false⟩ [7, 1, 3, 255, 2, 1]
      = .returned (6, none, ⟨7, 1, (3, -1), false, true⟩) ∧
    ∃ b3 b4, 5 ≤ 6 ∧ ([7, 1, 3, 255, 2, 1] : List Byte)[6 - 2]? = some b3 ∧
      ([7, 1, 3, 255, 2, 1] : List Byte)[6 - 1]? = some b4 ∧
      ((⟨7, 1, (3, -1), false, true⟩ : MetaData Byte).IsNTT = true ↔ b3 = 1) ∧
      ((⟨7, 1, (3, -1), false, true⟩ : MetaData Byte).IsMontgomery = true ↔ b4 = 1) :=
  ⟨by decide, MetaData.Decode_flags byteScaleCodec ⟨0, 0, (0, 0), false, false⟩
    ⟨7, 1, (3, -1), false, true⟩ [7, 1, 3, 255, 2, 1] 6 (by decide)⟩


/-! ## The merge phase: compaction -/

theorem compactFrom_succ_some (n i idx : Nat) (tmp : List (Option (Poly H))) (p : Poly H)
    (h : tmp[i]? = some (some p)) (hidx : idx < tmp.length) :
    compactFrom (n + 1) i idx tmp = compactFrom n (i + 1) (idx + 1) (tmp.set idx (some p)) := by
  simp [compactFrom, h, hidx]

theorem compactFrom_succ_none (n i idx : Nat) (tmp : List (Option (Poly H)))
    (h : tmp[i]? = some none) :
    compactFrom (n + 1) i idx tmp = compactFrom n (i + 1) idx tmp := by
  simp [compactFrom, h]

theorem compactFrom_spec (C : List (Option (Poly H))) :
    ∀ A B : List (Option (Poly H)),
      ∃ T, compactFrom C.length (A.length + B.length) A.length (A ++ B ++ C)
          = .returned (T, A.length + (C.filter Option.isSome).length) ∧
        T.length = (A ++ B ++ C).length ∧
        T.take (A.length + (C.filter Option.isSome).length) = A ++ C.filter Option.isSome := by
  induction C with
  | nil =>
    intro A B
    refine ⟨A ++ B ++ [], ?_, rfl, ?_⟩
    · simp [compactFrom]
    · simp
  | cons c C ih =>
    intro A B
    have hget : (A ++ B ++ c :: C)[A.length + B.length]? = some c := by
      rw [← List.length_append, List.getElem?_append_right (Nat.le_refl _)]
      simp
    cases c with
    | none =>
      obtain ⟨T, h1, h2, h3⟩ := ih A (B ++ [none])
      refine ⟨T, ?_, ?_, ?_⟩
      · rw [List.length_cons, compactFrom_succ_none _ _ _ _ hget]
        convert h1 using 2
        · simp; omega
        · simp
      · simpa using h2
      · simpa using h3
    | some p =>
      have hidx : A.length < (A ++ B ++ some p :: C).length := by
        simp only [List.length_append, List.length_cons]; omega
      have hfl : A.length + (List.filter Option.isSome (some p :: C)).length
          = (A ++ [some p]).length + (List.filter Option.isSome C).length := by
        simp; omega
      cases B with
      | nil =>
        obtain ⟨T, h1, h2, h3⟩ := ih (A ++ [some p]) []
        have hset : (A ++ [] ++ some p :: C).set A.length (some p) = A ++ [some p] ++ [] ++ C := by
          simp [List.set_append]
        refine ⟨T, ?_, ?_, ?_⟩
        · rw [List.length_cons, compactFrom_succ_some _ _ _ _ p hget hidx, hset, hfl]
          convert h1 using 2
          · simp
          · simp
        · simpa using h2
        · rw [hfl]
          simpa using h3
      | cons b B =>
        obtain ⟨T, h1, h2, h3⟩ := ih (A ++ [some p]) (B ++ [some p])
        have hset : (A ++ b :: B ++ some p :: C).set A.length (some p)
            = A ++ [some p] ++ (B ++ [some p]) ++ C := by
          simp [List.set_append]
        refine ⟨T, ?_, ?_, ?_⟩
        · rw [List.length_cons, compactFrom_succ_some _ _ _ _ p hget hidx, hset, hfl]
          convert h1 using 2
          · simp; omega
          · simp
        · simp at h2 ⊢
          omega
        · rw [hfl]
          simpa using h3

/-- The in-place compaction keeps exactly the live entries, in their order. -/
theorem compact_eq_filter (tmp : List (Option (Poly H))) :
    compact tmp = .returned (tmp.filter Option.isSome) := by
  obtain ⟨T, h1, h2, h3⟩ := compactFrom_spec tmp [] []
  simp only [List.length_nil, Nat.zero_add, List.nil_append] at h1 h2 h3
  have hle : (tmp.filter Option.isSome).length ≤ T.length := by
    rw [h2]; exact List.length_filter_le _ _
  simp only [compact, h1, if_pos hle, h3]

/-! ## The merge primitive -/

@[simp]
theorem Run.record_st (w : Run σ H E Sc SI) (st : σ) (ev : Event H E Sc SI) :
    (w.record st ev).st = st := rfl

@[simp]
theorem Run.record_log (w : Run σ H E Sc SI) (st : σ) (ev : Event H E Sc SI) :
    (w.record st ev).log = w.log ++ [ev] := rfl

@[simp]
theorem Run.record_rounds (w : Run σ H E Sc SI) (st : σ) (ev : Event H E Sc SI) :
    (w.record st ev).rounds = w.rounds := rfl

theorem evalMonomial_cases (eval : PolynomialEvaluatorInterface σ H E Sc SI)
    (cm : CiphertextModel σ H Sc) (a b xpow : H) (w : Run σ H E Sc SI) :
    (∃ e w', evalMonomial eval cm a b xpow w = (.returned (some e), w') ∧
      w'.log = w.log ++ relinCalls cm w.st b ++ [.rescale b b (some e)] ∧
      w'.rounds = w.rounds) ∨
    (∃ w', evalMonomial eval cm a b xpow w = (.panicked .scaleDiscrepancy, w') ∧
      w'.log = w.log ++ relinCalls cm w.st b ++
        [.rescale b b none, .mul b xpow b, .inDelta a b false] ∧
      w'.rounds = w.rounds) ∨
    (∃ w', evalMonomial eval cm a b xpow w = (.returned none, w') ∧
      w'.log = w.log ++ relinCalls cm w.st b ++
        [.rescale b b none, .mul b xpow b, .inDelta a b true, .add b a b] ∧
      w'.rounds = w.rounds) := by
  unfold evalMonomial relinCalls
  by_cases hd : cm.Degree w.st b = 2
  · simp only [hd, if_true, Run.record_st]
    rcases hr : eval.Rescale b b (eval.Relinearize b b w.st) with ⟨_ | e, st⟩
    · simp only []
      cases hok : cm.InDelta
        (cm.Scale (eval.Mul b xpow b st) a) (cm.Scale (eval.Mul b xpow b st) b)
        (cm.ScalePrecision - 12)
      · simp only [Bool.not_false, if_true]
        exact Or.inr (Or.inl ⟨_, rfl, by simp, by simp⟩)
      · simp only [Bool.not_true, Bool.false_eq_true, if_false]
        exact Or.inr (Or.inr ⟨_, rfl, by simp, by simp⟩)
    · exact Or.inl ⟨e, _, rfl, by simp, by simp⟩
  · simp only [hd, if_false]
    rcases hr : eval.Rescale b b w.st with ⟨_ | e, st⟩
    · simp only [Run.record_st]
      cases hok : cm.InDelta
        (cm.Scale (eval.Mul b xpow b st) a) (cm.Scale (eval.Mul b xpow b st) b)
        (cm.ScalePrecision - 12)
      · simp only [Bool.not_false, if_true]
        exact Or.inr (Or.inl ⟨_, rfl, by simp, by simp⟩)
      · simp only [Bool.not_true, Bool.false_eq_true, if_false]
        exact Or.inr (Or.inr ⟨_, rfl, by simp, by simp⟩)
    · exact Or.inl ⟨e, _, rfl, by simp, by simp⟩


/-! ## The merge phase: one step of the scan -/

theorem deref_of_live {tmp : List (Option (Poly H))} {k : Nat} {p : Poly H}
    (h : tmp[k]? = some (some p)) : deref tmp k = .returned p := by
  simp [deref, h]

theorem scan_done (eval : PolynomialEvaluatorInterface σ H E Sc SI) (cm : CiphertextModel σ H Sc)
    (pb : PowerBasis H) (fuel i : Nat) (tmp : List (Option (Poly H))) (w : Run σ H E Sc SI)
    (h : ¬ i < tmp.length) : scan eval cm pb (fuel + 1) i tmp w = .next tmp w := by
  simp [scan, h]

theorem scan_last (eval : PolynomialEvaluatorInterface σ H E Sc SI) (cm : CiphertextModel σ H Sc)
    (pb : PowerBasis H) (fuel i : Nat) (tmp : List (Option (Poly H))) (w : Run σ H E Sc SI)
    (prev cur : Poly H) (hi : i + 1 = tmp.length) (h0 : i ≠ 0)
    (hprev : tmp[i - 1]? = some (some prev)) (hcur : tmp[i]? = some (some cur)) :
    scan eval cm pb (fuel + 1) i tmp w
      = scan eval cm pb fuel (i + 1) (tmp.set i (some { cur with Degree := prev.Degree })) w := by
  have h1 : i < tmp.length := by omega
  have h2 : i = tmp.length - 1 := by omega
  rw [scan, if_pos h1, if_pos h2, if_neg h0, deref_of_live hprev, deref_of_live hcur]

theorem scan_skip (eval : PolynomialEvaluatorInterface σ H E Sc SI) (cm : CiphertextModel σ H Sc)
    (pb : PowerBasis H) (fuel i : Nat) (tmp : List (Option (Poly H))) (w : Run σ H E Sc SI)
    (even odd : Poly H) (hi : i + 1 < tmp.length)
    (heven : tmp[i]? = some (some even)) (hodd : tmp[i + 1]? = some (some odd))
    (hne : even.Degree ≠ odd.Degree) :
    scan eval cm pb (fuel + 1) i tmp w = scan eval cm pb fuel (i + 1) tmp w := by
  have h1 : i < tmp.length := by omega
  have h2 : ¬ i = tmp.length - 1 := by omega
  rw [scan, if_pos h1, if_neg h2, deref_of_live heven, deref_of_live hodd]
  simp only [if_neg hne]

theorem scan_merge_ok (eval : PolynomialEvaluatorInterface σ H E Sc SI)
    (cm : CiphertextModel σ H Sc) (pb : PowerBasis H) (fuel i : Nat)
    (tmp : List (Option (Poly H))) (w w' : Run σ H E Sc SI)
    (even odd : Poly H) (hi : i + 1 < tmp.length)
    (heven : tmp[i]? = some (some even)) (hodd : tmp[i + 1]? = some (some odd))
    (heq : even.Degree = odd.Degree)
    (hm : evalMonomial eval cm even.Value odd.Value (pb.Value (mergeExponent even.Degree)) w
      = (.returned none, w')) :
    scan eval cm pb (fuel + 1) i tmp w
      = scan eval cm pb fuel (i + 1 + 1)
          ((tmp.set (i + 1)
            (some { odd with Degree := mergedDegree (mergeExponent even.Degree) })).set i none)
          w' := by
  have h1 : i < tmp.length := by omega
  have h2 : ¬ i = tmp.length - 1 := by omega
  rw [scan, if_pos h1, if_neg h2, deref_of_live heven, deref_of_live hodd]
  simp only [if_pos heq, hm]

theorem scan_merge_error (eval : PolynomialEvaluatorInterface σ H E Sc SI)
    (cm : CiphertextModel σ H Sc) (pb : PowerBasis H) (fuel i : Nat)
    (tmp : List (Option (Poly H))) (w w' : Run σ H E Sc SI)
    (even odd : Poly H) (e : E) (hi : i + 1 < tmp.length)
    (heven : tmp[i]? = some (some even)) (hodd : tmp[i + 1]? = some (some odd))
    (heq : even.Degree = odd.Degree)
    (hm : evalMonomial eval cm even.Value odd.Value (pb.Value (mergeExponent even.Degree)) w
      = (.returned (some e), w')) :
    scan eval cm pb (fuel + 1) i tmp w = .exit (.error (.plain e)) w' := by
  have h1 : i < tmp.length := by omega
  have h2 : ¬ i = tmp.length - 1 := by omega
  rw [scan, if_pos h1, if_neg h2, deref_of_live heven, deref_of_live hodd]
  simp only [if_pos heq, hm]

theorem scan_merge_panic (eval : PolynomialEvaluatorInterface σ H E Sc SI)
    (cm : CiphertextModel σ H Sc) (pb : PowerBasis H) (fuel i : Nat)
    (tmp : List (Option (Poly H))) (w w' : Run σ H E Sc SI)
    (even odd : Poly H) (x : Panic) (hi : i + 1 < tmp.length)
    (heven : tmp[i]? = some (some even)) (hodd : tmp[i + 1]? = some (some odd))
    (heq : even.Degree = odd.Degree)
    (hm : evalMonomial eval cm even.Value odd.Value (pb.Value (mergeExponent even.Degree)) w
      = (.panicked x, w')) :
    scan eval cm pb (fuel + 1) i tmp w = .exit (.panic x) w' := by
  have h1 : i < tmp.length := by omega
  have h2 : ¬ i = tmp.length - 1 := by omega
  rw [scan, if_pos h1, if_neg h2, deref_of_live heven, deref_of_live hodd]
  simp only [if_pos heq, hm]

/-! ## The merge phase: invariants of the scan -/

theorem evalMonomial_panic (eval : PolynomialEvaluatorInterface σ H E Sc SI)
    (cm : CiphertextModel σ H Sc) (a b xpow : H) (w w' : Run σ H E Sc SI) (x : Panic)
    (h : evalMonomial eval cm a b xpow w = (.panicked x, w')) : x = .scaleDiscrepancy := by
  rcases evalMonomial_cases eval cm a b xpow w with ⟨e, w1, h1, _⟩ | ⟨w1, h1, _⟩ | ⟨w1, h1, _⟩ <;>
    rw [h1] at h <;> simp at h
  exact h.1.symm

theorem evalMonomial_rounds (eval : PolynomialEvaluatorInterface σ H E Sc SI)
    (cm : CiphertextModel σ H Sc) (a b xpow : H) (w : Run σ H E Sc SI) :
    (evalMonomial eval cm a b xpow w).2.rounds = w.rounds := by
  rcases evalMonomial_cases eval cm a b xpow w with ⟨e, w1, h1, _, h3⟩ | ⟨w1, h1, _, h3⟩ |
    ⟨w1, h1, _, h3⟩ <;> rw [h1] <;> exact h3

theorem scan_spec (eval : PolynomialEvaluatorInterface σ H E Sc SI) (cm : CiphertextModel σ H Sc)
    (pb : PowerBasis H) :
    ∀ (fuel i : Nat) (tmp : List (Option (Poly H))) (w : Run σ H E Sc SI),
      i ≤ tmp.length → tmp.length < fuel + i → tmp.length ≠ 1 →
      (∀ k, i ≤ k → k < tmp.length → Live tmp k) → (0 < i → Live tmp (i - 1)) →
      (∃ r w', scan eval cm pb fuel i tmp w = .exit r w' ∧ w'.rounds = w.rounds ∧
          ((∃ e, r = .error (.plain e)) ∨ r = .panic .scaleDiscrepancy)) ∨
      (∃ tmp' w', scan eval cm pb fuel i tmp w = .next tmp' w' ∧ w'.rounds = w.rounds ∧
          tmp'.length = tmp.length ∧ (∀ k, k < i → tmp'[k]? = tmp[k]?) ∧
          (0 < tmp.length → Live tmp' (tmp.length - 1)) ∧
          ((∃ k, i ≤ k ∧ k < tmp.length ∧ tmp'[k]? = some none) ∨
            ((∀ k, i ≤ k → k < tmp.length → Live tmp' k) ∧ (i < tmp.length → EqLast tmp'))) ∧
          (i + 2 ≤ tmp.length → EqLast tmp →
            ∃ k, i ≤ k ∧ k < tmp.length ∧ tmp'[k]? = some none)) := by
  intro fuel
  induction fuel with
  | zero => intro i tmp w h1 h2; omega
  | succ fuel ih =>
    intro i tmp w hile hfuel hne1 hlive hprev
    by_cases hi : i < tmp.length
    · by_cases hlast : i + 1 = tmp.length
      · -- the last position: relabel with the degree of the predecessor
        have h0 : i ≠ 0 := by omega
        obtain ⟨prev, hp⟩ := hprev (by omega)
        obtain ⟨cur, hc⟩ := hlive i (Nat.le_refl _) hi
        rw [scan_last eval cm pb fuel i tmp w prev cur hlast h0 hp hc]
        have hlen : (tmp.set i (some { cur with Degree := prev.Degree })).length = tmp.length :=
          List.length_set _ _ _
        have hself : (tmp.set i (some { cur with Degree := prev.Degree }))[i]?
            = some (some { cur with Degree := prev.Degree }) := List.getElem?_set_self hi
        rcases ih (i + 1) (tmp.set i (some { cur with Degree := prev.Degree })) w
            (by rw [hlen]; omega) (by rw [hlen]; omega) (by rw [hlen]; exact hne1)
            (by intro k hk1 hk2; rw [hlen] at hk2; omega)
            (by intro _; exact ⟨_, by simpa using hself⟩) with
          ⟨r, w', hs, hr, hres⟩ | ⟨tmp', w', hs, hr, hl, hpre, -, -, -⟩
        · exact Or.inl ⟨r, w', hs, hr, hres⟩
        · have hpre' : ∀ k, k < i → tmp'[k]? = tmp[k]? := by
            intro k hk
            rw [hpre k (by omega)]
            exact List.getElem?_set_ne (by omega)
          have hi' : tmp'[i]? = some (some { cur with Degree := prev.Degree }) := by
            rw [hpre i (by omega)]; exact hself
          refine Or.inr ⟨tmp', w', hs, hr, by rw [hl, hlen], hpre', ?_, Or.inr ⟨?_, ?_⟩, ?_⟩
          · intro _
            rw [show tmp.length - 1 = i by omega]
            exact ⟨_, hi'⟩
          · intro k hk1 hk2
            have : k = i := by omega
            subst this
            exact ⟨_, hi'⟩
          · intro _
            have e2 : tmp'.length - 2 = i - 1 := by rw [hl, hlen]; omega
            have e1 : tmp'.length - 1 = i := by rw [hl, hlen]; omega
            have e0 : 2 ≤ tmp'.length := by rw [hl, hlen]; omega
            have hp' : tmp'[i - 1]? = some (some prev) := by
              rw [hpre' (i - 1) (by omega)]; exact hp
            exact ⟨e0, prev, { cur with Degree := prev.Degree }, by rw [e2]; exact hp',
              by rw [e1]; exact hi', rfl⟩
          · intro h; omega
      · -- a position with a successor
        have hi1 : i + 1 < tmp.length := by omega
        obtain ⟨even, he⟩ := hlive i (Nat.le_refl _) hi
        obtain ⟨odd, ho⟩ := hlive (i + 1) (by omega) hi1
        by_cases heq : even.Degree = odd.Degree
        · rcases hm : evalMonomial eval cm even.Value odd.Value
              (pb.Value (mergeExponent even.Degree)) w with ⟨out, w1⟩
          have hrounds : w1.rounds = w.rounds := by
            have := evalMonomial_rounds eval cm even.Value odd.Value
              (pb.Value (mergeExponent even.Degree)) w
            rw [hm] at this; exact this
          cases out with
          | panicked x =>
            have hx := evalMonomial_panic eval cm _ _ _ _ _ _ hm
            subst hx
            rw [scan_merge_panic eval cm pb fuel i tmp w w1 even odd _ hi1 he ho heq hm]
            exact Or.inl ⟨_, _, rfl, hrounds, Or.inr rfl⟩
          | returned err =>
            cases err with
            | some e =>
              rw [scan_merge_error eval cm pb fuel i tmp w w1 even odd e hi1 he ho heq hm]
              exact Or.inl ⟨_, _, rfl, hrounds, Or.inl ⟨e, rfl⟩⟩
            | none =>
              rw [scan_merge_ok eval cm pb fuel i tmp w w1 even odd hi1 he ho heq hm]
              set tmp2 := (tmp.set (i + 1)
                (some { odd with Degree := mergedDegree (mergeExponent even.Degree) })).set i none
                with htmp2
              have hlen : tmp2.length = tmp.length := by simp [htmp2]
              have hget : ∀ k, k ≠ i → k ≠ i + 1 → tmp2[k]? = tmp[k]? := by
                intro k hk1 hk2
                rw [htmp2, List.getElem?_set_ne (by omega), List.getElem?_set_ne (by omega)]
              have hgi : tmp2[i]? = some none := by
                rw [htmp2]; exact List.getElem?_set_self (by simp; omega)
              have hgi1 : Live tmp2 (i + 1) := by
                refine ⟨{ odd with Degree := mergedDegree (mergeExponent even.Degree) }, ?_⟩
                rw [htmp2, List.getElem?_set_ne (by omega)]
                exact List.getElem?_set_self hi1
              rcases ih (i + 1 + 1) tmp2 w1 (by rw [hlen]; omega) (by rw [hlen]; omega)
                  (by rw [hlen]; exact hne1)
                  (by
                    intro k hk1 hk2
                    rw [hlen] at hk2
                    obtain ⟨p, hp⟩ := hlive k (by omega) hk2
                    exact ⟨p, by rw [hget k (by omega) (by omega)]; exact hp⟩)
                  (by intro _; simpa using hgi1) with
                ⟨r, w', hs, hr, hres⟩ | ⟨tmp', w', hs, hr, hl, hpre, hlst, -, -⟩
              · exact Or.inl ⟨r, w', hs, by rw [hr, hrounds], hres⟩
              · have hnone : ∃ k, i ≤ k ∧ k < tmp.length ∧ tmp'[k]? = some none :=
                  ⟨i, Nat.le_refl _, hi, by rw [hpre i (by omega)]; exact hgi⟩
                refine Or.inr ⟨tmp', w', hs, by rw [hr, hrounds], by rw [hl, hlen], ?_, ?_,
                  Or.inl hnone, fun _ _ => hnone⟩
                · intro k hk
                  rw [hpre k (by omega)]
                  exact hget k (by omega) (by omega)
                · intro h
                  have := hlst (by rw [hlen]; exact h)
                  rwa [hlen] at this
        · rw [scan_skip eval cm pb fuel i tmp w even odd hi1 he ho heq]
          rcases ih (i + 1) tmp w (by omega) (by omega) hne1
              (by intro k hk1 hk2; exact hlive k (by omega) hk2)
              (by intro _; exact ⟨even, by simpa using he⟩) with
            ⟨r, w', hs, hr, hres⟩ | ⟨tmp', w', hs, hr, hl, hpre, hlst, hdis, hprog⟩
          · exact Or.inl ⟨r, w', hs, hr, hres⟩
          · refine Or.inr ⟨tmp', w', hs, hr, hl, fun k hk => hpre k (by omega), hlst, ?_, ?_⟩
            · rcases hdis with ⟨k, hk1, hk2, hk3⟩ | ⟨hall, heql⟩
              · exact Or.inl ⟨k, by omega, hk2, hk3⟩
              · refine Or.inr ⟨?_, fun _ => heql hi1⟩
                intro k hk1 hk2
                by_cases hki : k = i
                · subst hki
                  exact ⟨even, by rw [hpre k (by omega)]; exact he⟩
                · exact hall k (by omega) hk2
            · intro h2 heqlast
              by_cases h3 : i + 1 + 2 ≤ tmp.length
              · obtain ⟨k, hk1, hk2, hk3⟩ := hprog h3 heqlast
                exact ⟨k, by omega, hk2, hk3⟩
              · exfalso
                obtain ⟨_, p, q, hp, hq, hpq⟩ := heqlast
                rw [show tmp.length - 2 = i by omega, he] at hp
                rw [show tmp.length - 1 = i + 1 by omega, ho] at hq
                simp at hp hq
                subst hp hq
                exact heq hpq
    · have hil : i = tmp.length := by omega
      rw [scan_done eval cm pb fuel i tmp w hi]
      refine Or.inr ⟨tmp, w, rfl, rfl, rfl, fun _ _ => rfl, ?_, Or.inr ⟨?_, ?_⟩, ?_⟩
      · intro h
        have := hprev (by omega)
        rwa [hil] at this
      · intro k hk1 hk2; omega
      · intro h; omega
      · intro h; omega

/-! ## The merge phase: rounds and termination -/

theorem mergeLoop_done (eval : PolynomialEvaluatorInterface σ H E Sc SI)
    (cm : CiphertextModel σ H Sc) (pb : PowerBasis H) (fuel : Nat)
    (tmp : List (Option (Poly H))) (w : Run σ H E Sc SI) (h : tmp.length = 1) :
    mergeLoop eval cm pb (fuel + 1) tmp w = .next tmp w := by
  simp [mergeLoop, h]

theorem mergeLoop_exit (eval : PolynomialEvaluatorInterface σ H E Sc SI)
    (cm : CiphertextModel σ H Sc) (pb : PowerBasis H) (fuel : Nat)
    (tmp : List (Option (Poly H))) (w w' : Run σ H E Sc SI) (r : Result H E)
    (h : tmp.length ≠ 1)
    (hs : scan eval cm pb (tmp.length + 1) 0 tmp { w with rounds := w.rounds + 1 } = .exit r w') :
    mergeLoop eval cm pb (fuel + 1) tmp w = .exit r w' := by
  rw [mergeLoop, if_pos h]
  simp only [hs]

theorem mergeLoop_next (eval : PolynomialEvaluatorInterface σ H E Sc SI)
    (cm : CiphertextModel σ H Sc) (pb : PowerBasis H) (fuel : Nat)
    (tmp tmp' : List (Option (Poly H))) (w w' : Run σ H E Sc SI)
    (h : tmp.length ≠ 1)
    (hs : scan eval cm pb (tmp.length + 1) 0 tmp { w with rounds := w.rounds + 1 }
      = .next tmp' w') :
    mergeLoop eval cm pb (fuel + 1) tmp w
      = mergeLoop eval cm pb fuel (tmp'.filter Option.isSome) w' := by
  rw [mergeLoop, if_pos h]
  simp only [hs, compact_eq_filter]

theorem live_of_mem_filter {tmp : List (Option (Poly H))} :
    AllLive (tmp.filter Option.isSome) := by
  intro k hk
  have hmem : (tmp.filter Option.isSome)[k] ∈ tmp.filter Option.isSome := List.getElem_mem hk
  have hsome := (List.mem_filter.mp hmem).2
  obtain ⟨p, hp⟩ := Option.isSome_iff_exists.mp hsome
  exact ⟨p, by rw [List.getElem?_eq_getElem hk, hp]⟩

theorem filter_eq_self_of_live {tmp : List (Option (Poly H))}
    (h : ∀ k, k < tmp.length → Live tmp k) : tmp.filter Option.isSome = tmp := by
  rw [List.filter_eq_self]
  intro a ha
  obtain ⟨n, hn⟩ := List.mem_iff_getElem?.mp ha
  have hlt : n < tmp.length := by
    by_contra hc
    rw [List.getElem?_eq_none (by omega)] at hn
    simp at hn
  obtain ⟨p, hp⟩ := h n hlt
  rw [hp] at hn
  simp at hn
  rw [← hn]
  rfl

theorem filter_length_lt_of_none {tmp : List (Option (Poly H))} {k : Nat}
    (h : tmp[k]? = some none) : (tmp.filter Option.isSome).length < tmp.length := by
  have hmem : (none : Option (Poly H)) ∈ tmp := List.mem_iff_getElem?.mpr ⟨k, h⟩
  by_contra hc
  have hle := List.length_filter_le Option.isSome tmp
  have heq : (tmp.filter Option.isSome).length = tmp.length := by omega
  have hsub : tmp.filter Option.isSome = tmp :=
    (List.filter_sublist tmp).eq_of_length heq
  have := (List.filter_eq_self.mp hsub) none hmem
  simp at this

theorem filter_length_pos_of_live {tmp : List (Option (Poly H))} {k : Nat}
    (h : Live tmp k) : 1 ≤ (tmp.filter Option.isSome).length := by
  obtain ⟨p, hp⟩ := h
  have hmem : some p ∈ tmp.filter Option.isSome :=
    List.mem_filter.mpr ⟨List.mem_iff_getElem?.mpr ⟨k, hp⟩, rfl⟩
  exact List.length_pos_of_mem hmem

/-- One round of the merge loop on a list of at least two live entries: it aborts as the
source intends, or it goes on with a list of live entries that is shorter, or of the same
length with its last two degrees equal; it is shorter whenever the last two degrees were
equal at the start of the round. -/
theorem round_spec (eval : PolynomialEvaluatorInterface σ H E Sc SI)
    (cm : CiphertextModel σ H Sc) (pb : PowerBasis H) (fuel : Nat)
    (tmp : List (Option (Poly H))) (w : Run σ H E Sc SI)
    (hlive : AllLive tmp) (hlen : 2 ≤ tmp.length) :
    (∃ r w', mergeLoop eval cm pb (fuel + 1) tmp w = .exit r w' ∧ MergeAbort r ∧
      w'.rounds = w.rounds + 1) ∨
    (∃ tmp' w', mergeLoop eval cm pb (fuel + 1) tmp w = mergeLoop eval cm pb fuel tmp' w' ∧
      w'.rounds = w.rounds + 1 ∧ AllLive tmp' ∧ 1 ≤ tmp'.length ∧
      (tmp'.length < tmp.length ∨ (tmp'.length = tmp.length ∧ EqLast tmp')) ∧
      (EqLast tmp → tmp'.length < tmp.length)) := by
  have hne : tmp.length ≠ 1 := by omega
  rcases scan_spec eval cm pb (tmp.length + 1) 0 tmp { w with rounds := w.rounds + 1 }
      (Nat.zero_le _) (by omega) hne (fun k _ hk => hlive k hk) (fun h => absurd h (by omega)) with
    ⟨r, w', hs, hr, hres⟩ | ⟨tmp', w', hs, hr, hl, -, hlst, hdis, hprog⟩
  · exact Or.inl ⟨r, w', mergeLoop_exit eval cm pb fuel tmp w w' r hne hs, hres, hr⟩
  · refine Or.inr ⟨tmp'.filter Option.isSome, w',
      mergeLoop_next eval cm pb fuel tmp tmp' w w' hne hs, hr, live_of_mem_filter,
      filter_length_pos_of_live (hlst (by omega)), ?_, ?_⟩
    · rcases hdis with ⟨k, _, _, hk⟩ | ⟨hall, heql⟩
      · left
        have := filter_length_lt_of_none hk
        omega
      · right
        have hself : tmp'.filter Option.isSome = tmp' :=
          filter_eq_self_of_live (fun k hk => hall k (Nat.zero_le _) (by omega))
        rw [hself]
        exact ⟨hl, heql (by omega)⟩
    · intro heq
      obtain ⟨k, _, _, hk⟩ := hprog (by omega) heq
      have := filter_length_lt_of_none hk
      omega

theorem mergeLoop_ends_aux (eval : PolynomialEvaluatorInterface σ H E Sc SI)
    (cm : CiphertextModel σ H Sc) (pb : PowerBasis H) :
    ∀ (L : Nat) (tmp : List (Option (Poly H))), tmp.length = L → AllLive tmp → 1 ≤ L →
      ∀ (fuel : Nat) (w : Run σ H E Sc SI),
        (2 * (L - 1) < fuel → MergeEnds eval cm pb fuel tmp w (2 * (L - 1))) ∧
        (EqLast tmp → 2 * (L - 1) - 1 < fuel →
          MergeEnds eval cm pb fuel tmp w (2 * (L - 1) - 1)) := by
  intro L
  induction L using Nat.strong_induction_on with
  | _ L ih =>
    have part2 : ∀ (tmp : List (Option (Poly H))), tmp.length = L → AllLive tmp → 1 ≤ L →
        ∀ (fuel : Nat) (w : Run σ H E Sc SI), EqLast tmp → 2 * (L - 1) - 1 < fuel →
          MergeEnds eval cm pb fuel tmp w (2 * (L - 1) - 1) := by
      intro tmp hL hlive h1 fuel w heq hfuel
      have h2 : 2 ≤ tmp.length := heq.1
      obtain ⟨f, rfl⟩ : ∃ f, fuel = f + 1 := ⟨fuel - 1, by omega⟩
      rcases round_spec eval cm pb f tmp w hlive h2 with
        ⟨r, w', hs, hr, hrounds⟩ | ⟨tmp', w', hs, hrounds, hlive', hpos, -, hlt⟩
      · exact Or.inr ⟨r, w', hs, hr, by omega⟩
      · have hlt' := hlt heq
        have := (ih tmp'.length (by omega) tmp' rfl hlive' hpos f w').1 (by omega)
        rw [MergeEnds, hs]
        rcases this with ⟨p, w'', h3, h4⟩ | ⟨r, w'', h3, h4, h5⟩
        · exact Or.inl ⟨p, w'', h3, by omega⟩
        · exact Or.inr ⟨r, w'', h3, h4, by omega⟩
    intro tmp hL hlive h1 fuel w
    refine ⟨?_, part2 tmp hL hlive h1 fuel w⟩
    intro hfuel
    obtain ⟨f, rfl⟩ : ∃ f, fuel = f + 1 := ⟨fuel - 1, by omega⟩
    by_cases hone : tmp.length = 1
    · rw [MergeEnds, mergeLoop_done eval cm pb f tmp w hone]
      obtain ⟨p, hp⟩ := hlive 0 (by omega)
      have : tmp = [some p] := by
        cases tmp with
        | nil => simp at hone
        | cons a t =>
          cases t with
          | nil => simp at hp; rw [hp]
          | cons b u => simp at hone
      exact Or.inl ⟨p, w, by rw [this], by omega⟩
    · have h2 : 2 ≤ tmp.length := by omega
      rcases round_spec eval cm pb f tmp w hlive h2 with
        ⟨r, w', hs, hr, hrounds⟩ | ⟨tmp', w', hs, hrounds, hlive', hpos, hcase, -⟩
      · exact Or.inr ⟨r, w', hs, hr, by omega⟩
      · rw [MergeEnds, hs]
        rcases hcase with hlt | ⟨hsame, heq⟩
        · have := (ih tmp'.length (by omega) tmp' rfl hlive' hpos f w').1 (by omega)
          rcases this with ⟨p, w'', h3, h4⟩ | ⟨r, w'', h3, h4, h5⟩
          · exact Or.inl ⟨p, w'', h3, by omega⟩
          · exact Or.inr ⟨r, w'', h3, h4, by omega⟩
        · have := part2 tmp' (by omega) hlive' h1 f w' heq (by omega)
          rcases this with ⟨p, w'', h3, h4⟩ | ⟨r, w'', h3, h4, h5⟩
          · exact Or.inl ⟨p, w'', h3, by omega⟩
          · exact Or.inr ⟨r, w'', h3, h4, by omega⟩

/-! ## The calls made by the merge phase -/

theorem deref_cases (tmp : List (Option (Poly H))) (k : Nat) :
    deref tmp k = .panicked .indexOutOfRange ∨ deref tmp k = .panicked .nilDereference ∨
      ∃ p, deref tmp k = .returned p := by
  unfold deref
  rcases tmp[k]? with _ | _ | p
  · exact Or.inl rfl
  · exact Or.inr (Or.inl rfl)
  · exact Or.inr (Or.inr ⟨p, rfl⟩)

/-- One iteration of the scan: it ends the scan, panics on a list access, goes on without a
call, or makes one call of `evalMonomial` and follows its result. -/
theorem scan_step_cases (eval : PolynomialEvaluatorInterface σ H E Sc SI)
    (cm : CiphertextModel σ H Sc) (pb : PowerBasis H) (fuel i : Nat)
    (tmp : List (Option (Poly H))) (w : Run σ H E Sc SI) :
    scan eval cm pb (fuel + 1) i tmp w = .next tmp w ∨
    (∃ x, x ≠ Panic.scaleDiscrepancy ∧ scan eval cm pb (fuel + 1) i tmp w = .exit (.panic x) w) ∨
    (∃ i' tmp', scan eval cm pb (fuel + 1) i tmp w = scan eval cm pb fuel i' tmp' w) ∨
    (∃ a b xpow,
      (∃ w1 x, evalMonomial eval cm a b xpow w = (.panicked x, w1) ∧
        scan eval cm pb (fuel + 1) i tmp w = .exit (.panic x) w1) ∨
      (∃ w1 e, evalMonomial eval cm a b xpow w = (.returned (some e), w1) ∧
        scan eval cm pb (fuel + 1) i tmp w = .exit (.error (.plain e)) w1) ∨
      (∃ w1 i' tmp', evalMonomial eval cm a b xpow w = (.returned none, w1) ∧
        scan eval cm pb (fuel + 1) i tmp w = scan eval cm pb fuel i' tmp' w1)) := by
  rw [scan]
  by_cases hi : i < tmp.length
  · rw [if_pos hi]
    by_cases hl : i = tmp.length - 1
    · rw [if_pos hl]
      by_cases h0 : i = 0
      · rw [if_pos h0]
        exact Or.inr (Or.inl ⟨_, by decide, rfl⟩)
      · rw [if_neg h0]
        rcases deref_cases tmp (i - 1) with h | h | ⟨prev, h⟩
        · rw [h]; exact Or.inr (Or.inl ⟨_, by decide, rfl⟩)
        · rw [h]; exact Or.inr (Or.inl ⟨_, by decide, rfl⟩)
        · rw [h]
          rcases deref_cases tmp i with h' | h' | ⟨cur, h'⟩
          · rw [h']; exact Or.inr (Or.inl ⟨_, by decide, rfl⟩)
          · rw [h']; exact Or.inr (Or.inl ⟨_, by decide, rfl⟩)
          · rw [h']; exact Or.inr (Or.inr (Or.inl ⟨_, _, rfl⟩))
    · rw [if_neg hl]
      rcases deref_cases tmp i with h | h | ⟨even, h⟩
      · rw [h]; exact Or.inr (Or.inl ⟨_, by decide, rfl⟩)
      · rw [h]; exact Or.inr (Or.inl ⟨_, by decide, rfl⟩)
      · rw [h]
        rcases deref_cases tmp (i + 1) with h' | h' | ⟨odd, h'⟩
        · rw [h']; exact Or.inr (Or.inl ⟨_, by decide, rfl⟩)
        · rw [h']; exact Or.inr (Or.inl ⟨_, by decide, rfl⟩)
        · rw [h']
          by_cases heq : even.Degree = odd.Degree
          · simp only [if_pos heq]
            refine Or.inr (Or.inr (Or.inr
              ⟨even.Value, odd.Value, pb.Value (mergeExponent even.Degree), ?_⟩))
            rcases hm : evalMonomial eval cm even.Value odd.Value
              (pb.Value (mergeExponent even.Degree)) w with ⟨out, w1⟩
            rcases out with (_ | e) | x
            · exact Or.inr (Or.inr ⟨w1, _, _, rfl, rfl⟩)
            · exact Or.inr (Or.inl ⟨w1, e, rfl, rfl⟩)
            · exact Or.inl ⟨w1, x, rfl, rfl⟩
          · simp only [if_neg heq]
            exact Or.inr (Or.inr (Or.inl ⟨_, _, rfl⟩))
  · rw [if_neg hi]
    exact Or.inl rfl

theorem NoFailure.empty : NoFailure ([] : List (Event H E Sc SI)) := by
  intro ev h; simp at h

theorem NoFailure.append {l1 l2 : List (Event H E Sc SI)} (h1 : NoFailure l1)
    (h2 : NoFailure l2) : NoFailure (l1 ++ l2) := by
  intro ev h
  rcases List.mem_append.mp h with h | h
  · exact h1 ev h
  · exact h2 ev h

theorem NoFailure.relinCalls (cm : CiphertextModel σ H Sc) (st : σ) (b : H) :
    NoFailure (relinCalls cm st b : List (Event H E Sc SI)) := by
  intro ev h
  unfold rlwe.relinCalls at h
  split at h
  · simp at h; rw [h]; rfl
  · simp at h

/-- Prefixing calls that did not fail to the calls of an aborted part. -/
theorem Aborted.prepend {r : Result H E} {l1 l2 : List (Event H E Sc SI)}
    (h1 : NoFailure l1) (h2 : Aborted r l2) : Aborted r (l1 ++ l2) := by
  rcases h2 with ⟨l0, a, b, e, hr, hl, hn⟩ | ⟨l0, a, b, hr, hl, hn⟩ | ⟨hr, hn⟩
  · exact Or.inl ⟨l1 ++ l0, a, b, e, hr, by rw [hl, List.append_assoc], h1.append hn⟩
  · exact Or.inr (Or.inl ⟨l1 ++ l0, a, b, hr, by rw [hl, List.append_assoc], h1.append hn⟩)
  · exact Or.inr (Or.inr ⟨hr, h1.append hn⟩)

/-- The calls made by the scan: none failed if the scan ends normally; otherwise they are
those of an aborted part. -/
theorem scan_trace (eval : PolynomialEvaluatorInterface σ H E Sc SI)
    (cm : CiphertextModel σ H Sc) (pb : PowerBasis H) :
    ∀ (fuel i : Nat) (tmp : List (Option (Poly H))) (w : Run σ H E Sc SI),
      (∀ tmp' w', scan eval cm pb fuel i tmp w = .next tmp' w' →
        ∃ l, w'.log = w.log ++ l ∧ NoFailure l) ∧
      (∀ r w', scan eval cm pb fuel i tmp w = .exit r w' →
        ∃ l, w'.log = w.log ++ l ∧ Aborted r l) := by
  intro fuel
  induction fuel with
  | zero =>
    intro i tmp w
    refine ⟨fun tmp' w' h => by simp [scan] at h, fun r w' h => ?_⟩
    simp only [scan, Flow.exit.injEq] at h
    obtain ⟨rfl, rfl⟩ := h
    exact ⟨[], by simp, Or.inr (Or.inr ⟨Or.inl rfl, NoFailure.empty⟩)⟩
  | succ fuel ih =>
    intro i tmp w
    rcases scan_step_cases eval cm pb fuel i tmp w with h | ⟨x, hx, h⟩ | ⟨i', tmp', h⟩ |
      ⟨a, b, xpow, ⟨w1, x, hm, h⟩ | ⟨w1, e, hm, h⟩ | ⟨w1, i', tmp', hm, h⟩⟩
    · rw [h]
      refine ⟨fun tmp' w' h' => ?_, fun r w' h' => by simp at h'⟩
      simp only [Flow.next.injEq] at h'
      obtain ⟨-, rfl⟩ := h'
      exact ⟨[], by simp, NoFailure.empty⟩
    · rw [h]
      refine ⟨fun tmp' w' h' => by simp at h', fun r w' h' => ?_⟩
      simp only [Flow.exit.injEq] at h'
      obtain ⟨rfl, rfl⟩ := h'
      refine ⟨[], by simp, Or.inr (Or.inr ⟨?_, NoFailure.empty⟩)⟩
      cases x with
      | indexOutOfRange => exact Or.inr (Or.inl rfl)
      | nilDereference => exact Or.inr (Or.inr rfl)
      | scaleDiscrepancy => exact absurd rfl hx
    · rw [h]
      exact ih i' tmp' w
    · have hx := evalMonomial_panic eval cm a b xpow w w1 x hm
      subst hx
      rw [h]
      refine ⟨fun tmp' w' h' => by simp at h', fun r w' h' => ?_⟩
      simp only [Flow.exit.injEq] at h'
      obtain ⟨rfl, rfl⟩ := h'
      rcases evalMonomial_cases eval cm a b xpow w with ⟨e, w2, h2, -, -⟩ | ⟨w2, h2, hlog, -⟩ |
        ⟨w2, h2, -, -⟩ <;> rw [h2] at hm <;> simp at hm
      subst hm
      refine ⟨relinCalls cm w.st b ++ [.rescale b b none, .mul b xpow b, .inDelta a b false],
        by rw [hlog, List.append_assoc], Or.inr (Or.inl
          ⟨relinCalls cm w.st b ++ [.rescale b b none, .mul b xpow b], a, b, rfl, by simp, ?_⟩)⟩
      refine (NoFailure.relinCalls cm w.st b).append ?_
      intro ev hev
      simp at hev
      rcases hev with rfl | rfl <;> rfl
    · rw [h]
      refine ⟨fun tmp' w' h' => by simp at h', fun r w' h' => ?_⟩
      simp only [Flow.exit.injEq] at h'
      obtain ⟨rfl, rfl⟩ := h'
      rcases evalMonomial_cases eval cm a b xpow w with ⟨e', w2, h2, hlog, -⟩ | ⟨w2, h2, -, -⟩ |
        ⟨w2, h2, -, -⟩ <;> rw [h2] at hm <;> simp at hm
      obtain ⟨rfl, rfl⟩ := hm
      exact ⟨relinCalls cm w.st b ++ [.rescale b b (some e')], by rw [hlog, List.append_assoc],
        Or.inl ⟨relinCalls cm w.st b, b, b, e', rfl, rfl, NoFailure.relinCalls cm w.st b⟩⟩
    · rw [h]
      rcases evalMonomial_cases eval cm a b xpow w with ⟨e', w2, h2, -, -⟩ | ⟨w2, h2, -, -⟩ |
        ⟨w2, h2, hlog, -⟩ <;> rw [h2] at hm <;> simp at hm
      subst hm
      have hclean : NoFailure (relinCalls cm w.st b ++
          [.rescale b b none, .mul b xpow b, .inDelta a b true, .add b a b] :
            List (Event H E Sc SI)) := by
        refine (NoFailure.relinCalls cm w.st b).append ?_
        intro ev hev
        simp at hev
        rcases hev with rfl | rfl | rfl | rfl <;> rfl
      obtain ⟨ih1, ih2⟩ := ih i' tmp' w2
      refine ⟨fun tmp'' w' h' => ?_, fun r w' h' => ?_⟩
      · obtain ⟨l, hl, hn⟩ := ih1 tmp'' w' h'
        exact ⟨_, by rw [hl, hlog]; simp only [List.append_assoc], hclean.append hn⟩
      · obtain ⟨l, hl, hn⟩ := ih2 r w' h'
        exact ⟨_, by rw [hl, hlog]; simp only [List.append_assoc], hn.prepend hclean⟩

/-- The calls made by the merge loop: none failed if the loop ends normally; otherwise they
are those of an aborted part. -/
theorem mergeLoop_trace (eval : PolynomialEvaluatorInterface σ H E Sc SI)
    (cm : CiphertextModel σ H Sc) (pb : PowerBasis H) :
    ∀ (fuel : Nat) (tmp : List (Option (Poly H))) (w : Run σ H E Sc SI),
      (∀ tmp' w', mergeLoop eval cm pb fuel tmp w = .next tmp' w' →
        ∃ l, w'.log = w.log ++ l ∧ NoFailure l) ∧
      (∀ r w', mergeLoop eval cm pb fuel tmp w = .exit r w' →
        ∃ l, w'.log = w.log ++ l ∧ Aborted r l) := by
  intro fuel
  induction fuel with
  | zero =>
    intro tmp w
    refine ⟨fun tmp' w' h => by simp [mergeLoop] at h, fun r w' h => ?_⟩
    simp only [mergeLoop, Flow.exit.injEq] at h
    obtain ⟨rfl, rfl⟩ := h
    exact ⟨[], by simp, Or.inr (Or.inr ⟨Or.inl rfl, NoFailure.empty⟩)⟩
  | succ fuel ih =>
    intro tmp w
    by_cases hone : tmp.length = 1
    · rw [mergeLoop_done eval cm pb fuel tmp w hone]
      refine ⟨fun tmp' w' h' => ?_, fun r w' h' => by simp at h'⟩
      simp only [Flow.next.injEq] at h'
      obtain ⟨-, rfl⟩ := h'
      exact ⟨[], by simp, NoFailure.empty⟩
    · obtain ⟨s1, s2⟩ := scan_trace eval cm pb (tmp.length + 1) 0 tmp
        { w with rounds := w.rounds + 1 }
      rcases hs : scan eval cm pb (tmp.length + 1) 0 tmp { w with rounds := w.rounds + 1 } with
        ⟨tmp1, w1⟩ | ⟨r1, w1⟩
      · rw [mergeLoop_next eval cm pb fuel tmp tmp1 w w1 hone hs]
        obtain ⟨l1, hl1, hn1⟩ := s1 tmp1 w1 hs
        obtain ⟨ih1, ih2⟩ := ih (tmp1.filter Option.isSome) w1
        refine ⟨fun tmp' w' h' => ?_, fun r w' h' => ?_⟩
        · obtain ⟨l, hl, hn⟩ := ih1 tmp' w' h'
          exact ⟨l1 ++ l, by rw [hl, hl1]; simp only [List.append_assoc], hn1.append hn⟩
        · obtain ⟨l, hl, hn⟩ := ih2 r w' h'
          exact ⟨l1 ++ l, by rw [hl, hl1]; simp only [List.append_assoc], hn.prepend hn1⟩
      · rw [mergeLoop_exit eval cm pb fuel tmp w w1 r1 hone hs]
        refine ⟨fun tmp' w' h' => by simp at h', fun r w' h' => ?_⟩
        simp only [Flow.exit.injEq] at h'
        obtain ⟨rfl, rfl⟩ := h'
        exact s2 _ _ hs

/-! ## The finalization -/

/-- The finalization on a list that starts with a live entry: `Relinearize` exactly when the
ciphertext has degree 2, then `Rescale` once; the ciphertext is returned if `Rescale`
succeeds and the error of `Rescale`, as it is, otherwise. -/
theorem finalize_live (eval : PolynomialEvaluatorInterface σ H E Sc SI)
    (cm : CiphertextModel σ H Sc) (tmp : List (Option (Poly H))) (w : Run σ H E Sc SI)
    (p : Poly H) (h : tmp[0]? = some (some p)) :
    ∃ err st, (finalize eval cm tmp w).2.log
        = w.log ++ relinCalls cm w.st p.Value ++ [.rescale p.Value p.Value err] ∧
      (finalize eval cm tmp w).2.st = st ∧
      (finalize eval cm tmp w).2.rounds = w.rounds ∧
      eval.Rescale p.Value p.Value
        (if cm.Degree w.st p.Value = 2 then eval.Relinearize p.Value p.Value w.st else w.st)
        = (err, st) ∧
      (finalize eval cm tmp w).1 = finalResult p.Value err := by
  unfold finalize relinCalls
  rw [deref_of_live h]
  by_cases hd : cm.Degree w.st p.Value = 2
  · simp only [hd, if_true, Run.record_st]
    rcases hr : eval.Rescale p.Value p.Value (eval.Relinearize p.Value p.Value w.st) with
      ⟨_ | e, st⟩
    · exact ⟨none, st, by simp, rfl, by simp, rfl, rfl⟩
    · exact ⟨some e, st, by simp, rfl, by simp, rfl, rfl⟩
  · simp only [hd, if_false]
    rcases hr : eval.Rescale p.Value p.Value w.st with ⟨_ | e, st⟩
    · exact ⟨none, st, by simp, rfl, by simp, rfl, rfl⟩
    · exact ⟨some e, st, by simp, rfl, by simp, rfl, rfl⟩

/-- The calls made by the finalization. -/
theorem finalize_trace (eval : PolynomialEvaluatorInterface σ H E Sc SI)
    (cm : CiphertextModel σ H Sc) (tmp : List (Option (Poly H))) (w : Run σ H E Sc SI) :
    ∃ l, (finalize eval cm tmp w).2.log = w.log ++ l ∧
      ((∃ res, (finalize eval cm tmp w).1 = .ok res ∧ NoFailure l) ∨
        Aborted (finalize eval cm tmp w).1 l) := by
  rcases deref_cases tmp 0 with h | h | ⟨p, h⟩
  · refine ⟨[], by simp [finalize, h], Or.inr (Or.inr (Or.inr ⟨?_, NoFailure.empty⟩))⟩
    simp [finalize, h]
  · refine ⟨[], by simp [finalize, h], Or.inr (Or.inr (Or.inr ⟨?_, NoFailure.empty⟩))⟩
    simp [finalize, h]
  · have hp : tmp[0]? = some (some p) := by
      unfold deref at h
      rcases h0 : tmp[0]? with _ | _ | q <;> rw [h0] at h <;> simp at h
      rw [h]
    obtain ⟨err, st, hlog, -, -, -, hres⟩ := finalize_live eval cm tmp w p hp
    refine ⟨relinCalls cm w.st p.Value ++ [.rescale p.Value p.Value err],
      by rw [hlog, List.append_assoc], ?_⟩
    cases err with
    | none =>
      refine Or.inl ⟨p.Value, hres, (NoFailure.relinCalls cm w.st p.Value).append ?_⟩
      intro ev hev
      simp at hev
      rw [hev]; rfl
    | some e =>
      exact Or.inr (Or.inl ⟨_, _, _, e, hres, rfl, NoFailure.relinCalls cm w.st p.Value⟩)

/-! ## The small steps -/

theorem transpose_panic (i : Nat) :
    ∀ (gs : List (PatersonStockmeyerPolynomial Sc)) (x : Panic),
      transpose i gs = .panicked x → x = .indexOutOfRange := by
  intro gs
  induction gs with
  | nil => intro x h; simp [transpose] at h
  | cons g gs ih =>
    intro x h
    unfold transpose at h
    rcases hg : g.Value[i]? with _ | c
    · rw [hg] at h
      simp at h
      exact h.symm
    · rw [hg] at h
      simp only [] at h
      rcases ht : transpose i gs with cs | y
      · rw [ht] at h; simp at h
      · rw [ht] at h
        simp at h
        rw [← h]
        exact ih y ht

theorem AllEvaluated.start : AllEvaluated ([] : List (Event H E Sc SI)) := by
  intro ev h; simp at h

theorem AllEvaluated.cons {level : Int} {polyVec : PolynomialVector Sc SI} {scale : Sc} {ct : H}
    {l : List (Event H E Sc SI)} (h : AllEvaluated l) :
    AllEvaluated (.evaluatePolynomialVectorFromPowerBasis level polyVec scale (.ok ct) :: l) := by
  intro ev hev
  rcases List.mem_cons.mp hev with rfl | hev
  · exact ⟨level, polyVec, scale, ct, rfl⟩
  · exact h ev hev

theorem AllEvaluated.noFailure {l : List (Event H E Sc SI)} (h : AllEvaluated l) :
    NoFailure l := by
  intro ev hev
  obtain ⟨level, polyVec, scale, ct, rfl⟩ := h ev hev
  rfl

/-- The small steps, from baby step `i` with `n` steps left: they fill the working list with
live entries, one successful evaluation per step; or they stop at the first evaluation that
fails, with its error wrapped with the index of the step; or an index is out of range. -/
theorem smallSteps_spec (eval : PolynomialEvaluatorInterface σ H E Sc SI)
    (poly : PatersonStockmeyerPolynomialVector Sc SI) (g0 : PatersonStockmeyerPolynomial Sc)
    (pb : PowerBasis H) (split : Nat) :
    ∀ (n i : Nat) (tmp : List (Option (Poly H))) (w : Run σ H E Sc SI),
      i + n = split → tmp.length = split →
      (∀ k, split - i ≤ k → k < split → Live tmp k) →
      (∃ tmp' w' l, smallSteps eval poly g0 pb split n i tmp w = .next tmp' w' ∧
        tmp'.length = split ∧ AllLive tmp' ∧ w'.log = w.log ++ l ∧ l.length = n ∧
        AllEvaluated l ∧ w'.rounds = w.rounds) ∨
      (∃ w' l, smallSteps eval poly g0 pb split n i tmp w = .exit (.panic .indexOutOfRange) w' ∧
        w'.log = w.log ++ l ∧ AllEvaluated l ∧ w'.rounds = w.rounds) ∨
      (∃ j e w' l level polyVec scale,
        smallSteps eval poly g0 pb split n i tmp w = .exit (.error (.polynomial j e)) w' ∧
        w'.log = w.log ++ l ++ [.evaluatePolynomialVectorFromPowerBasis level polyVec scale
          (.error e)] ∧
        i + l.length = j ∧ AllEvaluated l ∧ w'.rounds = w.rounds) := by
  intro n
  induction n with
  | zero =>
    intro i tmp w hin hlen hlive
    refine Or.inl ⟨tmp, w, [], rfl, hlen, ?_, by simp, rfl, AllEvaluated.start, rfl⟩
    intro k hk
    exact hlive k (by omega) (by omega)
  | succ n ih =>
    intro i tmp w hin hlen hlive
    unfold smallSteps
    rcases ht : transpose i poly.Value with vs | x
    · simp only []
      rcases hc : g0.Value[i]? with _ | c
      · exact Or.inr (Or.inl ⟨w, [], rfl, by simp, AllEvaluated.start, rfl⟩)
      · simp only []
        have hcond : i < split ∧ split - i - 1 < tmp.length := ⟨by omega, by omega⟩
        rw [if_pos hcond]
        rcases he : eval.EvaluatePolynomialVectorFromPowerBasis c.Level
            { Value := vs, SlotsIndex := poly.SlotsIndex } pb c.Scale w.st with ⟨_ | ct, st⟩
        · rename_i e
          exact Or.inr (Or.inr ⟨i, e, _, [], c.Level, { Value := vs, SlotsIndex := poly.SlotsIndex },
            c.Scale, rfl, by simp, by simp, AllEvaluated.start, rfl⟩)
        · simp only []
          have hlen' : (tmp.set (split - i - 1) (some ⟨c.Degree, ct⟩)).length = split := by
            simp [hlen]
          rcases ih (i + 1) (tmp.set (split - i - 1) (some ⟨c.Degree, ct⟩))
              (w.record st (.evaluatePolynomialVectorFromPowerBasis c.Level
                { Value := vs, SlotsIndex := poly.SlotsIndex } c.Scale (.ok ct)))
              (by omega) hlen'
              (by
                intro k hk1 hk2
                by_cases hk : k = split - i - 1
                · subst hk
                  exact ⟨_, List.getElem?_set_self (by omega)⟩
                · obtain ⟨p, hp⟩ := hlive k (by omega) hk2
                  exact ⟨p, by rw [List.getElem?_set_ne (by omega)]; exact hp⟩) with
            ⟨tmp', w', l, h1, h2, h3, h4, h5, h6, h7⟩ | ⟨w', l, h1, h2, h3, h7⟩ |
            ⟨j, e, w', l, lv, pv, sc, h1, h2, h3, h4, h7⟩
          · refine Or.inl ⟨tmp', w', .evaluatePolynomialVectorFromPowerBasis c.Level
              { Value := vs, SlotsIndex := poly.SlotsIndex } c.Scale (.ok ct) :: l,
              h1, h2, h3, ?_, by simp [h5], h6.cons, ?_⟩
            · rw [h4]; simp
            · rw [h7]; rfl
          · refine Or.inr (Or.inl ⟨w', .evaluatePolynomialVectorFromPowerBasis c.Level
              { Value := vs, SlotsIndex := poly.SlotsIndex } c.Scale (.ok ct) :: l,
              h1, ?_, h3.cons, by rw [h7]; rfl⟩)
            rw [h2]; simp
          · refine Or.inr (Or.inr ⟨j, e, w', .evaluatePolynomialVectorFromPowerBasis c.Level
              { Value := vs, SlotsIndex := poly.SlotsIndex } c.Scale (.ok ct) :: l,
              lv, pv, sc, h1, ?_, ?_, h4.cons, by rw [h7]; rfl⟩)
            · rw [h2]; simp
            · simp; omega
    · have hx := transpose_panic i poly.Value x ht
      subst hx
      exact Or.inr (Or.inl ⟨w, [], rfl, by simp, AllEvaluated.start, rfl⟩)

/-! ## The whole evaluation -/

theorem replicate_none_length (split : Nat) :
    (List.replicate split (none : Option (Poly H))).length = split := by simp

/-- How a call of the evaluator ends, and the calls it made: the first failed power-basis
evaluation is the last call and its error is wrapped with its index; or the call ends as an
aborted merge or finalization; or it returns a ciphertext and no call failed. -/
theorem Evaluate_trace (eval : PolynomialEvaluatorInterface σ H E Sc SI)
    (cm : CiphertextModel σ H Sc) (fuel : Nat) (poly : PatersonStockmeyerPolynomialVector Sc SI)
    (pb : PowerBasis H) (st : σ) :
    (∃ l level polyVec scale e,
      (EvaluatePatersonStockmeyerPolynomialVector eval cm fuel poly pb st).1
        = .error (.polynomial l.length e) ∧
      (EvaluatePatersonStockmeyerPolynomialVector eval cm fuel poly pb st).2.log
        = l ++ [.evaluatePolynomialVectorFromPowerBasis level polyVec scale (.error e)] ∧
      AllEvaluated l) ∨
    Aborted (EvaluatePatersonStockmeyerPolynomialVector eval cm fuel poly pb st).1
      (EvaluatePatersonStockmeyerPolynomialVector eval cm fuel poly pb st).2.log ∨
    (∃ res, (EvaluatePatersonStockmeyerPolynomialVector eval cm fuel poly pb st).1 = .ok res ∧
      NoFailure (EvaluatePatersonStockmeyerPolynomialVector eval cm fuel poly pb st).2.log) := by
  unfold EvaluatePatersonStockmeyerPolynomialVector
  rcases hg : poly.Value[0]? with _ | g0
  · exact Or.inr (Or.inl (Or.inr (Or.inr ⟨Or.inr (Or.inl rfl), NoFailure.empty⟩)))
  · simp only []
    rcases smallSteps_spec eval poly g0 pb g0.Value.length g0.Value.length 0
        (List.replicate g0.Value.length none) (Run.init st) (by omega) (by simp)
        (by intro k hk1 hk2; omega) with
      ⟨tmp1, w1, l1, h1, -, -, hlog1, -, hev1, -⟩ | ⟨w1, l1, h1, hlog1, hev1, -⟩ |
      ⟨j, e, w1, l1, lv, pv, sc, h1, hlog1, hj, hev1, -⟩
    · rw [h1]
      simp only []
      have hlog1' : w1.log = l1 := by rw [hlog1]; simp [Run.init]
      obtain ⟨m1, m2⟩ := mergeLoop_trace eval cm pb fuel tmp1 w1
      rcases hm : mergeLoop eval cm pb fuel tmp1 w1 with ⟨tmp2, w2⟩ | ⟨r2, w2⟩
      · simp only []
        obtain ⟨l2, hlog2, hn2⟩ := m1 tmp2 w2 hm
        obtain ⟨l3, hlog3, hfin⟩ := finalize_trace eval cm tmp2 w2
        rw [hlog3, hlog2, hlog1']
        rcases hfin with ⟨res, hres, hn3⟩ | hab
        · exact Or.inr (Or.inr ⟨res, hres, (hev1.noFailure.append hn2).append hn3⟩)
        · exact Or.inr (Or.inl (hab.prepend (hev1.noFailure.append hn2)))
      · simp only []
        obtain ⟨l2, hlog2, hab⟩ := m2 r2 w2 hm
        rw [hlog2, hlog1']
        exact Or.inr (Or.inl (hab.prepend hev1.noFailure))
    · rw [h1]
      simp only []
      have hlog1' : w1.log = l1 := by rw [hlog1]; simp [Run.init]
      rw [hlog1']
      exact Or.inr (Or.inl (Or.inr (Or.inr ⟨Or.inr (Or.inl rfl), hev1.noFailure⟩)))
    · rw [h1]
      simp only []
      have hlog1' : w1.log
          = l1 ++ [.evaluatePolynomialVectorFromPowerBasis lv pv sc (.error e)] := by
        rw [hlog1]; simp [Run.init]
      have hj' : j = l1.length := by omega
      subst hj'
      exact Or.inl ⟨l1, lv, pv, sc, e, rfl, hlog1', hev1⟩

/-- In a list of calls whose only failed call is the last one, a failed call at index `i`
is that last call. -/
theorem failure_is_last {l : List (Event H E Sc SI)} {x ev : Event H E Sc SI} {i : Nat}
    (hn : NoFailure l) (h : (l ++ [x])[i]? = some ev) (hf : ev.isFailure = true) :
    i = l.length ∧ ev = x := by
  by_cases hi : i < l.length
  · rw [List.getElem?_append_left hi] at h
    have hmem : ev ∈ l := List.mem_iff_getElem?.mpr ⟨i, h⟩
    rw [hn ev hmem] at hf
    simp at hf
  · rw [List.getElem?_append_right (by omega)] at h
    by_cases h0 : i - l.length = 0
    · rw [h0] at h
      simp at h
      exact ⟨by omega, h.symm⟩
    · rw [List.getElem?_eq_none (by simp; omega)] at h
      simp at h

theorem no_failure_at {l : List (Event H E Sc SI)} {ev : Event H E Sc SI} {i : Nat}
    (hn : NoFailure l) (h : l[i]? = some ev) (hf : ev.isFailure = true) : False := by
  have hmem : ev ∈ l := List.mem_iff_getElem?.mpr ⟨i, h⟩
  rw [hn ev hmem] at hf
  simp at hf

/-- The call that failed decides how the evaluation ends: if the call at index `i` of a run
failed, it is the last call of the run. -/
theorem Evaluate_failure (eval : PolynomialEvaluatorInterface σ H E Sc SI)
    (cm : CiphertextModel σ H Sc) (fuel : Nat) (poly : PatersonStockmeyerPolynomialVector Sc SI)
    (pb : PowerBasis H) (st : σ) (i : Nat) (ev : Event H E Sc SI)
    (h : (EvaluatePatersonStockmeyerPolynomialVector eval cm fuel poly pb st).2.log[i]? = some ev)
    (hf : ev.isFailure = true) :
    (EvaluatePatersonStockmeyerPolynomialVector eval cm fuel poly pb st).2.log.length = i + 1 ∧
    ((∃ level polyVec scale e,
        ev = .evaluatePolynomialVectorFromPowerBasis level polyVec scale (.error e) ∧
        (EvaluatePatersonStockmeyerPolynomialVector eval cm fuel poly pb st).1
          = .error (.polynomial i e) ∧
        ∀ j, j < i → ∃ lv pv sc ct,
          (EvaluatePatersonStockmeyerPolynomialVector eval cm fuel poly pb st).2.log[j]?
            = some (.evaluatePolynomialVectorFromPowerBasis lv pv sc (.ok ct))) ∨
      (∃ a b e, ev = .rescale a b (some e) ∧
        (EvaluatePatersonStockmeyerPolynomialVector eval cm fuel poly pb st).1
          = .error (.plain e)) ∨
      (∃ a b, ev = .inDelta a b false ∧
        (EvaluatePatersonStockmeyerPolynomialVector eval cm fuel poly pb st).1
          = .panic .scaleDiscrepancy)) := by
  rcases Evaluate_trace eval cm fuel poly pb st with
    ⟨l, lv, pv, sc, e, hres, hlog, hev⟩ |
    (⟨l0, a, b, e, hres, hlog, hn⟩ | ⟨l0, a, b, hres, hlog, hn⟩ | ⟨-, hn⟩) | ⟨res, -, hn⟩
  · rw [hlog] at h
    obtain ⟨hi, hx⟩ := failure_is_last hev.noFailure h hf
    subst hi
    refine ⟨by rw [hlog]; simp, Or.inl ⟨lv, pv, sc, e, hx, hres, ?_⟩⟩
    intro j hj
    rw [hlog, List.getElem?_append_left hj]
    have hmem : l[j] ∈ l := List.getElem_mem hj
    obtain ⟨lv', pv', sc', ct, hct⟩ := hev _ hmem
    exact ⟨lv', pv', sc', ct, by rw [List.getElem?_eq_getElem hj, hct]⟩
  · rw [hlog] at h
    obtain ⟨hi, hx⟩ := failure_is_last hn h hf
    subst hi
    exact ⟨by rw [hlog]; simp, Or.inr (Or.inl ⟨a, b, e, hx, hres⟩)⟩
  · rw [hlog] at h
    obtain ⟨hi, hx⟩ := failure_is_last hn h hf
    subst hi
    exact ⟨by rw [hlog]; simp, Or.inr (Or.inr ⟨a, b, hx, hres⟩)⟩
  · exact absurd (no_failure_at hn h hf) id
  · exact absurd (no_failure_at hn h hf) id


/-! ## The merge primitive, call by call -/

/-- The memory on which `evalMonomial` calls `Rescale`: after `Relinearize` if `b` has
degree 2. -/
theorem evalMonomial_rescale_error (eval : PolynomialEvaluatorInterface σ H E Sc SI)
    (cm : CiphertextModel σ H Sc) (a b xpow : H) (w : Run σ H E Sc SI) (e : E) (st2 : σ)
    (hr : eval.Rescale b b
      (if cm.Degree w.st b = 2 then eval.Relinearize b b w.st else w.st) = (some e, st2)) :
    evalMonomial eval cm a b xpow w
      = (.returned (some e),
          { st := st2
            log := w.log ++ relinCalls cm w.st b ++ [.rescale b b (some e)]
            rounds := w.rounds }) := by
  unfold evalMonomial relinCalls
  by_cases hd : cm.Degree w.st b = 2
  · simp only [hd, if_true, Run.record_st] at hr ⊢
    rw [hr]
    simp [Run.record]
  · simp only [hd, if_false] at hr ⊢
    rw [hr]
    simp [Run.record]

theorem evalMonomial_scale_fault (eval : PolynomialEvaluatorInterface σ H E Sc SI)
    (cm : CiphertextModel σ H Sc) (a b xpow : H) (w : Run σ H E Sc SI) (st2 : σ)
    (hr : eval.Rescale b b
      (if cm.Degree w.st b = 2 then eval.Relinearize b b w.st else w.st) = (none, st2))
    (hd : cm.InDelta (cm.Scale (eval.Mul b xpow b st2) a) (cm.Scale (eval.Mul b xpow b st2) b)
      (cm.ScalePrecision - 12) = false) :
    evalMonomial eval cm a b xpow w
      = (.panicked .scaleDiscrepancy,
          { st := eval.Mul b xpow b st2
            log := w.log ++ relinCalls cm w.st b ++
              [.rescale b b none, .mul b xpow b, .inDelta a b false]
            rounds := w.rounds }) := by
  unfold evalMonomial relinCalls
  by_cases hdeg : cm.Degree w.st b = 2
  · simp only [hdeg, if_true, Run.record_st] at hr ⊢
    rw [hr]
    simp [Run.record, hd]
  · simp only [hdeg, if_false] at hr ⊢
    rw [hr]
    simp [Run.record, hd]

theorem evalMonomial_ok (eval : PolynomialEvaluatorInterface σ H E Sc SI)
    (cm : CiphertextModel σ H Sc) (a b xpow : H) (w : Run σ H E Sc SI) (st2 : σ)
    (hr : eval.Rescale b b
      (if cm.Degree w.st b = 2 then eval.Relinearize b b w.st else w.st) = (none, st2))
    (hd : cm.InDelta (cm.Scale (eval.Mul b xpow b st2) a) (cm.Scale (eval.Mul b xpow b st2) b)
      (cm.ScalePrecision - 12) = true) :
    evalMonomial eval cm a b xpow w
      = (.returned none,
          { st := eval.Add b a b (eval.Mul b xpow b st2)
            log := w.log ++ relinCalls cm w.st b ++
              [.rescale b b none, .mul b xpow b, .inDelta a b true, .add b a b]
            rounds := w.rounds }) := by
  unfold evalMonomial relinCalls
  by_cases hdeg : cm.Degree w.st b = 2
  · simp only [hdeg, if_true, Run.record_st] at hr ⊢
    rw [hr]
    simp [Run.record, hd]
  · simp only [hdeg, if_false] at hr ⊢
    rw [hr]
    simp [Run.record, hd]

/-! ## The exponent of a merge -/

theorem bitLen_le (fuel x : Nat) : bitLen fuel x ≤ fuel := by
  induction fuel generalizing x with
  | zero => simp [bitLen]
  | succ f ih =>
    unfold bitLen
    split
    · omega
    · have := ih (x / 2); omega

theorem lt_two_pow_bitLen (fuel : Nat) : ∀ x, x < 2 ^ fuel → x < 2 ^ bitLen fuel x := by
  induction fuel with
  | zero => intro x hx; simpa [bitLen] using hx
  | succ f ih =>
    intro x hx
    unfold bitLen
    split
    · rename_i h0; subst h0; simp
    · have h2 : x / 2 < 2 ^ f := by
        rw [Nat.div_lt_iff_lt_mul (by decide)]
        rw [Nat.pow_succ] at hx; exact hx
      have := ih (x / 2) h2
      rw [Nat.pow_succ]
      omega

theorem bitLen_zero (fuel : Nat) : bitLen fuel 0 = 0 := by
  cases fuel <;> simp [bitLen]

theorem two_pow_bitLen_le (fuel : Nat) :
    ∀ x, x ≠ 0 → x < 2 ^ fuel → 2 ^ bitLen fuel x ≤ 2 * x := by
  induction fuel with
  | zero => intro x h0 hx; simp at hx; omega
  | succ f ih =>
    intro x h0 hx
    unfold bitLen
    rw [if_neg h0]
    by_cases h2 : x / 2 = 0
    · rw [h2, bitLen_zero]
      simp
      omega
    · have hlt : x / 2 < 2 ^ f := by
        rw [Nat.div_lt_iff_lt_mul (by decide)]
        rw [Nat.pow_succ] at hx; exact hx
      have := ih (x / 2) h2 hlt
      rw [Nat.pow_succ]
      omega

/-- For a degree `d` with `0 ≤ d < 2^62` the exponent of a merge is the least power of two
that is at least `d + 1`, and the merged degree is twice that power less one. -/
theorem mergeExponent_spec (d : Int) (h0 : 0 ≤ d) (h1 : d < 2 ^ 62) :
    ∃ n : Nat, n = Len64 (uint64OfInt d) ∧ mergeExponent d = (2 : Int) ^ n ∧
      d + 1 ≤ (2 : Int) ^ n ∧ (∀ m : Nat, d + 1 ≤ (2 : Int) ^ m → (2 : Int) ^ n ≤ (2 : Int) ^ m) ∧
      mergedDegree (mergeExponent d) = 2 * (2 : Int) ^ n - 1 := by
  obtain ⟨x, rfl⟩ : ∃ x : Nat, d = (x : Int) := ⟨d.toNat, by omega⟩
  have hx : x < 2 ^ 62 := by exact_mod_cast h1
  have hu : uint64OfInt (x : Int) = x := by
    unfold uint64OfInt
    have : ((x : Int) % 2 ^ 64) = (x : Int) := by omega
    rw [this]; simp
  have hx64 : x < 2 ^ 64 := by omega
  have hlt := lt_two_pow_bitLen 64 x hx64
  have hn62 : bitLen 64 x ≤ 62 := by
    by_cases hz : x = 0
    · rw [hz, bitLen_zero]; omega
    · have h2 := two_pow_bitLen_le 64 x hz hx64
      have h3 : 2 ^ bitLen 64 x < 2 ^ 63 := by omega
      have := (Nat.pow_lt_pow_iff_right (by decide : 1 < 2)).mp h3
      omega
  have hpow : 2 ^ bitLen 64 x ≤ 2 ^ 62 := Nat.pow_le_pow_right (by decide) hn62
  have hpowZ : ((2 : Int) ^ bitLen 64 x) = ((2 ^ bitLen 64 x : Nat) : Int) := by push_cast; rfl
  have hexp : mergeExponent (x : Int) = (2 : Int) ^ bitLen 64 x := by
    unfold mergeExponent wrapInt64 Len64
    rw [hu, hpowZ]
    omega
  refine ⟨bitLen 64 x, by rw [Len64, hu], hexp, ?_, ?_, ?_⟩
  · rw [hpowZ]; omega
  · intro m hm
    have hm' : x + 1 ≤ 2 ^ m := by exact_mod_cast hm
    have : 2 ^ bitLen 64 x ≤ 2 ^ m := by
      by_cases hz : x = 0
      · rw [hz, bitLen_zero]
        exact Nat.one_le_two_pow
      · have h2 := two_pow_bitLen_le 64 x hz hx64
        have h3 : 2 ^ bitLen 64 x < 2 ^ (m + 1) := by rw [Nat.pow_succ]; omega
        have := (Nat.pow_lt_pow_iff_right (by decide : 1 < 2)).mp h3
        exact Nat.pow_le_pow_right (by decide) (by omega)
    exact_mod_cast this
  · rw [hexp]
    unfold mergedDegree wrapInt64
    rw [hpowZ]
    have : 1 ≤ 2 ^ bitLen 64 x := Nat.one_le_two_pow
    omega


/-! ## The merge phase: the steps of the scan in detail -/

theorem deref_returned {tmp : List (Option (Poly H))} {k : Nat} {p : Poly H}
    (h : deref tmp k = .returned p) : tmp[k]? = some (some p) := by
  unfold deref at h
  rcases h0 : tmp[k]? with _ | _ | q <;> rw [h0] at h <;> simp at h
  rw [h]

/-- One iteration of the scan, with the list it goes on with: the scan ends; or a list
access panics; or the last entry is relabelled; or two unequal neighbours are skipped; or
two equal neighbours are merged by `evalMonomial`, whose result is followed. -/
theorem scan_step_detail (eval : PolynomialEvaluatorInterface σ H E Sc SI)
    (cm : CiphertextModel σ H Sc) (pb : PowerBasis H) (fuel i : Nat)
    (tmp : List (Option (Poly H))) (w : Run σ H E Sc SI) :
    (¬ i < tmp.length ∧ scan eval cm pb (fuel + 1) i tmp w = .next tmp w) ∨
    (∃ x, x ≠ Panic.scaleDiscrepancy ∧ scan eval cm pb (fuel + 1) i tmp w = .exit (.panic x) w) ∨
    (∃ prev cur, i + 1 = tmp.length ∧ i ≠ 0 ∧ tmp[i - 1]? = some (some prev) ∧
      tmp[i]? = some (some cur) ∧
      scan eval cm pb (fuel + 1) i tmp w
        = scan eval cm pb fuel (i + 1) (tmp.set i (some { cur with Degree := prev.Degree })) w) ∨
    (∃ even odd, i + 1 < tmp.length ∧ tmp[i]? = some (some even) ∧
      tmp[i + 1]? = some (some odd) ∧ even.Degree ≠ odd.Degree ∧
      scan eval cm pb (fuel + 1) i tmp w = scan eval cm pb fuel (i + 1) tmp w) ∨
    (∃ even odd, i + 1 < tmp.length ∧ tmp[i]? = some (some even) ∧
      tmp[i + 1]? = some (some odd) ∧ even.Degree = odd.Degree ∧
      ((∃ w1 x, evalMonomial eval cm even.Value odd.Value
            (pb.Value (mergeExponent even.Degree)) w = (.panicked x, w1) ∧
          scan eval cm pb (fuel + 1) i tmp w = .exit (.panic x) w1) ∨
        (∃ w1 e, evalMonomial eval cm even.Value odd.Value
            (pb.Value (mergeExponent even.Degree)) w = (.returned (some e), w1) ∧
          scan eval cm pb (fuel + 1) i tmp w = .exit (.error (.plain e)) w1) ∨
        (∃ w1, evalMonomial eval cm even.Value odd.Value
            (pb.Value (mergeExponent even.Degree)) w = (.returned none, w1) ∧
          scan eval cm pb (fuel + 1) i tmp w
            = scan eval cm pb fuel (i + 1 + 1)
                ((tmp.set (i + 1)
                  (some { odd with Degree := mergedDegree (mergeExponent even.Degree) })).set
                  i none) w1))) := by
  by_cases hi : i < tmp.length
  · by_cases hl : i + 1 = tmp.length
    · by_cases h0 : i = 0
      · refine Or.inr (Or.inl ⟨.indexOutOfRange, by decide, ?_⟩)
        have hl' : i = tmp.length - 1 := by omega
        rw [scan, if_pos hi, if_pos hl', if_pos h0]
      · have hl' : i = tmp.length - 1 := by omega
        rcases deref_cases tmp (i - 1) with h | h | ⟨prev, h⟩
        · refine Or.inr (Or.inl ⟨.indexOutOfRange, by decide, ?_⟩)
          rw [scan, if_pos hi, if_pos hl', if_neg h0, h]
        · refine Or.inr (Or.inl ⟨.nilDereference, by decide, ?_⟩)
          rw [scan, if_pos hi, if_pos hl', if_neg h0, h]
        · rcases deref_cases tmp i with h' | h' | ⟨cur, h'⟩
          · refine Or.inr (Or.inl ⟨.indexOutOfRange, by decide, ?_⟩)
            rw [scan, if_pos hi, if_pos hl', if_neg h0, h, h']
          · refine Or.inr (Or.inl ⟨.nilDereference, by decide, ?_⟩)
            rw [scan, if_pos hi, if_pos hl', if_neg h0, h, h']
          · exact Or.inr (Or.inr (Or.inl ⟨prev, cur, hl, h0, deref_returned h, deref_returned h',
              scan_last eval cm pb fuel i tmp w prev cur hl h0 (deref_returned h)
                (deref_returned h')⟩))
    · have hi1 : i + 1 < tmp.length := by omega
      have hl' : ¬ i = tmp.length - 1 := by omega
      rcases deref_cases tmp i with h | h | ⟨even, h⟩
      · refine Or.inr (Or.inl ⟨.indexOutOfRange, by decide, ?_⟩)
        rw [scan, if_pos hi, if_neg hl', h]
      · refine Or.inr (Or.inl ⟨.nilDereference, by decide, ?_⟩)
        rw [scan, if_pos hi, if_neg hl', h]
      · rcases deref_cases tmp (i + 1) with h' | h' | ⟨odd, h'⟩
        · refine Or.inr (Or.inl ⟨.indexOutOfRange, by decide, ?_⟩)
          rw [scan, if_pos hi, if_neg hl', h, h']
        · refine Or.inr (Or.inl ⟨.nilDereference, by decide, ?_⟩)
          rw [scan, if_pos hi, if_neg hl', h, h']
        · have he := deref_returned h
          have ho := deref_returned h'
          by_cases heq : even.Degree = odd.Degree
          · refine Or.inr (Or.inr (Or.inr (Or.inr ⟨even, odd, hi1, he, ho, heq, ?_⟩)))
            rcases hm : evalMonomial eval cm even.Value odd.Value
              (pb.Value (mergeExponent even.Degree)) w with ⟨out, w1⟩
            rcases out with (_ | e) | x
            · exact Or.inr (Or.inr ⟨w1, rfl,
                scan_merge_ok eval cm pb fuel i tmp w w1 even odd hi1 he ho heq hm⟩)
            · exact Or.inr (Or.inl ⟨w1, e, rfl,
                scan_merge_error eval cm pb fuel i tmp w w1 even odd e hi1 he ho heq hm⟩)
            · exact Or.inl ⟨w1, x, rfl,
                scan_merge_panic eval cm pb fuel i tmp w w1 even odd x hi1 he ho heq hm⟩
          · exact Or.inr (Or.inr (Or.inr (Or.inl ⟨even, odd, hi1, he, ho, heq,
              scan_skip eval cm pb fuel i tmp w even odd hi1 he ho heq⟩)))
  · exact Or.inl ⟨hi, scan_done eval cm pb fuel i tmp w hi⟩

/-! ## Counting live entries -/

theorem liveCount_cons_some (p : Poly H) (tmp : List (Option (Poly H))) :
    liveCount (some p :: tmp) = liveCount tmp + 1 := by
  simp [liveCount]

theorem liveCount_cons_none (tmp : List (Option (Poly H))) :
    liveCount (none :: tmp) = liveCount tmp := by
  simp [liveCount]

theorem liveCount_set_some : ∀ (tmp : List (Option (Poly H))) (i : Nat) (p q : Poly H),
    tmp[i]? = some (some p) → liveCount (tmp.set i (some q)) = liveCount tmp := by
  intro tmp
  induction tmp with
  | nil => intro i p q h; simp at h
  | cons a t ih =>
    intro i p q h
    cases i with
    | zero =>
      simp at h
      subst h
      simp [liveCount]
    | succ j =>
      simp only [List.getElem?_cons_succ] at h
      have := ih j p q h
      cases a with
      | none => simpa [liveCount] using this
      | some r => simpa [liveCount] using this

theorem liveCount_set_none : ∀ (tmp : List (Option (Poly H))) (i : Nat) (p : Poly H),
    tmp[i]? = some (some p) → liveCount (tmp.set i none) + 1 = liveCount tmp := by
  intro tmp
  induction tmp with
  | nil => intro i p h; simp at h
  | cons a t ih =>
    intro i p h
    cases i with
    | zero =>
      simp at h
      subst h
      simp [liveCount]
    | succ j =>
      simp only [List.getElem?_cons_succ] at h
      have := ih j p h
      cases a with
      | none => simpa [liveCount] using this
      | some r =>
        simp only [List.set_cons_succ, liveCount_cons_some]
        omega

theorem liveCount_le_length (tmp : List (Option (Poly H))) : liveCount tmp ≤ tmp.length :=
  List.length_filter_le _ _

theorem liveCount_of_allLive {tmp : List (Option (Poly H))} (h : AllLive tmp) :
    liveCount tmp = tmp.length := by
  unfold liveCount
  rw [filter_eq_self_of_live h]

/-! ## The merge phase: counting calls and keeping ciphertexts -/

theorem KeepsValues.same (tmp : List (Option (Poly H))) : KeepsValues tmp tmp := by
  refine ⟨rfl, ?_⟩
  intro k hk
  rcases h : tmp[k]? with _ | _ | p
  · rw [List.getElem?_eq_none_iff] at h; omega
  · exact Or.inl rfl
  · exact Or.inr ⟨p, p, rfl, rfl, rfl⟩

theorem KeepsValues.chain {a b c : List (Option (Poly H))} (h1 : KeepsValues a b)
    (h2 : KeepsValues b c) : KeepsValues a c := by
  refine ⟨h1.1.trans h2.1, ?_⟩
  intro k hk
  rcases h1.2 k (by rw [h2.1]; exact hk) with h | ⟨p, q, hp, hq, hv⟩
  · exact Or.inl h
  · rcases h2.2 k hk with h | ⟨p', q', hp', hq', hv'⟩
    · rw [h] at hq; simp at hq
    · rw [hp'] at hq
      simp at hq
      subst hq
      exact Or.inr ⟨p, q', hp, hq', hv.trans hv'⟩

theorem KeepsValues.set_degree {tmp : List (Option (Poly H))} {i : Nat} {cur : Poly H}
    (h : tmp[i]? = some (some cur)) (d : Int) :
    KeepsValues (tmp.set i (some { cur with Degree := d })) tmp := by
  refine ⟨by simp, ?_⟩
  intro k hk
  by_cases hki : k = i
  · subst hki
    exact Or.inr ⟨{ cur with Degree := d }, cur, List.getElem?_set_self hk, h, rfl⟩
  · rw [List.getElem?_set_ne (by omega)]
    exact (KeepsValues.same tmp).2 k hk

theorem KeepsValues.set_nil (tmp : List (Option (Poly H))) (i : Nat) :
    KeepsValues (tmp.set i none) tmp := by
  refine ⟨by simp, ?_⟩
  intro k hk
  by_cases hki : k = i
  · subst hki
    exact Or.inl (List.getElem?_set_self hk)
  · rw [List.getElem?_set_ne (by omega)]
    exact (KeepsValues.same tmp).2 k hk

theorem relinCalls_counts (cm : CiphertextModel σ H Sc) (st : σ) (b : H) :
    (relinCalls cm st b : List (Event H E Sc SI)).countP Event.isMul = 0 ∧
    (relinCalls cm st b : List (Event H E Sc SI)).countP Event.isAdd = 0 ∧
    (relinCalls cm st b : List (Event H E Sc SI)).countP Event.isRescale = 0 := by
  unfold relinCalls
  split <;> simp [Event.isMul, Event.isAdd, Event.isRescale]

/-- The calls of a merge that succeeds: exactly one `Rescale`, one `Mul` and one `Add`. -/
theorem evalMonomial_counts (eval : PolynomialEvaluatorInterface σ H E Sc SI)
    (cm : CiphertextModel σ H Sc) (a b xpow : H) (w w1 : Run σ H E Sc SI)
    (h : evalMonomial eval cm a b xpow w = (.returned none, w1)) :
    w1.rounds = w.rounds ∧ ∃ l, w1.log = w.log ++ l ∧ l.countP Event.isMul = 1 ∧
      l.countP Event.isAdd = 1 ∧ l.countP Event.isRescale = 1 := by
  rcases evalMonomial_cases eval cm a b xpow w with ⟨e, w2, h2, -, -⟩ | ⟨w2, h2, -, -⟩ |
    ⟨w2, h2, hlog, hr⟩ <;> rw [h2] at h <;> simp at h
  subst h
  obtain ⟨c1, c2, c3⟩ := @relinCalls_counts _ _ _ E SI cm w.st b
  refine ⟨hr, relinCalls cm w.st b ++
    [.rescale b b none, .mul b xpow b, .inDelta a b true, .add b a b],
    by rw [hlog, List.append_assoc], ?_, ?_, ?_⟩
  · rw [List.countP_append, c1]; simp [Event.isMul]
  · rw [List.countP_append, c2]; simp [Event.isAdd]
  · rw [List.countP_append, c3]; simp [Event.isRescale]

/-- A scan that ends normally keeps the ciphertext of every entry it does not set to nil,
starts no round, and has made one `Mul`, one `Add` and one `Rescale` for every entry it
set to nil. -/
theorem scan_count (eval : PolynomialEvaluatorInterface σ H E Sc SI)
    (cm : CiphertextModel σ H Sc) (pb : PowerBasis H) :
    ∀ (fuel i : Nat) (tmp tmp' : List (Option (Poly H))) (w w' : Run σ H E Sc SI),
      scan eval cm pb fuel i tmp w = .next tmp' w' →
      KeepsValues tmp' tmp ∧ w'.rounds = w.rounds ∧
      ∃ l, w'.log = w.log ++ l ∧
        l.countP Event.isMul + liveCount tmp' = liveCount tmp ∧
        l.countP Event.isAdd + liveCount tmp' = liveCount tmp ∧
        l.countP Event.isRescale + liveCount tmp' = liveCount tmp := by
  intro fuel
  induction fuel with
  | zero => intro i tmp tmp' w w' h; simp [scan] at h
  | succ fuel ih =>
    intro i tmp tmp' w w' h
    rcases scan_step_detail eval cm pb fuel i tmp w with ⟨-, hs⟩ | ⟨x, -, hs⟩ |
      ⟨prev, cur, -, -, -, hc, hs⟩ | ⟨even, odd, -, -, -, -, hs⟩ |
      ⟨even, odd, hi1, he, ho, -, ⟨w1, x, -, hs⟩ | ⟨w1, e, -, hs⟩ | ⟨w1, hm, hs⟩⟩
    · rw [hs] at h
      simp only [Flow.next.injEq] at h
      obtain ⟨rfl, rfl⟩ := h
      exact ⟨KeepsValues.same _, rfl, [], by simp, by simp, by simp, by simp⟩
    · rw [hs] at h; simp at h
    · rw [hs] at h
      obtain ⟨hk, hr, l, hl, c1, c2, c3⟩ := ih _ _ _ _ _ h
      have hcount := liveCount_set_some tmp i cur { cur with Degree := prev.Degree } hc
      exact ⟨hk.chain (KeepsValues.set_degree hc _), hr, l, hl,
        by rw [← hcount]; exact c1, by rw [← hcount]; exact c2, by rw [← hcount]; exact c3⟩
    · rw [hs] at h
      exact ih _ _ _ _ _ h
    · rw [hs] at h; simp at h
    · rw [hs] at h; simp at h
    · rw [hs] at h
      obtain ⟨hk, hr, l, hl, c1, c2, c3⟩ := ih _ _ _ _ _ h
      obtain ⟨hr1, l1, hl1, m1, m2, m3⟩ := evalMonomial_counts eval cm _ _ _ w w1 hm
      have hset1 := liveCount_set_some tmp (i + 1) odd
        { odd with Degree := mergedDegree (mergeExponent even.Degree) } ho
      have hget : (tmp.set (i + 1)
          (some { odd with Degree := mergedDegree (mergeExponent even.Degree) }))[i]?
          = some (some even) := by
        rw [List.getElem?_set_ne (by omega)]; exact he
      have hset2 := liveCount_set_none _ i even hget
      refine ⟨hk.chain ((KeepsValues.set_nil _ i).chain (KeepsValues.set_degree ho _)),
        by rw [hr, hr1], l1 ++ l, by rw [hl, hl1, List.append_assoc], ?_, ?_, ?_⟩
      · rw [List.countP_append]; omega
      · rw [List.countP_append]; omega
      · rw [List.countP_append]; omega

/-! ## One round of the merge loop -/

theorem mergeRound_next_iff (eval : PolynomialEvaluatorInterface σ H E Sc SI)
    (cm : CiphertextModel σ H Sc) (pb : PowerBasis H) (tmp tmp' : List (Option (Poly H)))
    (w w' : Run σ H E Sc SI) :
    mergeRound eval cm pb tmp w = .next tmp' w' ↔
      ∃ t, scan eval cm pb (tmp.length + 1) 0 tmp w.nextRound = .next t w' ∧
        tmp' = t.filter Option.isSome := by
  unfold mergeRound Run.nextRound
  rcases hs : scan eval cm pb (tmp.length + 1) 0 tmp { w with rounds := w.rounds + 1 } with
    ⟨t, w1⟩ | ⟨r, w1⟩
  · simp only [hs, compact_eq_filter, Flow.next.injEq]
    constructor
    · rintro ⟨rfl, rfl⟩
      exact ⟨t, ⟨rfl, rfl⟩, rfl⟩
    · rintro ⟨t', ⟨rfl, rfl⟩, rfl⟩
      exact ⟨rfl, rfl⟩
  · simp [hs]

theorem mergeRound_exit_iff (eval : PolynomialEvaluatorInterface σ H E Sc SI)
    (cm : CiphertextModel σ H Sc) (pb : PowerBasis H) (tmp : List (Option (Poly H)))
    (w w' : Run σ H E Sc SI) (r : Result H E) :
    mergeRound eval cm pb tmp w = .exit r w' ↔
      scan eval cm pb (tmp.length + 1) 0 tmp w.nextRound = .exit r w' := by
  unfold mergeRound Run.nextRound
  rcases hs : scan eval cm pb (tmp.length + 1) 0 tmp { w with rounds := w.rounds + 1 } with
    ⟨t, w1⟩ | ⟨r1, w1⟩
  · simp [hs, compact_eq_filter]
  · simp [hs]

/-- The merge loop runs `mergeRound` as long as the list does not have exactly one entry. -/
theorem mergeLoop_round_next (eval : PolynomialEvaluatorInterface σ H E Sc SI)
    (cm : CiphertextModel σ H Sc) (pb : PowerBasis H) (fuel : Nat)
    (tmp tmp' : List (Option (Poly H))) (w w' : Run σ H E Sc SI) (h : tmp.length ≠ 1)
    (hr : mergeRound eval cm pb tmp w = .next tmp' w') :
    mergeLoop eval cm pb (fuel + 1) tmp w = mergeLoop eval cm pb fuel tmp' w' := by
  obtain ⟨t, hs, rfl⟩ := (mergeRound_next_iff eval cm pb tmp tmp' w w').mp hr
  exact mergeLoop_next eval cm pb fuel tmp t w w' h hs

theorem mergeLoop_round_exit (eval : PolynomialEvaluatorInterface σ H E Sc SI)
    (cm : CiphertextModel σ H Sc) (pb : PowerBasis H) (fuel : Nat)
    (tmp : List (Option (Poly H))) (w w' : Run σ H E Sc SI) (r : Result H E)
    (h : tmp.length ≠ 1) (hr : mergeRound eval cm pb tmp w = .exit r w') :
    mergeLoop eval cm pb (fuel + 1) tmp w = .exit r w' :=
  mergeLoop_exit eval cm pb fuel tmp w w' r h
    ((mergeRound_exit_iff eval cm pb tmp w w' r).mp hr)

theorem liveValues_filter (t : List (Option (Poly H))) :
    liveValues (t.filter Option.isSome) = liveValues t := by
  induction t with
  | nil => rfl
  | cons a t ih =>
    cases a with
    | none => simpa [liveValues] using ih
    | some p =>
      simp only [List.filter_cons, Option.isSome_some, if_true]
      simp only [liveValues, List.filterMap_cons, Option.map_some'] at ih ⊢
      rw [ih]

/-- The ciphertexts of a list that keeps the values of another are, in order, among the
ciphertexts of that other list. -/
theorem keepsValues_sublist : ∀ (t tmp : List (Option (Poly H))), KeepsValues t tmp →
    (liveValues t).Sublist (liveValues tmp) := by
  intro t
  induction t with
  | nil =>
    intro tmp h
    simp [liveValues]
  | cons a t ih =>
    intro tmp h
    cases tmp with
    | nil => have := h.1; simp at this
    | cons b u =>
      have htail : KeepsValues t u := by
        refine ⟨by have := h.1; simpa using this, ?_⟩
        intro k hk
        have := h.2 (k + 1) (by simp; omega)
        simpa using this
      have hsub := ih u htail
      have h0 := h.2 0 (by simp)
      simp only [List.getElem?_cons_zero, Option.some.injEq] at h0
      rcases h0 with h0 | ⟨p, q, hp, hq, hv⟩
      · subst h0
        cases b with
        | none => simpa [liveValues] using hsub
        | some q =>
          simp only [liveValues, List.filterMap_cons, Option.map_none', Option.map_some'] at hsub ⊢
          exact List.Sublist.cons _ hsub
      · subst hp hq
        simp only [liveValues, List.filterMap_cons, Option.map_some'] at hsub ⊢
        rw [hv]
        exact List.Sublist.cons₂ _ hsub

/-- A round that ends normally: the new list is made of the live entries left by the scan,
one round more is counted, the ciphertexts are kept in order, and the round made one `Mul`,
one `Add` and one `Rescale` for every live entry that went away. -/
theorem mergeRound_count (eval : PolynomialEvaluatorInterface σ H E Sc SI)
    (cm : CiphertextModel σ H Sc) (pb : PowerBasis H) (tmp tmp' : List (Option (Poly H)))
    (w w' : Run σ H E Sc SI) (h : mergeRound eval cm pb tmp w = .next tmp' w') :
    AllLive tmp' ∧ w'.rounds = w.rounds + 1 ∧ (liveValues tmp').Sublist (liveValues tmp) ∧
    ∃ l, w'.log = w.log ++ l ∧
      l.countP Event.isMul + tmp'.length = liveCount tmp ∧
      l.countP Event.isAdd + tmp'.length = liveCount tmp ∧
      l.countP Event.isRescale + tmp'.length = liveCount tmp := by
  obtain ⟨t, hs, rfl⟩ := (mergeRound_next_iff eval cm pb tmp tmp' w w').mp h
  obtain ⟨hk, hr, l, hl, c1, c2, c3⟩ := scan_count eval cm pb _ _ _ _ _ _ hs
  refine ⟨live_of_mem_filter, by rw [hr]; rfl, ?_, l, by rw [hl]; rfl, c1, c2, c3⟩
  rw [liveValues_filter]
  exact keepsValues_sublist t tmp hk

/-- A round on a list of at least two live entries: it aborts as the source intends, or it
ends normally with a list of live entries that is shorter, or of the same length with its
last two degrees equal; it is shorter whenever the last two degrees were equal at the start
of the round. -/
theorem mergeRound_spec (eval : PolynomialEvaluatorInterface σ H E Sc SI)
    (cm : CiphertextModel σ H Sc) (pb : PowerBasis H) (tmp : List (Option (Poly H)))
    (w : Run σ H E Sc SI) (hlive : AllLive tmp) (hlen : 2 ≤ tmp.length) :
    (∃ r w', mergeRound eval cm pb tmp w = .exit r w' ∧ MergeAbort r) ∨
    (∃ tmp' w', mergeRound eval cm pb tmp w = .next tmp' w' ∧ AllLive tmp' ∧
      1 ≤ tmp'.length ∧
      (tmp'.length < tmp.length ∨ (tmp'.length = tmp.length ∧ EqLast tmp')) ∧
      (EqLast tmp → tmp'.length < tmp.length)) := by
  have hne : tmp.length ≠ 1 := by omega
  rcases scan_spec eval cm pb (tmp.length + 1) 0 tmp w.nextRound
      (Nat.zero_le _) (by omega) hne (fun k _ hk => hlive k hk) (fun h => absurd h (by omega)) with
    ⟨r, w', hs, -, hres⟩ | ⟨t, w', hs, -, hl, -, hlst, hdis, hprog⟩
  · exact Or.inl ⟨r, w', (mergeRound_exit_iff eval cm pb tmp w w' r).mpr hs, hres⟩
  · refine Or.inr ⟨t.filter Option.isSome, w',
      (mergeRound_next_iff eval cm pb tmp _ w w').mpr ⟨t, hs, rfl⟩, live_of_mem_filter,
      filter_length_pos_of_live (hlst (by omega)), ?_, ?_⟩
    · rcases hdis with ⟨k, _, _, hk⟩ | ⟨hall, heql⟩
      · left
        have := filter_length_lt_of_none hk
        omega
      · right
        have hself : t.filter Option.isSome = t :=
          filter_eq_self_of_live (fun k hk => hall k (Nat.zero_le _) (by omega))
        rw [hself]
        exact ⟨hl, heql (by omega)⟩
    · intro heq
      obtain ⟨k, _, _, hk⟩ := hprog (by omega) heq
      have := filter_length_lt_of_none hk
      omega

/-! ## Merges that succeed, and rounds that do not -/

theorem evalMonomial_of_mergeSucceeds (eval : PolynomialEvaluatorInterface σ H E Sc SI)
    (cm : CiphertextModel σ H Sc) (pb : PowerBasis H) (even odd : Poly H)
    (w : Run σ H E Sc SI) (h : MergeSucceeds eval cm pb even odd w) :
    evalMonomial eval cm even.Value odd.Value (pb.Value (mergeExponent even.Degree)) w
      = (.returned none, mergeRun eval cm pb even odd w) := by
  unfold MergeSucceeds at h
  unfold mergeRun
  rw [← h]

/-- The calls of a part that left the function with a merge abort include a failed one. -/
theorem Aborted.failure {r : Result H E} {l : List (Event H E Sc SI)}
    (hr : MergeAbort r) (h : Aborted r l) : ¬ NoFailure l := by
  intro hn
  rcases h with ⟨l0, a, b, e, -, hl, -⟩ | ⟨l0, a, b, -, hl, -⟩ | ⟨hcase, -⟩
  · have := hn (.rescale a b (some e)) (by rw [hl]; simp)
    simp [Event.isFailure] at this
  · have := hn (.inDelta a b false) (by rw [hl]; simp)
    simp [Event.isFailure] at this
  · rcases hr with ⟨e, he⟩ | he <;> rcases hcase with h1 | h1 | h1 <;>
      rw [h1] at he <;> simp at he

/-- The calls made by a round: none failed if the round ends normally; otherwise they are
those of an aborted part. -/
theorem mergeRound_trace (eval : PolynomialEvaluatorInterface σ H E Sc SI)
    (cm : CiphertextModel σ H Sc) (pb : PowerBasis H) (tmp : List (Option (Poly H)))
    (w : Run σ H E Sc SI) :
    (∀ tmp' w', mergeRound eval cm pb tmp w = .next tmp' w' →
      ∃ l, w'.log = w.log ++ l ∧ NoFailure l) ∧
    (∀ r w', mergeRound eval cm pb tmp w = .exit r w' →
      ∃ l, w'.log = w.log ++ l ∧ Aborted r l) := by
  refine ⟨fun tmp' w' h => ?_, fun r w' h => ?_⟩
  · obtain ⟨t, hs, -⟩ := (mergeRound_next_iff eval cm pb tmp tmp' w w').mp h
    exact (scan_trace eval cm pb _ _ _ w.nextRound).1 _ _ hs
  · exact (scan_trace eval cm pb _ _ _ w.nextRound).2 _ _
      ((mergeRound_exit_iff eval cm pb tmp w w' r).mp h)

/-! ## The merge loop: counting over all rounds -/

theorem mergeLoop_next_length (eval : PolynomialEvaluatorInterface σ H E Sc SI)
    (cm : CiphertextModel σ H Sc) (pb : PowerBasis H) :
    ∀ (fuel : Nat) (tmp tmp' : List (Option (Poly H))) (w w' : Run σ H E Sc SI),
      mergeLoop eval cm pb fuel tmp w = .next tmp' w' → tmp'.length = 1 := by
  intro fuel
  induction fuel with
  | zero => intro tmp tmp' w w' h; simp [mergeLoop] at h
  | succ fuel ih =>
    intro tmp tmp' w w' h
    by_cases hone : tmp.length = 1
    · rw [mergeLoop_done eval cm pb fuel tmp w hone] at h
      simp only [Flow.next.injEq] at h
      obtain ⟨rfl, -⟩ := h
      exact hone
    · rcases hr : mergeRound eval cm pb tmp w with ⟨t, w1⟩ | ⟨r1, w1⟩
      · rw [mergeLoop_round_next eval cm pb fuel tmp t w w1 hone hr] at h
        exact ih _ _ _ _ h
      · rw [mergeLoop_round_exit eval cm pb fuel tmp w w1 r1 hone hr] at h
        simp at h

/-- A merge loop that ends normally on a list of live entries: one live entry is left, the
ciphertexts are kept in order, and the loop made one `Mul`, one `Add` and one `Rescale` for
every other entry of the list it started from. -/
theorem mergeLoop_count (eval : PolynomialEvaluatorInterface σ H E Sc SI)
    (cm : CiphertextModel σ H Sc) (pb : PowerBasis H) :
    ∀ (fuel : Nat) (tmp tmp' : List (Option (Poly H))) (w w' : Run σ H E Sc SI),
      AllLive tmp → mergeLoop eval cm pb fuel tmp w = .next tmp' w' →
      AllLive tmp' ∧ tmp'.length = 1 ∧ (liveValues tmp').Sublist (liveValues tmp) ∧
      ∃ l, w'.log = w.log ++ l ∧ NoFailure l ∧
        l.countP Event.isMul + 1 = tmp.length ∧
        l.countP Event.isAdd + 1 = tmp.length ∧
        l.countP Event.isRescale + 1 = tmp.length := by
  intro fuel
  induction fuel with
  | zero => intro tmp tmp' w w' _ h; simp [mergeLoop] at h
  | succ fuel ih =>
    intro tmp tmp' w w' hlive h
    by_cases hone : tmp.length = 1
    · rw [mergeLoop_done eval cm pb fuel tmp w hone] at h
      simp only [Flow.next.injEq] at h
      obtain ⟨rfl, rfl⟩ := h
      exact ⟨hlive, hone, List.Sublist.refl _, [], by simp, NoFailure.empty,
        by simp [hone], by simp [hone], by simp [hone]⟩
    · rcases hr : mergeRound eval cm pb tmp w with ⟨t, w1⟩ | ⟨r1, w1⟩
      · rw [mergeLoop_round_next eval cm pb fuel tmp t w w1 hone hr] at h
        obtain ⟨hlive1, -, hsub1, l1, hl1, c1, c2, c3⟩ := mergeRound_count eval cm pb _ _ _ _ hr
        obtain ⟨hlive2, hlen2, hsub2, l2, hl2, hn2, d1, d2, d3⟩ := ih _ _ _ _ hlive1 h
        rw [liveCount_of_allLive hlive] at c1 c2 c3
        obtain ⟨l, hl, hn⟩ := (mergeLoop_trace eval cm pb (fuel + 1) tmp w).1 tmp' w'
          (by rw [mergeLoop_round_next eval cm pb fuel tmp t w w1 hone hr]; exact h)
        have hll : l = l1 ++ l2 := by
          have : w.log ++ l = w.log ++ (l1 ++ l2) := by
            rw [← hl, hl2, hl1, List.append_assoc]
          exact List.append_cancel_left this
        refine ⟨hlive2, hlen2, hsub2.trans hsub1, l, hl, hn, ?_, ?_, ?_⟩
        · rw [hll, List.countP_append]; omega
        · rw [hll, List.countP_append]; omega
        · rw [hll, List.countP_append]; omega
      · rw [mergeLoop_round_exit eval cm pb fuel tmp w w1 r1 hone hr] at h
        simp at h

/-! ## The small steps in detail -/

theorem transpose_spec (i : Nat) :
    ∀ (gs : List (PatersonStockmeyerPolynomial Sc)) (vs : List (Polynomial Sc)),
      transpose i gs = .returned vs → gs.map (fun g => g.Value[i]?) = vs.map some := by
  intro gs
  induction gs with
  | nil =>
    intro vs h
    simp only [transpose, Outcome.returned.injEq] at h
    subst h
    rfl
  | cons g gs ih =>
    intro vs h
    unfold transpose at h
    rcases hg : g.Value[i]? with _ | c
    · rw [hg] at h; simp at h
    · rw [hg] at h
      simp only [] at h
      rcases ht : transpose i gs with cs | y
      · rw [ht] at h
        simp only [Outcome.returned.injEq] at h
        subst h
        simp [hg, ih cs ht]
      · rw [ht] at h; simp at h

/-- The small steps that end normally, from baby step `i` with `n` steps left: they made
`n` calls, one per step and in step order; step `j` evaluated the `j`-th chunks with the
level and scale of the `j`-th chunk of `g0`, and left the ciphertext it got, with the degree
of that chunk, at position `split - j - 1`; the positions from `split - i` on are untouched. -/
theorem smallSteps_detail (eval : PolynomialEvaluatorInterface σ H E Sc SI)
    (poly : PatersonStockmeyerPolynomialVector Sc SI) (g0 : PatersonStockmeyerPolynomial Sc)
    (pb : PowerBasis H) (split : Nat) :
    ∀ (n i : Nat) (tmp tmp' : List (Option (Poly H))) (w w' : Run σ H E Sc SI),
      i + n = split → tmp.length = split →
      smallSteps eval poly g0 pb split n i tmp w = .next tmp' w' →
      (∀ k, split - i ≤ k → tmp'[k]? = tmp[k]?) ∧
      ∃ l, w'.log = w.log ++ l ∧ l.length = n ∧
        ∀ j, i ≤ j → j < split → ∃ c vs ct s s',
          g0.Value[j]? = some c ∧ transpose j poly.Value = .returned vs ∧
          eval.EvaluatePolynomialVectorFromPowerBasis c.Level
            { Value := vs, SlotsIndex := poly.SlotsIndex } pb c.Scale s = (.ok ct, s') ∧
          l[j - i]? = some (.evaluatePolynomialVectorFromPowerBasis c.Level
            { Value := vs, SlotsIndex := poly.SlotsIndex } c.Scale (.ok ct)) ∧
          tmp'[split - j - 1]? = some (some ⟨c.Degree, ct⟩) := by
  intro n
  induction n with
  | zero =>
    intro i tmp tmp' w w' hin hlen h
    simp only [smallSteps, Flow.next.injEq] at h
    obtain ⟨rfl, rfl⟩ := h
    exact ⟨fun _ _ => rfl, [], by simp, rfl, fun j h1 h2 => by omega⟩
  | succ n ih =>
    intro i tmp tmp' w w' hin hlen h
    unfold smallSteps at h
    rcases ht : transpose i poly.Value with vs | x
    · rw [ht] at h
      simp only [] at h
      rcases hc : g0.Value[i]? with _ | c
      · rw [hc] at h; simp at h
      · rw [hc] at h
        simp only [] at h
        have hcond : i < split ∧ split - i - 1 < tmp.length := ⟨by omega, by omega⟩
        rw [if_pos hcond] at h
        rcases he : eval.EvaluatePolynomialVectorFromPowerBasis c.Level
            { Value := vs, SlotsIndex := poly.SlotsIndex } pb c.Scale w.st with ⟨_ | ct, st⟩
        · rw [he] at h; simp at h
        · rw [he] at h
          simp only [] at h
          have hlen' : (tmp.set (split - i - 1) (some ⟨c.Degree, ct⟩)).length = split := by
            simp [hlen]
          obtain ⟨hkeep, l, hl, hll, hj⟩ := ih (i + 1) _ tmp' _ w' (by omega) hlen' h
          have hidx : tmp'[split - i - 1]? = some (some ⟨c.Degree, ct⟩) := by
            rw [hkeep (split - i - 1) (by omega)]
            exact List.getElem?_set_self (by omega)
          refine ⟨?_, .evaluatePolynomialVectorFromPowerBasis c.Level
            { Value := vs, SlotsIndex := poly.SlotsIndex } c.Scale (.ok ct) :: l, ?_, ?_, ?_⟩
          · intro k hk
            rw [hkeep k (by omega)]
            exact List.getElem?_set_ne (by omega)
          · rw [hl]; simp
          · simp [hll]
          · intro j hj1 hj2
            by_cases hji : j = i
            · subst hji
              exact ⟨c, vs, ct, w.st, st, hc, ht, he, by simp, hidx⟩
            · obtain ⟨c', vs', ct', s, s', h1, h2, h3, h4, h5⟩ := hj j (by omega) hj2
              refine ⟨c', vs', ct', s, s', h1, h2, h3, ?_, h5⟩
              rw [show j - i = (j - (i + 1)) + 1 by omega, List.getElem?_cons_succ]
              exact h4
    · rw [ht] at h; simp at h

/-! ## The whole evaluation: counting calls -/

theorem AllEvaluated.counts {l : List (Event H E Sc SI)} (h : AllEvaluated l) :
    l.countP Event.isMul = 0 ∧ l.countP Event.isAdd = 0 ∧ l.countP Event.isRescale = 0 := by
  refine ⟨?_, ?_, ?_⟩ <;>
  · rw [List.countP_eq_zero]
    intro ev hev
    obtain ⟨lv, pv, sc, ct, rfl⟩ := h ev hev
    simp [Event.isMul, Event.isAdd, Event.isRescale]


/-! ## The run left by a merge -/

theorem mergeRun_rounds (eval : PolynomialEvaluatorInterface σ H E Sc SI)
    (cm : CiphertextModel σ H Sc) (pb : PowerBasis H) (even odd : Poly H)
    (w : Run σ H E Sc SI) : (mergeRun eval cm pb even odd w).rounds = w.rounds :=
  evalMonomial_rounds eval cm _ _ _ w

/-- The calls of a merge that succeeds, as a list appended to the calls made before. -/
theorem mergeRun_counts (eval : PolynomialEvaluatorInterface σ H E Sc SI)
    (cm : CiphertextModel σ H Sc) (pb : PowerBasis H)
    (even odd : Poly H) (w : Run σ H E Sc SI) (h : MergeSucceeds eval cm pb even odd w) :
    ∃ l, (mergeRun eval cm pb even odd w).log = w.log ++ l ∧ l.countP Event.isMul = 1 := by
  obtain ⟨-, l, hl, c1, -, -⟩ := evalMonomial_counts eval cm _ _ _ w _
    (evalMonomial_of_mergeSucceeds eval cm pb even odd w h)
  exact ⟨l, hl, c1⟩


/-- A list whose entries all pass the nil test is a list of live entries. -/
theorem allLive_of_all (tmp : List (Option (Poly H)))
    (h : tmp.all Option.isSome = true) : AllLive tmp := by
  intro k hk
  rw [List.all_eq_true] at h
  have hmem : tmp[k] ∈ tmp := List.getElem_mem hk
  obtain ⟨p, hp⟩ := Option.isSome_iff_exists.mp (h _ hmem)
  exact ⟨p, by rw [List.getElem?_eq_getElem hk, hp]⟩

/-! ## Claims on the evaluator -/

/-- C5: for every split ≥ 1 and whatever the tracked degrees are, the merge loop started on
a working list of split live entries ends within 2 * (split - 1) rounds: with one live entry,
with an error returned by `Rescale`, or with the scale-discrepancy panic; it never runs out
of rounds and never panics on a list access.  For split = 1 the loop leaves the list and
the run untouched (zero rounds).  Consequently a call of the evaluator with split ≥ 1 never
exhausts the loop budget, and for split = 1 it starts no round. -/
theorem mergeLoop_terminates (eval : PolynomialEvaluatorInterface σ H E Sc SI)
    (cm : CiphertextModel σ H Sc) (pb : PowerBasis H) (split fuel : Nat)
    (hsplit : 1 ≤ split) (hfuel : 2 * (split - 1) < fuel) :
    (∀ (tmp : List (Option (Poly H))) (w : Run σ H E Sc SI), tmp.length = split → AllLive tmp →
      (∃ p w', mergeLoop eval cm pb fuel tmp w = .next [some p] w' ∧
        w'.rounds ≤ w.rounds + 2 * (split - 1)) ∨
      (∃ e w', mergeLoop eval cm pb fuel tmp w = .exit (.error (.plain e)) w' ∧
        w'.rounds ≤ w.rounds + 2 * (split - 1)) ∨
      (∃ w', mergeLoop eval cm pb fuel tmp w = .exit (.panic .scaleDiscrepancy) w' ∧
        w'.rounds ≤ w.rounds + 2 * (split - 1))) ∧
    (split = 1 → ∀ (tmp : List (Option (Poly H))) (w : Run σ H E Sc SI), tmp.length = split →
      mergeLoop eval cm pb fuel tmp w = .next tmp w) ∧
    (∀ (poly : PatersonStockmeyerPolynomialVector Sc SI) (g0 : PatersonStockmeyerPolynomial Sc)
      (st : σ), poly.Value[0]? = some g0 → g0.Value.length = split →
      (EvaluatePatersonStockmeyerPolynomialVector eval cm fuel poly pb st).1 ≠ .outOfFuel ∧
      (split = 1 →
        (EvaluatePatersonStockmeyerPolynomialVector eval cm fuel poly pb st).2.rounds = 0)) := by
  have hloop : ∀ (tmp : List (Option (Poly H))) (w : Run σ H E Sc SI), tmp.length = split →
      AllLive tmp → MergeEnds eval cm pb fuel tmp w (2 * (split - 1)) := by
    intro tmp w hlen hlive
    exact (mergeLoop_ends_aux eval cm pb split tmp hlen hlive hsplit fuel w).1 hfuel
  have hone : split = 1 → ∀ (tmp : List (Option (Poly H))) (w : Run σ H E Sc SI),
      tmp.length = split → mergeLoop eval cm pb fuel tmp w = .next tmp w := by
    intro h1 tmp w hlen
    obtain ⟨f, rfl⟩ : ∃ f, fuel = f + 1 := ⟨fuel - 1, by omega⟩
    exact mergeLoop_done eval cm pb f tmp w (by omega)
  refine ⟨?_, hone, ?_⟩
  · intro tmp w hlen hlive
    rcases hloop tmp w hlen hlive with ⟨p, w', h1, h2⟩ | ⟨r, w', h1, ⟨e, rfl⟩ | rfl, h3⟩
    · exact Or.inl ⟨p, w', h1, h2⟩
    · exact Or.inr (Or.inl ⟨e, w', h1, h3⟩)
    · exact Or.inr (Or.inr ⟨w', h1, h3⟩)
  · intro poly g0 st hg hlen
    unfold EvaluatePatersonStockmeyerPolynomialVector
    rw [hg]
    simp only []
    rcases smallSteps_spec eval poly g0 pb g0.Value.length g0.Value.length 0
        (List.replicate g0.Value.length none) (Run.init st) (by omega) (by simp)
        (by intro k hk1 hk2; omega) with
      ⟨tmp1, w1, l1, h1, hlen1, hlive1, -, -, -, hr1⟩ | ⟨w1, l1, h1, -, -, hr1⟩ |
      ⟨j, e, w1, l1, lv, pv, sc, h1, -, -, -, hr1⟩
    · rw [h1]
      simp only []
      have hr1' : w1.rounds = 0 := by rw [hr1]; rfl
      refine ⟨?_, ?_⟩
      · rcases hloop tmp1 w1 (by omega) hlive1 with ⟨p, w', h2, -⟩ | ⟨r, w', h2, hab, -⟩
        · rw [h2]
          simp only []
          obtain ⟨err, st', -, -, -, -, hres⟩ :=
            finalize_live eval cm [some p] w' p (by simp)
          rw [hres]
          cases err <;> simp [finalResult]
        · rw [h2]
          simp only []
          rcases hab with ⟨e, rfl⟩ | rfl <;> simp
      · intro hs1
        rw [hone hs1 tmp1 w1 (by omega)]
        simp only []
        obtain ⟨p, hp⟩ := hlive1 0 (by omega)
        obtain ⟨err, st', -, -, hrounds, -, -⟩ := finalize_live eval cm tmp1 w1 p hp
        rw [hrounds, hr1']
    · rw [h1]
      simp only []
      exact ⟨by simp, fun _ => by rw [hr1]; rfl⟩
    · rw [h1]
      simp only []
      exact ⟨by simp, fun _ => by rw [hr1]; rfl⟩

/-- Witness for C5: split = 3 and five rounds allowed, on the example evaluator. -/
theorem mergeLoop_terminates_witness :
    1 ≤ 3 ∧ 2 * (3 - 1) < 5 ∧
    (EvaluatePatersonStockmeyerPolynomialVector toyEval toyModel 5
      (toyPoly [(5, 5, 3), (5, 5, 3), (5, 5, 1)]) toyBasis toyMemory).1 ≠ .outOfFuel :=
  ⟨by decide, by decide,
    ((mergeLoop_terminates toyEval toyModel toyBasis 3 5 (by decide) (by decide)).2.2
      (toyPoly [(5, 5, 3), (5, 5, 3), (5, 5, 1)]) ⟨[⟨5, 5, 3⟩, ⟨5, 5, 3⟩, ⟨5, 5, 1⟩]⟩ toyMemory
      rfl rfl).1⟩

/-- C6 (counterexample): for the tracked degree d = 2^62, which is non-negative, the
exponent computed by `1 << bits.Len64(uint64(d))` is -2^63: it is not at least d + 1 and
it is not positive, hence not a power of two. -/
theorem mergeExponent_overflow :
    (0 : Int) ≤ 2 ^ 62 ∧ mergeExponent (2 ^ 62) = -2 ^ 63 ∧
    ¬ ((2 : Int) ^ 62 + 1 ≤ mergeExponent (2 ^ 62)) ∧ ¬ (0 < mergeExponent (2 ^ 62)) := by
  decide

/-- C6 (amended): in a merge round, when the scan is at a non-last position k whose tracked
degree d, with 0 ≤ d < 2^62, equals the tracked degree at k + 1, the power-basis exponent
looked up is `1 << bitlength(d)` = 2^n, the smallest power of two that is at least d + 1; if
`evalMonomial` succeeds the scan resumes at k + 2 on the list in which entry k + 1 holds the
same ciphertext with tracked degree 2 * 2^n - 1 and entry k is nil, and the compaction of
the round keeps exactly the non-nil entries, so that entry k is dropped. -/
theorem scan_merge_step (eval : PolynomialEvaluatorInterface σ H E Sc SI)
    (cm : CiphertextModel σ H Sc) (pb : PowerBasis H) (k : Nat)
    (tmp : List (Option (Poly H))) (even odd : Poly H)
    (hk : k + 1 < tmp.length) (heven : tmp[k]? = some (some even))
    (hodd : tmp[k + 1]? = some (some odd)) (heq : even.Degree = odd.Degree)
    (h0 : 0 ≤ even.Degree) (h1 : even.Degree < 2 ^ 62) :
    ∃ n : Nat, n = Len64 (uint64OfInt even.Degree) ∧
      mergeExponent even.Degree = (2 : Int) ^ n ∧
      even.Degree + 1 ≤ (2 : Int) ^ n ∧
      (∀ m : Nat, even.Degree + 1 ≤ (2 : Int) ^ m → (2 : Int) ^ n ≤ (2 : Int) ^ m) ∧
      (∀ (fuel : Nat) (w w' : Run σ H E Sc SI),
        evalMonomial eval cm even.Value odd.Value (pb.Value ((2 : Int) ^ n)) w
          = (.returned none, w') →
        scan eval cm pb (fuel + 1) k tmp w
          = scan eval cm pb fuel (k + 2)
              ((tmp.set (k + 1) (some ⟨2 * (2 : Int) ^ n - 1, odd.Value⟩)).set k none) w') ∧
      ((tmp.set (k + 1) (some ⟨2 * (2 : Int) ^ n - 1, odd.Value⟩)).set k none)[k]? = some none ∧
      ((tmp.set (k + 1) (some ⟨2 * (2 : Int) ^ n - 1, odd.Value⟩)).set k none)[k + 1]?
        = some (some ⟨2 * (2 : Int) ^ n - 1, odd.Value⟩) ∧
      ∀ t : List (Option (Poly H)), compact t = .returned (t.filter Option.isSome) := by
  obtain ⟨n, hn, hexp, hle, hmin, hdeg⟩ := mergeExponent_spec even.Degree h0 h1
  refine ⟨n, hn, hexp, hle, hmin, ?_, ?_, ?_, compact_eq_filter⟩
  · intro fuel w w' hm
    rw [← hexp] at hm
    rw [scan_merge_ok eval cm pb fuel k tmp w w' even odd hk heven hodd heq hm, hdeg]
  · exact List.getElem?_set_self (by simp; omega)
  · rw [List.getElem?_set_ne (by omega)]
    exact List.getElem?_set_self hk

/-- Witness for the amended C6: two entries of tracked degree 3 on the example evaluator;
the exponent is 4 = 2^2 and the merged degree 7. -/
theorem scan_merge_step_witness :
    (0 : Int) ≤ 3 ∧ (3 : Int) < 2 ^ 62 ∧
    ∃ n : Nat, n = Len64 (uint64OfInt 3) ∧ mergeExponent 3 = (2 : Int) ^ n ∧
      (3 : Int) + 1 ≤ (2 : Int) ^ n :=
  ⟨by decide, by decide,
    match scan_merge_step toyEval toyModel toyBasis 0 [some ⟨3, 1⟩, some ⟨3, 2⟩] ⟨3, 1⟩ ⟨3, 2⟩
      (by decide) rfl rfl rfl (by decide) (by decide) with
    | ⟨n, h1, h2, h3, _⟩ => ⟨n, h1, h2, h3⟩⟩

/-- C7: if the call at index i of a run is a power-basis evaluation that failed with error
e, then the i calls before it are power-basis evaluations that succeeded (so i is the
baby-step index), the evaluator returns no ciphertext and the error e wrapped with the
index i, and that call is the last call of the run. -/
theorem Evaluate_evaluation_error (eval : PolynomialEvaluatorInterface σ H E Sc SI)
    (cm : CiphertextModel σ H Sc) (fuel : Nat) (poly : PatersonStockmeyerPolynomialVector Sc SI)
    (pb : PowerBasis H) (st : σ) (i : Nat) (level : Int) (polyVec : PolynomialVector Sc SI)
    (scale : Sc) (e : E)
    (h : (EvaluatePatersonStockmeyerPolynomialVector eval cm fuel poly pb st).2.log[i]?
      = some (.evaluatePolynomialVectorFromPowerBasis level polyVec scale (.error e))) :
    (EvaluatePatersonStockmeyerPolynomialVector eval cm fuel poly pb st).1
      = .error (.polynomial i e) ∧
    (EvaluatePatersonStockmeyerPolynomialVector eval cm fuel poly pb st).2.log.length = i + 1 ∧
    ∀ j, j < i → ∃ lv pv sc ct,
      (EvaluatePatersonStockmeyerPolynomialVector eval cm fuel poly pb st).2.log[j]?
        = some (.evaluatePolynomialVectorFromPowerBasis lv pv sc (.ok ct)) := by
  obtain ⟨hlen, hcase⟩ := Evaluate_failure eval cm fuel poly pb st i _ h rfl
  rcases hcase with ⟨lv, pv, sc, e', hev, hres, hprev⟩ | ⟨a, b, e', hev, -⟩ | ⟨a, b, hev, -⟩
  · simp only [Event.evaluatePolynomialVectorFromPowerBasis.injEq, Except.error.injEq] at hev
    obtain ⟨-, -, -, rfl⟩ := hev
    exact ⟨hres, hlen, hprev⟩
  · simp at hev
  · simp at hev

/-- Witness for C7: on the example evaluator the second of three baby steps fails. -/
theorem Evaluate_evaluation_error_witness :
    (EvaluatePatersonStockmeyerPolynomialVector toyEval toyModel 5
      (toyPoly [(5, 5, 1), (-1, 5, 1), (5, 5, 1)]) toyBasis toyMemory).2.log[1]?
      = some (.evaluatePolynomialVectorFromPowerBasis (-1) ⟨[⟨-1, 5, 1⟩], ()⟩ 5 (.error 7)) ∧
    (EvaluatePatersonStockmeyerPolynomialVector toyEval toyModel 5
      (toyPoly [(5, 5, 1), (-1, 5, 1), (5, 5, 1)]) toyBasis toyMemory).1
      = .error (.polynomial 1 7) :=
  ⟨rfl, (Evaluate_evaluation_error toyEval toyModel 5
    (toyPoly [(5, 5, 1), (-1, 5, 1), (5, 5, 1)]) toyBasis toyMemory 1 (-1)
    ⟨[⟨-1, 5, 1⟩], ()⟩ 5 7 rfl).1⟩

/-- C8 (counterexample): on the example evaluator the first `Rescale` of the merge fails
with error 9; the evaluator returns error 9 as it is, not an error wrapped with an index. -/
theorem rescale_error_returned_unwrapped :
    (EvaluatePatersonStockmeyerPolynomialVector toyEval toyModel 5
      (toyPoly [(0, 5, 1), (5, 5, 1)]) toyBasis toyMemory).2.log[2]?
      = some (.rescale 1 1 (some 9)) ∧
    (EvaluatePatersonStockmeyerPolynomialVector toyEval toyModel 5
      (toyPoly [(0, 5, 1), (5, 5, 1)]) toyBasis toyMemory).1 = .error (.plain 9) ∧
    ∀ i, (EvaluatePatersonStockmeyerPolynomialVector toyEval toyModel 5
      (toyPoly [(0, 5, 1), (5, 5, 1)]) toyBasis toyMemory).1 ≠ .error (.polynomial i 9) := by
  refine ⟨rfl, rfl, ?_⟩
  intro i
  have h : (EvaluatePatersonStockmeyerPolynomialVector toyEval toyModel 5
      (toyPoly [(0, 5, 1), (5, 5, 1)]) toyBasis toyMemory).1 = .error (.plain 9) := rfl
  rw [h]
  simp

/-- C8 (amended): if a `Rescale` call of a run fails with error e, in a merge or in the
finalization, the evaluator returns no ciphertext and the error e of the operator
unchanged, and that call is the last call of the run. -/
theorem Evaluate_rescale_error (eval : PolynomialEvaluatorInterface σ H E Sc SI)
    (cm : CiphertextModel σ H Sc) (fuel : Nat) (poly : PatersonStockmeyerPolynomialVector Sc SI)
    (pb : PowerBasis H) (st : σ) (i : Nat) (a b : H) (e : E)
    (h : (EvaluatePatersonStockmeyerPolynomialVector eval cm fuel poly pb st).2.log[i]?
      = some (.rescale a b (some e))) :
    (EvaluatePatersonStockmeyerPolynomialVector eval cm fuel poly pb st).1
      = .error (.plain e) ∧
    (EvaluatePatersonStockmeyerPolynomialVector eval cm fuel poly pb st).2.log.length
      = i + 1 := by
  obtain ⟨hlen, hcase⟩ := Evaluate_failure eval cm fuel poly pb st i _ h rfl
  rcases hcase with ⟨lv, pv, sc, e', hev, -, -⟩ | ⟨a', b', e', hev, hres⟩ | ⟨a', b', hev, -⟩
  · simp at hev
  · simp only [Event.rescale.injEq, Option.some.injEq] at hev
    obtain ⟨-, -, rfl⟩ := hev
    exact ⟨hres, hlen⟩
  · simp at hev

/-- Witness for the amended C8: the failing `Rescale` of the counterexample. -/
theorem Evaluate_rescale_error_witness :
    (EvaluatePatersonStockmeyerPolynomialVector toyEval toyModel 5
      (toyPoly [(0, 5, 1), (5, 5, 1)]) toyBasis toyMemory).2.log[2]?
      = some (.rescale 1 1 (some 9)) ∧
    (EvaluatePatersonStockmeyerPolynomialVector toyEval toyModel 5
      (toyPoly [(0, 5, 1), (5, 5, 1)]) toyBasis toyMemory).2.log.length = 2 + 1 :=
  ⟨rfl, (Evaluate_rescale_error toyEval toyModel 5 (toyPoly [(0, 5, 1), (5, 5, 1)])
    toyBasis toyMemory 2 1 1 9 rfl).2⟩

/-- C9: in `evalMonomial(a, b, xpow)`, if `Rescale(b)` succeeds and, after `Mul(b, xpow)`,
the scale of a is not within tolerance `ScalePrecision - 12` of the scale of b, the call
panics with the scale discrepancy: the calls it made are the optional `Relinearize`,
`Rescale`, `Mul` and the failed check, and `Add` is not among them.  In an evaluation whose
call at index i is a failed scale check, that check is the last call of the run and the
evaluation panics: it returns neither a ciphertext nor an error. -/
theorem evalMonomial_scale_discrepancy (eval : PolynomialEvaluatorInterface σ H E Sc SI)
    (cm : CiphertextModel σ H Sc) :
    (∀ (a b xpow : H) (w : Run σ H E Sc SI) (st2 : σ),
      eval.Rescale b b
        (if cm.Degree w.st b = 2 then eval.Relinearize b b w.st else w.st) = (none, st2) →
      cm.InDelta (cm.Scale (eval.Mul b xpow b st2) a) (cm.Scale (eval.Mul b xpow b st2) b)
        (cm.ScalePrecision - 12) = false →
      evalMonomial eval cm a b xpow w
        = (.panicked .scaleDiscrepancy,
            { st := eval.Mul b xpow b st2
              log := w.log ++ (if cm.Degree w.st b = 2 then [.relinearize b b] else []) ++
                [.rescale b b none, .mul b xpow b, .inDelta a b false]
              rounds := w.rounds })) ∧
    (∀ (fuel : Nat) (poly : PatersonStockmeyerPolynomialVector Sc SI) (pb : PowerBasis H)
      (st : σ) (i : Nat) (a b : H),
      (EvaluatePatersonStockmeyerPolynomialVector eval cm fuel poly pb st).2.log[i]?
        = some (.inDelta a b false) →
      (EvaluatePatersonStockmeyerPolynomialVector eval cm fuel poly pb st).1
        = .panic .scaleDiscrepancy ∧
      (EvaluatePatersonStockmeyerPolynomialVector eval cm fuel poly pb st).2.log.length
        = i + 1) := by
  refine ⟨?_, ?_⟩
  · intro a b xpow w st2 hr hd
    exact evalMonomial_scale_fault eval cm a b xpow w st2 hr hd
  · intro fuel poly pb st i a b h
    obtain ⟨hlen, hcase⟩ := Evaluate_failure eval cm fuel poly pb st i _ h rfl
    rcases hcase with ⟨lv, pv, sc, e', hev, -, -⟩ | ⟨a', b', e', hev, -⟩ | ⟨a', b', -, hres⟩
    · simp at hev
    · simp at hev
    · exact ⟨hres, hlen⟩

/-- Witness for C9: on the example evaluator, two chunks of scales 5 and 6 fail the scale
check of their merge. -/
theorem evalMonomial_scale_discrepancy_witness :
    (EvaluatePatersonStockmeyerPolynomialVector toyEval toyModel 5
      (toyPoly [(5, 5, 1), (5, 6, 1)]) toyBasis toyMemory).2.log[4]?
      = some (.inDelta 2 1 false) ∧
    (EvaluatePatersonStockmeyerPolynomialVector toyEval toyModel 5
      (toyPoly [(5, 5, 1), (5, 6, 1)]) toyBasis toyMemory).1 = .panic .scaleDiscrepancy ∧
    (EvaluatePatersonStockmeyerPolynomialVector toyEval toyModel 5
      (toyPoly [(5, 5, 1), (5, 6, 1)]) toyBasis toyMemory).2.log.length = 4 + 1 :=
  ⟨rfl, (evalMonomial_scale_discrepancy toyEval toyModel).2 5
    (toyPoly [(5, 5, 1), (5, 6, 1)]) toyBasis toyMemory 4 2 1 rfl⟩

/-- C10: on a working list of one entry, the finalization calls `Relinearize` exactly when
the ciphertext of the entry has degree 2, then calls `Rescale` once, and returns that
ciphertext if `Rescale` succeeds (its error otherwise; see `finalResult`).  For split = 1, when the only
power-basis evaluation succeeds with a ciphertext of degree 1, the whole call makes exactly
two calls, that evaluation and one `Rescale`, and starts no merge round. -/
theorem finalize_spec (eval : PolynomialEvaluatorInterface σ H E Sc SI)
    (cm : CiphertextModel σ H Sc) :
    (∀ (p : Poly H) (w : Run σ H E Sc SI), ∃ err st',
      eval.Rescale p.Value p.Value
        (if cm.Degree w.st p.Value = 2 then eval.Relinearize p.Value p.Value w.st else w.st)
        = (err, st') ∧
      (finalize eval cm [some p] w).2.log
        = w.log ++ (if cm.Degree w.st p.Value = 2 then [.relinearize p.Value p.Value] else []) ++
          [.rescale p.Value p.Value err] ∧
      (finalize eval cm [some p] w).1 = finalResult p.Value err) ∧
    (∀ (fuel : Nat) (poly : PatersonStockmeyerPolynomialVector Sc SI) (pb : PowerBasis H)
      (st st1 : σ) (g0 : PatersonStockmeyerPolynomial Sc) (c : Polynomial Sc)
      (vs : List (Polynomial Sc)) (ct : H),
      0 < fuel → poly.Value[0]? = some g0 → g0.Value = [c] →
      transpose 0 poly.Value = .returned vs →
      eval.EvaluatePolynomialVectorFromPowerBasis c.Level
        { Value := vs, SlotsIndex := poly.SlotsIndex } pb c.Scale st = (.ok ct, st1) →
      cm.Degree st1 ct = 1 →
      ∃ err st2, eval.Rescale ct ct st1 = (err, st2) ∧
        (EvaluatePatersonStockmeyerPolynomialVector eval cm fuel poly pb st).2.log
          = [.evaluatePolynomialVectorFromPowerBasis c.Level
              { Value := vs, SlotsIndex := poly.SlotsIndex } c.Scale (.ok ct),
            .rescale ct ct err] ∧
        (EvaluatePatersonStockmeyerPolynomialVector eval cm fuel poly pb st).2.rounds = 0 ∧
        (EvaluatePatersonStockmeyerPolynomialVector eval cm fuel poly pb st).1
          = finalResult ct err) := by
  refine ⟨?_, ?_⟩
  · intro p w
    obtain ⟨err, st', hlog, -, -, hr, hres⟩ := finalize_live eval cm [some p] w p (by simp)
    exact ⟨err, st', hr, hlog, hres⟩
  · intro fuel poly pb st st1 g0 c vs ct hfuel hg hc ht he hdeg
    obtain ⟨f, rfl⟩ : ∃ f, fuel = f + 1 := ⟨fuel - 1, by omega⟩
    have hsmall : smallSteps eval poly g0 pb 1 1 0 [none] (Run.init st)
        = .next [some ⟨c.Degree, ct⟩]
            ((Run.init st).record st1 (.evaluatePolynomialVectorFromPowerBasis c.Level
              { Value := vs, SlotsIndex := poly.SlotsIndex } c.Scale (.ok ct))) := by
      simp [smallSteps, ht, hc, Run.init, he]
    have hd2 : ¬ cm.Degree st1 ct = 2 := by rw [hdeg]; decide
    obtain ⟨err, st2, hlog, -, hrounds, hr, hres⟩ := finalize_live eval cm
      [some ⟨c.Degree, ct⟩]
      ((Run.init st).record st1 (.evaluatePolynomialVectorFromPowerBasis c.Level
        { Value := vs, SlotsIndex := poly.SlotsIndex } c.Scale (.ok ct)))
      ⟨c.Degree, ct⟩ (by simp)
    simp only [Run.record_st, if_neg hd2] at hr
    have hrun : EvaluatePatersonStockmeyerPolynomialVector eval cm (f + 1) poly pb st
        = finalize eval cm [some ⟨c.Degree, ct⟩]
            ((Run.init st).record st1 (.evaluatePolynomialVectorFromPowerBasis c.Level
              { Value := vs, SlotsIndex := poly.SlotsIndex } c.Scale (.ok ct))) := by
      unfold EvaluatePatersonStockmeyerPolynomialVector
      rw [hg]
      simp only [hc, List.length_singleton, List.replicate_one, hsmall]
      rw [mergeLoop_done eval cm pb f _ _ (by simp)]
    refine ⟨err, st2, hr, ?_, ?_, ?_⟩
    · rw [hrun, hlog]
      simp [relinCalls, hd2, Run.init]
    · rw [hrun, hrounds]
      rfl
    · rw [hrun, hres]

/-- Witness for C10: split = 1 on the example evaluator. -/
theorem finalize_spec_witness :
    0 < 5 ∧ toyModel.Degree [⟨1, 1, 9⟩, ⟨1, 5, 5⟩] 1 = 1 ∧
    ∃ err st2, toyEval.Rescale 1 1 [⟨1, 1, 9⟩, ⟨1, 5, 5⟩] = (err, st2) ∧
      (EvaluatePatersonStockmeyerPolynomialVector toyEval toyModel 5 (toyPoly [(5, 5, 1)])
          toyBasis toyMemory).2.log
        = [.evaluatePolynomialVectorFromPowerBasis 5 ⟨[⟨5, 5, 1⟩], ()⟩ 5 (.ok 1),
          .rescale 1 1 err] ∧
      (EvaluatePatersonStockmeyerPolynomialVector toyEval toyModel 5 (toyPoly [(5, 5, 1)])
          toyBasis toyMemory).2.rounds = 0 ∧
      (EvaluatePatersonStockmeyerPolynomialVector toyEval toyModel 5 (toyPoly [(5, 5, 1)])
          toyBasis toyMemory).1 = finalResult 1 err :=
  ⟨by decide, rfl,
    (finalize_spec toyEval toyModel).2 5 (toyPoly [(5, 5, 1)]) toyBasis toyMemory
      [⟨1, 1, 9⟩, ⟨1, 5, 5⟩] ⟨[⟨5, 5, 1⟩]⟩ ⟨5, 5, 1⟩ [⟨5, 5, 1⟩] 1
      (by decide) rfl rfl rfl rfl rfl⟩

/-! ## Claims on Slots, ReadFrom and the order of calls of the merge primitive -/

/-- C11 (counterexample): for LogSlots = (63, 64), both non-negative, `Slots()` returns
(-2^63, 0) and not (2^63, 2^64). -/
theorem MetaData.Slots_overflow :
    MetaData.Slots (⟨(), 0, (63, 64), false, false⟩ : MetaData Unit) = some (-2 ^ 63, 0) ∧
    MetaData.Slots (⟨(), 0, (63, 64), false, false⟩ : MetaData Unit) ≠ some (2 ^ 63, 2 ^ 64) := by
  decide

/-- C11 (amended): for every MetaData with LogSlots = (a, b) and 0 ≤ a, b ≤ 62, `Slots()`
returns exactly the pair (2^a, 2^b). -/
theorem MetaData.Slots_pow (m : MetaData Sc) (a b : Nat) (h : m.LogSlots = ((a : Int), (b : Int)))
    (ha : a ≤ 62) (hb : b ≤ 62) : m.Slots = some ((2 : Int) ^ a, (2 : Int) ^ b) := by
  have hw : ∀ n : Nat, n ≤ 62 → wrapInt64 ((2 : Int) ^ n) = (2 : Int) ^ n := by
    intro n hn
    have h1 : 2 ^ n ≤ 2 ^ 62 := Nat.pow_le_pow_right (by decide) hn
    have h2 : ((2 : Int) ^ n) = ((2 ^ n : Nat) : Int) := by push_cast; rfl
    unfold wrapInt64
    rw [h2]
    generalize 2 ^ n = k at h1
    omega
  have hs : ∀ n : Nat, n ≤ 62 → shiftLeftOne (n : Int) = some ((2 : Int) ^ n) := by
    intro n hn
    unfold shiftLeftOne
    rw [if_neg (by omega)]
    simp [hw n hn]
  simp [MetaData.Slots, h, hs a ha, hs b hb]

/-- Witness for the amended C11: LogSlots = (3, 0). -/
theorem MetaData.Slots_pow_witness :
    (3 : Nat) ≤ 62 ∧ (0 : Nat) ≤ 62 ∧
    MetaData.Slots (⟨(), 0, (3, 0), false, false⟩ : MetaData Unit)
      = some ((2 : Int) ^ 3, (2 : Int) ^ 0) :=
  ⟨by decide, by decide,
    MetaData.Slots_pow (⟨(), 0, (3, 0), false, false⟩ : MetaData Unit) 3 0 rfl
      (by decide) (by decide)⟩

/-- C16: `evalMonomial(a, b, xpow)` calls, in this order, `Relinearize(b, b)` if and only if
b has degree 2, then `Rescale(b, b)`, then `Mul(b, xpow, b)`, then the scale check, then
`Add(b, a, b)`, each on the memory left by the call before, and returns nil.  If `Rescale`
fails, its error is returned, the memory is the one `Rescale` left, and no call follows:
neither `Mul` nor `Add` is made. -/
theorem evalMonomial_call_order (eval : PolynomialEvaluatorInterface σ H E Sc SI)
    (cm : CiphertextModel σ H Sc) (a b xpow : H) (w : Run σ H E Sc SI) :
    (∀ (st2 : σ),
      eval.Rescale b b
        (if cm.Degree w.st b = 2 then eval.Relinearize b b w.st else w.st) = (none, st2) →
      cm.InDelta (cm.Scale (eval.Mul b xpow b st2) a) (cm.Scale (eval.Mul b xpow b st2) b)
        (cm.ScalePrecision - 12) = true →
      evalMonomial eval cm a b xpow w
        = (.returned none,
            { st := eval.Add b a b (eval.Mul b xpow b st2)
              log := w.log ++ (if cm.Degree w.st b = 2 then [.relinearize b b] else []) ++
                [.rescale b b none, .mul b xpow b, .inDelta a b true, .add b a b]
              rounds := w.rounds })) ∧
    (∀ (e : E) (st2 : σ),
      eval.Rescale b b
        (if cm.Degree w.st b = 2 then eval.Relinearize b b w.st else w.st) = (some e, st2) →
      evalMonomial eval cm a b xpow w
        = (.returned (some e),
            { st := st2
              log := w.log ++ (if cm.Degree w.st b = 2 then [.relinearize b b] else []) ++
                [.rescale b b (some e)]
              rounds := w.rounds })) :=
  ⟨fun st2 hr hd => evalMonomial_ok eval cm a b xpow w st2 hr hd,
    fun e st2 hr => evalMonomial_rescale_error eval cm a b xpow w e st2 hr⟩

/-- Witness for C16 on the example evaluator: a merge whose `Rescale` succeeds, and one
whose `Rescale` fails at level 0. -/
theorem evalMonomial_call_order_witness :
    evalMonomial toyEval toyModel 2 1 0 (Run.init [⟨1, 1, 9⟩, ⟨1, 5, 5⟩, ⟨1, 5, 5⟩])
      = (.returned none,
          { st := [⟨1, 1, 9⟩, ⟨1, 5, 5⟩, ⟨1, 5, 5⟩]
            log := [.rescale 1 1 none, .mul 1 0 1, .inDelta 2 1 true, .add 1 2 1]
            rounds := 0 }) ∧
    evalMonomial toyEval toyModel 2 1 0 (Run.init [⟨1, 1, 9⟩, ⟨1, 5, 0⟩, ⟨1, 5, 5⟩])
      = (.returned (some 9),
          { st := [⟨1, 1, 9⟩, ⟨1, 5, 0⟩, ⟨1, 5, 5⟩]
            log := [.rescale 1 1 (some 9)]
            rounds := 0 }) :=
  ⟨((evalMonomial_call_order toyEval toyModel 2 1 0
      (Run.init [⟨1, 1, 9⟩, ⟨1, 5, 5⟩, ⟨1, 5, 5⟩])).1
        [⟨1, 1, 9⟩, ⟨1, 4, 4⟩, ⟨1, 5, 5⟩] rfl rfl).trans rfl,
    ((evalMonomial_call_order toyEval toyModel 2 1 0
      (Run.init [⟨1, 1, 9⟩, ⟨1, 5, 0⟩, ⟨1, 5, 5⟩])).2 9
        [⟨1, 1, 9⟩, ⟨1, 5, 0⟩, ⟨1, 5, 5⟩] rfl).trans rfl⟩

/-- C17 (the code at the failing input): whatever byte count n, error e and buffer q the
call `r.Read(p)` returns, when that error is not nil `ReadFrom` returns n and a nil error
and leaves the receiver as it was; the error of the reader is not reported.  `WriteTo`, on
a writer that fails in the same way, does return the error. -/
theorem MetaData.ReadFrom_drops_read_error :
    (∀ (c : ScaleCodec Sc SE) (m : MetaData Sc) (n e : Nat) (q : List Byte),
      MetaData.ReadFrom c m (fun _ => (n, some e, q)) = .returned (n, none, m)) ∧
    MetaData.ReadFrom byteScaleCodec ⟨7, 1, (3, -1), true, false⟩ failingRead
      = .returned (0, none, ⟨7, 1, (3, -1), true, false⟩) ∧
    MetaData.WriteTo byteScaleCodec ⟨7, 1, (3, -1), true, false⟩ failingWrite
      = .returned (0, some (.io 5)) := by
  refine ⟨fun c m n e q => rfl, by decide, by decide⟩

/-! ## Claims on the rounds of the merge loop -/

/-- C13 (counterexample): Scenario B on an evaluator whose operators all succeed.  From
tracked degrees [1, 1, 3, 3], round 1 leaves two entries of degrees [3, 7]; round 2 merges
nothing (it makes no call and only relabels the last entry, giving [3, 3]); the loop ends
after three rounds, not two. -/
theorem four_chunks_take_three_rounds :
    mergeRound calmEval calmModel toyBasis
        [some ⟨1, 1⟩, some ⟨1, 2⟩, some ⟨3, 3⟩, some ⟨3, 4⟩] (Run.init ())
      = .next [some ⟨3, 2⟩, some ⟨7, 4⟩]
          ⟨(), [.rescale 2 2 none, .mul 2 0 2, .inDelta 1 2 true, .add 2 1 2,
            .rescale 4 4 none, .mul 4 0 4, .inDelta 3 4 true, .add 4 3 4], 1⟩ ∧
    mergeRound calmEval calmModel toyBasis [some ⟨3, 2⟩, some ⟨7, 4⟩]
        ⟨(), [.rescale 2 2 none, .mul 2 0 2, .inDelta 1 2 true, .add 2 1 2,
          .rescale 4 4 none, .mul 4 0 4, .inDelta 3 4 true, .add 4 3 4], 1⟩
      = .next [some ⟨3, 2⟩, some ⟨3, 4⟩]
          ⟨(), [.rescale 2 2 none, .mul 2 0 2, .inDelta 1 2 true, .add 2 1 2,
            .rescale 4 4 none, .mul 4 0 4, .inDelta 3 4 true, .add 4 3 4], 2⟩ ∧
    mergeLoop calmEval calmModel toyBasis 2
        [some ⟨1, 1⟩, some ⟨1, 2⟩, some ⟨3, 3⟩, some ⟨3, 4⟩] (Run.init ())
      = .exit .outOfFuel
          ⟨(), [.rescale 2 2 none, .mul 2 0 2, .inDelta 1 2 true, .add 2 1 2,
            .rescale 4 4 none, .mul 4 0 4, .inDelta 3 4 true, .add 4 3 4], 2⟩ ∧
    mergeLoop calmEval calmModel toyBasis 4
        [some ⟨1, 1⟩, some ⟨1, 2⟩, some ⟨3, 3⟩, some ⟨3, 4⟩] (Run.init ())
      = .next [some ⟨7, 4⟩]
          ⟨(), [.rescale 2 2 none, .mul 2 0 2, .inDelta 1 2 true, .add 2 1 2,
            .rescale 4 4 none, .mul 4 0 4, .inDelta 3 4 true, .add 4 3 4,
            .rescale 4 4 none, .mul 4 0 4, .inDelta 2 4 true, .add 4 2 4], 3⟩ :=
  ⟨rfl, rfl, rfl, rfl⟩

/-- C13 (amended): Scenario B.  On any evaluator, from tracked degrees [1, 1, 3, 3], in a
run in which the operators succeed, that is in which the three merges the run makes (of
positions (0, 1), then of positions (2, 3), then of the two entries left) return a nil
error: round 1 merges positions (0, 1) and positions (2, 3) and leaves a list of two
entries, of degrees [3, 7]; round 2 makes no call and only overwrites the tracked degree of
the last entry with the one of its predecessor, giving [3, 3]; round 3 merges those two
entries into one.  The loop ends after exactly three rounds, having made three merges. -/
theorem scenario_B (eval : PolynomialEvaluatorInterface σ H E Sc SI)
    (cm : CiphertextModel σ H Sc) (pb : PowerBasis H)
    (v0 v1 v2 v3 : H) (w : Run σ H E Sc SI) (fuel : Nat) (hfuel : 3 < fuel)
    (hm1 : MergeSucceeds eval cm pb ⟨1, v0⟩ ⟨1, v1⟩ w.nextRound)
    (hm2 : MergeSucceeds eval cm pb ⟨3, v2⟩ ⟨3, v3⟩
      (mergeRun eval cm pb ⟨1, v0⟩ ⟨1, v1⟩ w.nextRound))
    (hm3 : MergeSucceeds eval cm pb ⟨3, v1⟩ ⟨3, v3⟩
      (mergeRun eval cm pb ⟨3, v2⟩ ⟨3, v3⟩
        (mergeRun eval cm pb ⟨1, v0⟩ ⟨1, v1⟩ w.nextRound)).nextRound.nextRound) :
    mergeRound eval cm pb [some ⟨1, v0⟩, some ⟨1, v1⟩, some ⟨3, v2⟩, some ⟨3, v3⟩] w
      = .next [some ⟨3, v1⟩, some ⟨7, v3⟩]
          (mergeRun eval cm pb ⟨3, v2⟩ ⟨3, v3⟩
            (mergeRun eval cm pb ⟨1, v0⟩ ⟨1, v1⟩ w.nextRound)) ∧
    mergeRound eval cm pb [some ⟨3, v1⟩, some ⟨7, v3⟩]
        (mergeRun eval cm pb ⟨3, v2⟩ ⟨3, v3⟩ (mergeRun eval cm pb ⟨1, v0⟩ ⟨1, v1⟩ w.nextRound))
      = .next [some ⟨3, v1⟩, some ⟨3, v3⟩]
          (mergeRun eval cm pb ⟨3, v2⟩ ⟨3, v3⟩
            (mergeRun eval cm pb ⟨1, v0⟩ ⟨1, v1⟩ w.nextRound)).nextRound ∧
    mergeRound eval cm pb [some ⟨3, v1⟩, some ⟨3, v3⟩]
        (mergeRun eval cm pb ⟨3, v2⟩ ⟨3, v3⟩
          (mergeRun eval cm pb ⟨1, v0⟩ ⟨1, v1⟩ w.nextRound)).nextRound
      = .next [some ⟨7, v3⟩]
          (mergeRun eval cm pb ⟨3, v1⟩ ⟨3, v3⟩
            (mergeRun eval cm pb ⟨3, v2⟩ ⟨3, v3⟩
              (mergeRun eval cm pb ⟨1, v0⟩ ⟨1, v1⟩ w.nextRound)).nextRound.nextRound) ∧
    mergeLoop eval cm pb fuel [some ⟨1, v0⟩, some ⟨1, v1⟩, some ⟨3, v2⟩, some ⟨3, v3⟩] w
      = .next [some ⟨7, v3⟩]
          (mergeRun eval cm pb ⟨3, v1⟩ ⟨3, v3⟩
            (mergeRun eval cm pb ⟨3, v2⟩ ⟨3, v3⟩
              (mergeRun eval cm pb ⟨1, v0⟩ ⟨1, v1⟩ w.nextRound)).nextRound.nextRound) ∧
    (mergeRun eval cm pb ⟨3, v1⟩ ⟨3, v3⟩
      (mergeRun eval cm pb ⟨3, v2⟩ ⟨3, v3⟩
        (mergeRun eval cm pb ⟨1, v0⟩ ⟨1, v1⟩ w.nextRound)).nextRound.nextRound).rounds
      = w.rounds + 3 ∧
    ∃ l, (mergeRun eval cm pb ⟨3, v1⟩ ⟨3, v3⟩
        (mergeRun eval cm pb ⟨3, v2⟩ ⟨3, v3⟩
          (mergeRun eval cm pb ⟨1, v0⟩ ⟨1, v1⟩ w.nextRound)).nextRound.nextRound).log
        = w.log ++ l ∧ l.countP Event.isMul = 3 := by
  have e3 : mergedDegree (mergeExponent 1) = 3 := by decide
  have e7 : mergedDegree (mergeExponent 3) = 7 := by decide
  have r1 : mergeRound eval cm pb [some ⟨1, v0⟩, some ⟨1, v1⟩, some ⟨3, v2⟩, some ⟨3, v3⟩] w
      = .next [some ⟨3, v1⟩, some ⟨7, v3⟩]
          (mergeRun eval cm pb ⟨3, v2⟩ ⟨3, v3⟩
            (mergeRun eval cm pb ⟨1, v0⟩ ⟨1, v1⟩ w.nextRound)) := by
    rw [mergeRound_next_iff]
    refine ⟨[none, some ⟨3, v1⟩, none, some ⟨7, v3⟩], ?_, rfl⟩
    show scan eval cm pb (4 + 1) 0 _ _ = _
    rw [scan_merge_ok eval cm pb 4 0 _ _ _ ⟨1, v0⟩ ⟨1, v1⟩ (by simp) rfl rfl rfl
      (evalMonomial_of_mergeSucceeds eval cm pb ⟨1, v0⟩ ⟨1, v1⟩ _ hm1)]
    show scan eval cm pb (3 + 1) 2 _ _ = _
    rw [scan_merge_ok eval cm pb 3 2 _ _ _ ⟨3, v2⟩ ⟨3, v3⟩ (by simp) rfl rfl rfl
      (evalMonomial_of_mergeSucceeds eval cm pb ⟨3, v2⟩ ⟨3, v3⟩ _ hm2)]
    show scan eval cm pb (2 + 1) 4 _ _ = _
    rw [scan_done eval cm pb 2 4 _ _ (by simp)]
    simp [e3, e7]
  have r2 : mergeRound eval cm pb [some ⟨3, v1⟩, some ⟨7, v3⟩]
        (mergeRun eval cm pb ⟨3, v2⟩ ⟨3, v3⟩ (mergeRun eval cm pb ⟨1, v0⟩ ⟨1, v1⟩ w.nextRound))
      = .next [some ⟨3, v1⟩, some ⟨3, v3⟩]
          (mergeRun eval cm pb ⟨3, v2⟩ ⟨3, v3⟩
            (mergeRun eval cm pb ⟨1, v0⟩ ⟨1, v1⟩ w.nextRound)).nextRound := by
    rw [mergeRound_next_iff]
    refine ⟨[some ⟨3, v1⟩, some ⟨3, v3⟩], ?_, rfl⟩
    show scan eval cm pb (2 + 1) 0 _ _ = _
    rw [scan_skip eval cm pb 2 0 _ _ ⟨3, v1⟩ ⟨7, v3⟩ (by simp) rfl rfl
      (show (3 : Int) ≠ 7 by decide)]
    show scan eval cm pb (1 + 1) 1 _ _ = _
    rw [scan_last eval cm pb 1 1 _ _ ⟨3, v1⟩ ⟨7, v3⟩ (by simp) (by decide) rfl rfl]
    show scan eval cm pb (0 + 1) 2 _ _ = _
    rw [scan_done eval cm pb 0 2 _ _ (by simp)]
    simp
  have r3 : mergeRound eval cm pb [some ⟨3, v1⟩, some ⟨3, v3⟩]
        (mergeRun eval cm pb ⟨3, v2⟩ ⟨3, v3⟩
          (mergeRun eval cm pb ⟨1, v0⟩ ⟨1, v1⟩ w.nextRound)).nextRound
      = .next [some ⟨7, v3⟩]
          (mergeRun eval cm pb ⟨3, v1⟩ ⟨3, v3⟩
            (mergeRun eval cm pb ⟨3, v2⟩ ⟨3, v3⟩
              (mergeRun eval cm pb ⟨1, v0⟩ ⟨1, v1⟩ w.nextRound)).nextRound.nextRound) := by
    rw [mergeRound_next_iff]
    refine ⟨[none, some ⟨7, v3⟩], ?_, rfl⟩
    show scan eval cm pb (2 + 1) 0 _ _ = _
    rw [scan_merge_ok eval cm pb 2 0 _ _ _ ⟨3, v1⟩ ⟨3, v3⟩ (by simp) rfl rfl rfl
      (evalMonomial_of_mergeSucceeds eval cm pb ⟨3, v1⟩ ⟨3, v3⟩ _ hm3)]
    show scan eval cm pb (1 + 1) 2 _ _ = _
    rw [scan_done eval cm pb 1 2 _ _ (by simp)]
    simp [e7]
  refine ⟨r1, r2, r3, ?_, ?_, ?_⟩
  · obtain ⟨f, rfl⟩ : ∃ f, fuel = f + 1 + 1 + 1 + 1 := ⟨fuel - 4, by omega⟩
    rw [mergeLoop_round_next eval cm pb _ _ _ _ _ (by simp) r1,
      mergeLoop_round_next eval cm pb _ _ _ _ _ (by simp) r2,
      mergeLoop_round_next eval cm pb _ _ _ _ _ (by simp) r3,
      mergeLoop_done eval cm pb f _ _ (by simp)]
  · simp [mergeRun_rounds, Run.nextRound]
  · obtain ⟨l1, h1, c1⟩ := mergeRun_counts eval cm pb ⟨1, v0⟩ ⟨1, v1⟩ w.nextRound hm1
    obtain ⟨l2, h2, c2⟩ := mergeRun_counts eval cm pb ⟨3, v2⟩ ⟨3, v3⟩
      (mergeRun eval cm pb ⟨1, v0⟩ ⟨1, v1⟩ w.nextRound) hm2
    obtain ⟨l3, h3, c3⟩ := mergeRun_counts eval cm pb ⟨3, v1⟩ ⟨3, v3⟩
      (mergeRun eval cm pb ⟨3, v2⟩ ⟨3, v3⟩
        (mergeRun eval cm pb ⟨1, v0⟩ ⟨1, v1⟩ w.nextRound)).nextRound.nextRound hm3
    refine ⟨l1 ++ l2 ++ l3, ?_, by simp only [List.countP_append, c1, c2, c3]⟩
    rw [h3]
    simp only [Run.nextRound] at h1 h2 ⊢
    rw [h2, h1]
    simp only [List.append_assoc]

/-- Witness for the amended C13 on the example evaluator, whose `Rescale` fails at level 0
and whose scale check fails on unequal scales: four ciphertexts of scale 5 and level 5 at
the handles 1 to 4. -/
theorem scenario_B_witness :
    3 < 4 ∧
    MergeSucceeds toyEval toyModel toyBasis ⟨1, 1⟩ ⟨1, 2⟩
      (Run.init [⟨1, 1, 9⟩, ⟨1, 5, 5⟩, ⟨1, 5, 5⟩, ⟨1, 5, 5⟩, ⟨1, 5, 5⟩]).nextRound ∧
    ∃ w', mergeLoop toyEval toyModel toyBasis 4
        [some ⟨1, 1⟩, some ⟨1, 2⟩, some ⟨3, 3⟩, some ⟨3, 4⟩]
        (Run.init [⟨1, 1, 9⟩, ⟨1, 5, 5⟩, ⟨1, 5, 5⟩, ⟨1, 5, 5⟩, ⟨1, 5, 5⟩])
        = .next [some ⟨7, 4⟩] w' ∧ w'.rounds = 3 :=
  ⟨by decide, rfl, _,
    (scenario_B toyEval toyModel toyBasis 1 2 3 4
      (Run.init [⟨1, 1, 9⟩, ⟨1, 5, 5⟩, ⟨1, 5, 5⟩, ⟨1, 5, 5⟩, ⟨1, 5, 5⟩]) 4
      (by decide) rfl rfl rfl).2.2.2.1,
    (scenario_B toyEval toyModel toyBasis 1 2 3 4
      (Run.init [⟨1, 1, 9⟩, ⟨1, 5, 5⟩, ⟨1, 5, 5⟩, ⟨1, 5, 5⟩, ⟨1, 5, 5⟩]) 4
      (by decide) rfl rfl rfl).2.2.2.2.1⟩
/-- C14: Scenario C.  On any evaluator, from tracked degrees [1, 3, 3], in a run in which
the operators succeed, that is in which the two merges the run makes (of positions (1, 2),
then of the two entries left) return a nil error: round 1 leaves position 0 alone and
merges positions (1, 2), giving degrees [1, 7]; round 2 makes no call and only overwrites
the tracked degree of the last entry with the one of its predecessor, giving [1, 1];
round 3 merges the two entries.  The loop ends after exactly three rounds, having made
exactly two merges (two `Mul`). -/
theorem scenario_C (eval : PolynomialEvaluatorInterface σ H E Sc SI)
    (cm : CiphertextModel σ H Sc) (pb : PowerBasis H)
    (v0 v1 v2 : H) (w : Run σ H E Sc SI) (fuel : Nat) (hfuel : 3 < fuel)
    (hm1 : MergeSucceeds eval cm pb ⟨3, v1⟩ ⟨3, v2⟩ w.nextRound)
    (hm2 : MergeSucceeds eval cm pb ⟨1, v0⟩ ⟨1, v2⟩
      (mergeRun eval cm pb ⟨3, v1⟩ ⟨3, v2⟩ w.nextRound).nextRound.nextRound) :
    mergeRound eval cm pb [some ⟨1, v0⟩, some ⟨3, v1⟩, some ⟨3, v2⟩] w
      = .next [some ⟨1, v0⟩, some ⟨7, v2⟩] (mergeRun eval cm pb ⟨3, v1⟩ ⟨3, v2⟩ w.nextRound) ∧
    mergeRound eval cm pb [some ⟨1, v0⟩, some ⟨7, v2⟩]
        (mergeRun eval cm pb ⟨3, v1⟩ ⟨3, v2⟩ w.nextRound)
      = .next [some ⟨1, v0⟩, some ⟨1, v2⟩]
          (mergeRun eval cm pb ⟨3, v1⟩ ⟨3, v2⟩ w.nextRound).nextRound ∧
    mergeRound eval cm pb [some ⟨1, v0⟩, some ⟨1, v2⟩]
        (mergeRun eval cm pb ⟨3, v1⟩ ⟨3, v2⟩ w.nextRound).nextRound
      = .next [some ⟨3, v2⟩]
          (mergeRun eval cm pb ⟨1, v0⟩ ⟨1, v2⟩
            (mergeRun eval cm pb ⟨3, v1⟩ ⟨3, v2⟩ w.nextRound).nextRound.nextRound) ∧
    mergeLoop eval cm pb fuel [some ⟨1, v0⟩, some ⟨3, v1⟩, some ⟨3, v2⟩] w
      = .next [some ⟨3, v2⟩]
          (mergeRun eval cm pb ⟨1, v0⟩ ⟨1, v2⟩
            (mergeRun eval cm pb ⟨3, v1⟩ ⟨3, v2⟩ w.nextRound).nextRound.nextRound) ∧
    (mergeRun eval cm pb ⟨1, v0⟩ ⟨1, v2⟩
      (mergeRun eval cm pb ⟨3, v1⟩ ⟨3, v2⟩ w.nextRound).nextRound.nextRound).rounds
      = w.rounds + 3 ∧
    ∃ l, (mergeRun eval cm pb ⟨1, v0⟩ ⟨1, v2⟩
        (mergeRun eval cm pb ⟨3, v1⟩ ⟨3, v2⟩ w.nextRound).nextRound.nextRound).log
        = w.log ++ l ∧ l.countP Event.isMul = 2 := by
  have r1 : mergeRound eval cm pb [some ⟨1, v0⟩, some ⟨3, v1⟩, some ⟨3, v2⟩] w
      = .next [some ⟨1, v0⟩, some ⟨7, v2⟩]
          (mergeRun eval cm pb ⟨3, v1⟩ ⟨3, v2⟩ w.nextRound) := by
    have e7 : mergedDegree (mergeExponent 3) = 7 := by decide
    rw [mergeRound_next_iff]
    refine ⟨[some ⟨1, v0⟩, none, some ⟨7, v2⟩], ?_, rfl⟩
    show scan eval cm pb (3 + 1) 0 _ _ = _
    rw [scan_skip eval cm pb 3 0 _ _ ⟨1, v0⟩ ⟨3, v1⟩ (by simp) rfl rfl
      (show (1 : Int) ≠ 3 by decide)]
    show scan eval cm pb (2 + 1) 1 _ _ = _
    rw [scan_merge_ok eval cm pb 2 1 _ _ _ ⟨3, v1⟩ ⟨3, v2⟩ (by simp) rfl rfl rfl
      (evalMonomial_of_mergeSucceeds eval cm pb ⟨3, v1⟩ ⟨3, v2⟩ _ hm1)]
    show scan eval cm pb (1 + 1) 3 _ _ = _
    rw [scan_done eval cm pb 1 3 _ _ (by simp)]
    simp [e7]
  have r2 : mergeRound eval cm pb [some ⟨1, v0⟩, some ⟨7, v2⟩]
        (mergeRun eval cm pb ⟨3, v1⟩ ⟨3, v2⟩ w.nextRound)
      = .next [some ⟨1, v0⟩, some ⟨1, v2⟩]
          (mergeRun eval cm pb ⟨3, v1⟩ ⟨3, v2⟩ w.nextRound).nextRound := by
    rw [mergeRound_next_iff]
    refine ⟨[some ⟨1, v0⟩, some ⟨1, v2⟩], ?_, rfl⟩
    show scan eval cm pb (2 + 1) 0 _ _ = _
    rw [scan_skip eval cm pb 2 0 _ _ ⟨1, v0⟩ ⟨7, v2⟩ (by simp) rfl rfl
      (show (1 : Int) ≠ 7 by decide)]
    show scan eval cm pb (1 + 1) 1 _ _ = _
    rw [scan_last eval cm pb 1 1 _ _ ⟨1, v0⟩ ⟨7, v2⟩ (by simp) (by decide) rfl rfl]
    show scan eval cm pb (0 + 1) 2 _ _ = _
    rw [scan_done eval cm pb 0 2 _ _ (by simp)]
    simp
  have r3 : mergeRound eval cm pb [some ⟨1, v0⟩, some ⟨1, v2⟩]
        (mergeRun eval cm pb ⟨3, v1⟩ ⟨3, v2⟩ w.nextRound).nextRound
      = .next [some ⟨3, v2⟩]
          (mergeRun eval cm pb ⟨1, v0⟩ ⟨1, v2⟩
            (mergeRun eval cm pb ⟨3, v1⟩ ⟨3, v2⟩ w.nextRound).nextRound.nextRound) := by
    have e3 : mergedDegree (mergeExponent 1) = 3 := by decide
    rw [mergeRound_next_iff]
    refine ⟨[none, some ⟨3, v2⟩], ?_, rfl⟩
    show scan eval cm pb (2 + 1) 0 _ _ = _
    rw [scan_merge_ok eval cm pb 2 0 _ _ _ ⟨1, v0⟩ ⟨1, v2⟩ (by simp) rfl rfl rfl
      (evalMonomial_of_mergeSucceeds eval cm pb ⟨1, v0⟩ ⟨1, v2⟩ _ hm2)]
    show scan eval cm pb (1 + 1) 2 _ _ = _
    rw [scan_done eval cm pb 1 2 _ _ (by simp)]
    simp [e3]
  refine ⟨r1, r2, r3, ?_, ?_, ?_⟩
  · obtain ⟨f, rfl⟩ : ∃ f, fuel = f + 1 + 1 + 1 + 1 := ⟨fuel - 4, by omega⟩
    rw [mergeLoop_round_next eval cm pb _ _ _ _ _ (by simp) r1,
      mergeLoop_round_next eval cm pb _ _ _ _ _ (by simp) r2,
      mergeLoop_round_next eval cm pb _ _ _ _ _ (by simp) r3,
      mergeLoop_done eval cm pb f _ _ (by simp)]
  · simp [mergeRun_rounds, Run.nextRound]
  · obtain ⟨l1, h1, c1⟩ := mergeRun_counts eval cm pb ⟨3, v1⟩ ⟨3, v2⟩ w.nextRound hm1
    obtain ⟨l3, h3, c3⟩ := mergeRun_counts eval cm pb ⟨1, v0⟩ ⟨1, v2⟩
      (mergeRun eval cm pb ⟨3, v1⟩ ⟨3, v2⟩ w.nextRound).nextRound.nextRound hm2
    refine ⟨l1 ++ l3, ?_, by rw [List.countP_append, c1, c3]⟩
    rw [h3]
    simp only [Run.nextRound] at h1 ⊢
    rw [h1, List.append_assoc]

/-- Witness for C14 on the example evaluator, whose `Rescale` fails at level 0 and whose
scale check fails on unequal scales: three ciphertexts of scale 5 and level 5 at the
handles 1 to 3. -/
theorem scenario_C_witness :
    3 < 4 ∧
    MergeSucceeds toyEval toyModel toyBasis ⟨3, 2⟩ ⟨3, 3⟩
      (Run.init [⟨1, 1, 9⟩, ⟨1, 5, 5⟩, ⟨1, 5, 5⟩, ⟨1, 5, 5⟩]).nextRound ∧
    ∃ w', mergeLoop toyEval toyModel toyBasis 4
        [some ⟨1, 1⟩, some ⟨3, 2⟩, some ⟨3, 3⟩]
        (Run.init [⟨1, 1, 9⟩, ⟨1, 5, 5⟩, ⟨1, 5, 5⟩, ⟨1, 5, 5⟩])
        = .next [some ⟨3, 3⟩] w' ∧ w'.rounds = 3 :=
  ⟨by decide, rfl, _,
    (scenario_C toyEval toyModel toyBasis 1 2 3
      (Run.init [⟨1, 1, 9⟩, ⟨1, 5, 5⟩, ⟨1, 5, 5⟩, ⟨1, 5, 5⟩]) 4
      (by decide) rfl rfl).2.2.2.1,
    (scenario_C toyEval toyModel toyBasis 1 2 3
      (Run.init [⟨1, 1, 9⟩, ⟨1, 5, 5⟩, ⟨1, 5, 5⟩, ⟨1, 5, 5⟩]) 4
      (by decide) rfl rfl).2.2.2.2.1⟩

/-- C12 (counterexample): on an evaluator whose operators all succeed, the round on the
two live entries of tracked degrees [1, 3] merges nothing and leaves two live entries. -/
theorem mergeRound_without_merge :
    mergeRound calmEval calmModel toyBasis [some ⟨1, 1⟩, some ⟨3, 2⟩] (Run.init ())
      = .next [some ⟨1, 1⟩, some ⟨1, 2⟩] ⟨(), [], 1⟩ ∧
    ¬ ([some ⟨1, 1⟩, some ⟨1, 2⟩] : List (Option (Poly Nat))).length
      < ([some ⟨1, 1⟩, some ⟨3, 2⟩] : List (Option (Poly Nat))).length :=
  ⟨rfl, by decide⟩

/-- C12 (amended): in every merge round executed by the loop on a working list of at least
two live entries that ends without error, the entries after compaction are all live, there
is at least one, and their number is the number before the round less the number of merges
(calls of `Mul`) of the round; it is strictly smaller whenever the last two tracked degrees
were equal at the start of the round, and when it is not smaller the round leaves the last
two tracked degrees equal. -/
theorem mergeRound_live_count (eval : PolynomialEvaluatorInterface σ H E Sc SI)
    (cm : CiphertextModel σ H Sc) (pb : PowerBasis H) (tmp tmp' : List (Option (Poly H)))
    (w w' : Run σ H E Sc SI) (hlive : AllLive tmp) (hlen : 2 ≤ tmp.length)
    (h : mergeRound eval cm pb tmp w = .next tmp' w') :
    AllLive tmp' ∧ 1 ≤ tmp'.length ∧ tmp'.length ≤ tmp.length ∧
    (∃ l, w'.log = w.log ++ l ∧ l.countP Event.isMul + tmp'.length = tmp.length) ∧
    (EqLast tmp → tmp'.length < tmp.length) ∧
    (tmp'.length = tmp.length → EqLast tmp') := by
  obtain ⟨hlive', -, -, l, hl, c1, -, -⟩ := mergeRound_count eval cm pb tmp tmp' w w' h
  rw [liveCount_of_allLive hlive] at c1
  rcases mergeRound_spec eval cm pb tmp w hlive hlen with
    ⟨r, w1, h1, -⟩ | ⟨t, w1, h1, -, hpos, hcase, hprog⟩
  · rw [h1] at h; simp at h
  · rw [h1] at h
    simp only [Flow.next.injEq] at h
    obtain ⟨rfl, rfl⟩ := h
    refine ⟨hlive', hpos, by omega, ⟨l, hl, c1⟩, hprog, ?_⟩
    intro hsame
    rcases hcase with hlt | ⟨-, heq⟩
    · omega
    · exact heq

/-- Witness for the amended C12: a round that merges the two live entries of equal degree. -/
theorem mergeRound_live_count_witness :
    (2 : Nat) ≤ ([some ⟨1, 1⟩, some ⟨1, 2⟩] : List (Option (Poly Nat))).length ∧
    mergeRound calmEval calmModel toyBasis [some ⟨1, 1⟩, some ⟨1, 2⟩] (Run.init ())
      = .next [some ⟨3, 2⟩]
          ⟨(), [.rescale 2 2 none, .mul 2 0 2, .inDelta 1 2 true, .add 2 1 2], 1⟩ ∧
    1 ≤ ([some ⟨3, 2⟩] : List (Option (Poly Nat))).length :=
  ⟨by decide, rfl,
    (mergeRound_live_count calmEval calmModel toyBasis [some ⟨1, 1⟩, some ⟨1, 2⟩]
      [some ⟨3, 2⟩] (Run.init ())
      ⟨(), [.rescale 2 2 none, .mul 2 0 2, .inDelta 1 2 true, .add 2 1 2], 1⟩
      (allLive_of_all _ rfl) (by decide) rfl).2.1⟩

/-! ## Claims on the small steps, the call counts and the list accesses -/

/-- C15: after a small-step phase in which every call succeeds, the phase has made exactly
split calls and, for every baby-step index i < split, the call at index i is the power-basis
evaluation with the level and scale of chunk i of group 0 and with the vector of the i-th
chunks of all groups in group order; the working list holds, at position split - i - 1, the
ciphertext that this call returned, with tracked degree `Degree()` of chunk i of group 0. -/
theorem smallSteps_reverse_order (eval : PolynomialEvaluatorInterface σ H E Sc SI)
    (poly : PatersonStockmeyerPolynomialVector Sc SI) (g0 : PatersonStockmeyerPolynomial Sc)
    (pb : PowerBasis H) (st : σ) (tmp : List (Option (Poly H))) (w : Run σ H E Sc SI)
    (hg : poly.Value[0]? = some g0)
    (h : smallSteps eval poly g0 pb g0.Value.length g0.Value.length 0
      (List.replicate g0.Value.length none) (Run.init st) = .next tmp w) :
    w.log.length = g0.Value.length ∧ tmp.length = g0.Value.length ∧
    ∀ i, i < g0.Value.length → ∃ c vs ct s s',
      (poly.Value[0]?).bind (fun g => g.Value[i]?) = some c ∧
      poly.Value.map (fun g => g.Value[i]?) = vs.map some ∧
      eval.EvaluatePolynomialVectorFromPowerBasis c.Level
        { Value := vs, SlotsIndex := poly.SlotsIndex } pb c.Scale s = (.ok ct, s') ∧
      w.log[i]? = some (.evaluatePolynomialVectorFromPowerBasis c.Level
        { Value := vs, SlotsIndex := poly.SlotsIndex } c.Scale (.ok ct)) ∧
      tmp[g0.Value.length - i - 1]? = some (some ⟨c.Degree, ct⟩) := by
  obtain ⟨-, l, hl, hll, hj⟩ := smallSteps_detail eval poly g0 pb g0.Value.length
    g0.Value.length 0 _ tmp _ w (by omega) (by simp) h
  have hlog : w.log = l := by rw [hl]; simp [Run.init]
  have hlen : tmp.length = g0.Value.length := by
    rcases smallSteps_spec eval poly g0 pb g0.Value.length g0.Value.length 0
        (List.replicate g0.Value.length none) (Run.init st) (by omega) (by simp)
        (by intro k hk1 hk2; omega) with
      ⟨tmp1, w1, l1, h1, hlen1, -⟩ | ⟨w1, l1, h1, -⟩ | ⟨j, e, w1, l1, lv, pv, sc, h1, -⟩
    · rw [h1] at h
      simp only [Flow.next.injEq] at h
      rw [← h.1]; exact hlen1
    · rw [h1] at h; simp at h
    · rw [h1] at h; simp at h
  refine ⟨by rw [hlog, hll], hlen, ?_⟩
  intro i hi
  obtain ⟨c, vs, ct, s, s', h1, h2, h3, h4, h5⟩ := hj i (Nat.zero_le _) hi
  refine ⟨c, vs, ct, s, s', by rw [hg]; exact h1, transpose_spec i _ _ h2, h3, ?_, h5⟩
  rw [hlog]
  simpa using h4

/-- Witness for C15 on the example evaluator: two baby steps. -/
theorem smallSteps_reverse_order_witness :
    (toyPoly [(5, 5, 3), (5, 5, 1)]).Value[0]? = some ⟨[⟨5, 5, 3⟩, ⟨5, 5, 1⟩]⟩ ∧
    smallSteps toyEval (toyPoly [(5, 5, 3), (5, 5, 1)]) ⟨[⟨5, 5, 3⟩, ⟨5, 5, 1⟩]⟩ toyBasis 2 2 0
        [none, none] (Run.init toyMemory)
      = .next [some ⟨1, 2⟩, some ⟨3, 1⟩]
          ⟨[⟨1, 1, 9⟩, ⟨1, 5, 5⟩, ⟨1, 5, 5⟩],
            [.evaluatePolynomialVectorFromPowerBasis 5 ⟨[⟨5, 5, 3⟩], ()⟩ 5 (.ok 1),
              .evaluatePolynomialVectorFromPowerBasis 5 ⟨[⟨5, 5, 1⟩], ()⟩ 5 (.ok 2)], 0⟩ ∧
    ([some ⟨1, 2⟩, some ⟨3, 1⟩] : List (Option (Poly Nat))).length = 2 :=
  ⟨rfl, rfl,
    (smallSteps_reverse_order toyEval (toyPoly [(5, 5, 3), (5, 5, 1)])
      ⟨[⟨5, 5, 3⟩, ⟨5, 5, 1⟩]⟩ toyBasis toyMemory [some ⟨1, 2⟩, some ⟨3, 1⟩]
      ⟨[⟨1, 1, 9⟩, ⟨1, 5, 5⟩, ⟨1, 5, 5⟩],
        [.evaluatePolynomialVectorFromPowerBasis 5 ⟨[⟨5, 5, 3⟩], ()⟩ 5 (.ok 1),
          .evaluatePolynomialVectorFromPowerBasis 5 ⟨[⟨5, 5, 1⟩], ()⟩ 5 (.ok 2)], 0⟩
      rfl rfl).2.1⟩

/-- C18: in every run of the evaluator that returns a ciphertext, whatever the tracked
degrees are, split ≥ 1 and exactly split - 1 merges are performed: `Mul` and `Add` are each
called exactly split - 1 times and `Rescale` exactly split times, where split is the number
of chunks of group 0. -/
theorem Evaluate_call_counts (eval : PolynomialEvaluatorInterface σ H E Sc SI)
    (cm : CiphertextModel σ H Sc) (fuel : Nat) (poly : PatersonStockmeyerPolynomialVector Sc SI)
    (pb : PowerBasis H) (st : σ) (g0 : PatersonStockmeyerPolynomial Sc) (res : H)
    (hg : poly.Value[0]? = some g0)
    (hres : (EvaluatePatersonStockmeyerPolynomialVector eval cm fuel poly pb st).1 = .ok res) :
    1 ≤ g0.Value.length ∧
    (EvaluatePatersonStockmeyerPolynomialVector eval cm fuel poly pb st).2.log.countP Event.isMul
      + 1 = g0.Value.length ∧
    (EvaluatePatersonStockmeyerPolynomialVector eval cm fuel poly pb st).2.log.countP Event.isAdd
      + 1 = g0.Value.length ∧
    (EvaluatePatersonStockmeyerPolynomialVector eval cm fuel poly pb st).2.log.countP
      Event.isRescale = g0.Value.length := by
  unfold EvaluatePatersonStockmeyerPolynomialVector at hres ⊢
  rw [hg] at hres ⊢
  simp only [] at hres ⊢
  rcases smallSteps_spec eval poly g0 pb g0.Value.length g0.Value.length 0
      (List.replicate g0.Value.length none) (Run.init st) (by omega) (by simp)
      (by intro k hk1 hk2; omega) with
    ⟨tmp1, w1, l1, h1, hlen1, hlive1, hlog1, -, hev1, -⟩ | ⟨w1, l1, h1, -, -, -⟩ |
    ⟨j, e, w1, l1, lv, pv, sc, h1, -, -, -, -⟩
  · rw [h1] at hres ⊢
    simp only [] at hres ⊢
    have hlog1' : w1.log = l1 := by rw [hlog1]; simp [Run.init]
    rcases hm : mergeLoop eval cm pb fuel tmp1 w1 with ⟨tmp2, w2⟩ | ⟨r2, w2⟩
    · rw [hm] at hres
      simp only [] at hres ⊢
      obtain ⟨hlive2, hlen2, -, l2, hlog2, -, c1, c2, c3⟩ :=
        mergeLoop_count eval cm pb fuel tmp1 tmp2 w1 w2 hlive1 hm
      obtain ⟨p, hp⟩ := hlive2 0 (by omega)
      obtain ⟨err, st', hlog3, -, -, -, hfin⟩ := finalize_live eval cm tmp2 w2 p hp
      rw [hfin] at hres
      cases err with
      | some e => simp [finalResult] at hres
      | none =>
        obtain ⟨e1, e2, e3⟩ := hev1.counts
        obtain ⟨r1, r2, r3⟩ := @relinCalls_counts _ _ _ E SI cm w2.st p.Value
        rw [hlog3, hlog2, hlog1']
        simp only [List.countP_append, e1, e2, e3, r1, r2, r3]
        refine ⟨by omega, ?_, ?_, ?_⟩
        · simp [Event.isMul]; omega
        · simp [Event.isAdd]; omega
        · simp [Event.isRescale]; omega
    · rw [hm] at hres
      simp only [] at hres
      obtain ⟨l2, -, hab⟩ := (mergeLoop_trace eval cm pb fuel tmp1 w1).2 r2 w2 hm
      rcases hab with ⟨_, _, _, _, hr, -, -⟩ | ⟨_, _, _, hr, -, -⟩ | ⟨hr | hr | hr, -⟩ <;>
        rw [hr] at hres <;> simp at hres
  · rw [h1] at hres; simp at hres
  · rw [h1] at hres; simp at hres

/-- Witness for C18 on the example evaluator: split = 3. -/
theorem Evaluate_call_counts_witness :
    (EvaluatePatersonStockmeyerPolynomialVector toyEval toyModel 5
      (toyPoly [(5, 5, 3), (5, 5, 3), (5, 5, 1)]) toyBasis toyMemory).1 = .ok 1 ∧
    (EvaluatePatersonStockmeyerPolynomialVector toyEval toyModel 5
      (toyPoly [(5, 5, 3), (5, 5, 3), (5, 5, 1)]) toyBasis toyMemory).2.log.countP
        Event.isRescale = 3 :=
  ⟨rfl, (Evaluate_call_counts toyEval toyModel 5 (toyPoly [(5, 5, 3), (5, 5, 3), (5, 5, 1)])
    toyBasis toyMemory ⟨[⟨5, 5, 3⟩, ⟨5, 5, 3⟩, ⟨5, 5, 1⟩]⟩ 1 rfl rfl).2.2.2⟩

/-- C19: on a working list of at least two entries, all live at the start of a round:
the scan starts in a state in which the entries from the scan index on and the entry before
it are live; from such a state at an index within the list, the last position is only
reached with i ≥ 1 and a live predecessor, and the iteration either leaves the function as
the source intends (an error of `Rescale` or the scale panic) or goes on, at a larger index
and on a list of the same length, in such a state again, having kept the ciphertext of every
entry it did not set to nil.  So the round never panics on a list access: if it leaves the
function it is with a merge abort; otherwise the compaction, which keeps exactly the non-nil
entries, leaves live entries only, whose ciphertexts are in their original order. -/
theorem round_accesses_safe (eval : PolynomialEvaluatorInterface σ H E Sc SI)
    (cm : CiphertextModel σ H Sc) (pb : PowerBasis H) (tmp : List (Option (Poly H)))
    (w : Run σ H E Sc SI) (hlive : AllLive tmp) (hlen : 2 ≤ tmp.length) :
    ScanInv 0 tmp ∧
    (∀ (fuel i : Nat) (t : List (Option (Poly H))) (u : Run σ H E Sc SI),
      t.length = tmp.length → ScanInv i t → i < t.length →
      (i + 1 = t.length → 1 ≤ i ∧ Live t (i - 1)) ∧
      ((∃ r u', scan eval cm pb (fuel + 1) i t u = .exit r u' ∧ MergeAbort r) ∨
        (∃ i' t' u', scan eval cm pb (fuel + 1) i t u = scan eval cm pb fuel i' t' u' ∧
          i < i' ∧ t'.length = t.length ∧ ScanInv i' t' ∧ KeepsValues t' t))) ∧
    (∀ r w', mergeRound eval cm pb tmp w = .exit r w' → MergeAbort r) ∧
    (∀ tmp' w', mergeRound eval cm pb tmp w = .next tmp' w' →
      AllLive tmp' ∧ (liveValues tmp').Sublist (liveValues tmp)) ∧
    (∀ t : List (Option (Poly H)), compact t = .returned (t.filter Option.isSome)) := by
  refine ⟨⟨Nat.zero_le _, fun k _ hk => hlive k hk, fun h => absurd h (by omega)⟩, ?_, ?_, ?_,
    compact_eq_filter⟩
  · intro fuel i t u htl ⟨hile, hfrom, hbefore⟩ hi
    have hlast : i + 1 = t.length → 1 ≤ i ∧ Live t (i - 1) := by
      intro hl
      have h1 : 1 ≤ i := by omega
      exact ⟨h1, hbefore (by omega)⟩
    refine ⟨hlast, ?_⟩
    by_cases hl : i + 1 = t.length
    · obtain ⟨h1, prev, hp⟩ := hlast hl
      obtain ⟨cur, hc⟩ := hfrom i (Nat.le_refl _) hi
      refine Or.inr ⟨i + 1, t.set i (some { cur with Degree := prev.Degree }), u,
        scan_last eval cm pb fuel i t u prev cur hl (by omega) hp hc, by omega, by simp,
        ⟨by simp; omega, ?_, ?_⟩, KeepsValues.set_degree hc _⟩
      · intro k hk1 hk2
        simp at hk2
        omega
      · intro _
        exact ⟨{ cur with Degree := prev.Degree }, by simpa using List.getElem?_set_self hi⟩
    · have hi1 : i + 1 < t.length := by omega
      obtain ⟨even, he⟩ := hfrom i (Nat.le_refl _) hi
      obtain ⟨odd, ho⟩ := hfrom (i + 1) (by omega) hi1
      by_cases heq : even.Degree = odd.Degree
      · rcases hm : evalMonomial eval cm even.Value odd.Value
            (pb.Value (mergeExponent even.Degree)) u with ⟨out, u1⟩
        rcases out with (_ | e) | x
        · refine Or.inr ⟨i + 1 + 1, _, u1,
            scan_merge_ok eval cm pb fuel i t u u1 even odd hi1 he ho heq hm, by omega, by simp,
            ⟨by simp; omega, ?_, ?_⟩,
            (KeepsValues.set_nil _ i).chain (KeepsValues.set_degree ho _)⟩
          · intro k hk1 hk2
            simp at hk2
            obtain ⟨p, hp⟩ := hfrom k (by omega) hk2
            exact ⟨p, by
              rw [List.getElem?_set_ne (by omega), List.getElem?_set_ne (by omega)]
              exact hp⟩
          · intro _
            refine ⟨{ odd with Degree := mergedDegree (mergeExponent even.Degree) }, ?_⟩
            rw [show i + 1 + 1 - 1 = i + 1 by omega, List.getElem?_set_ne (by omega)]
            exact List.getElem?_set_self hi1
        · exact Or.inl ⟨_, u1,
            scan_merge_error eval cm pb fuel i t u u1 even odd e hi1 he ho heq hm,
            Or.inl ⟨e, rfl⟩⟩
        · have hx := evalMonomial_panic eval cm _ _ _ _ _ _ hm
          subst hx
          exact Or.inl ⟨_, u1,
            scan_merge_panic eval cm pb fuel i t u u1 even odd _ hi1 he ho heq hm, Or.inr rfl⟩
      · refine Or.inr ⟨i + 1, t, u, scan_skip eval cm pb fuel i t u even odd hi1 he ho heq,
          by omega, rfl, ⟨by omega, ?_, ?_⟩, KeepsValues.same t⟩
        · intro k hk1 hk2
          exact hfrom k (by omega) hk2
        · intro _
          exact ⟨even, by simpa using he⟩
  · intro r w' h
    rcases mergeRound_spec eval cm pb tmp w hlive hlen with
      ⟨r1, w1, h1, hab⟩ | ⟨t, w1, h1, -⟩
    · rw [h1] at h
      simp only [Flow.exit.injEq] at h
      rw [← h.1]; exact hab
    · rw [h1] at h; simp at h
  · intro tmp' w' h
    obtain ⟨h1, -, h3, -⟩ := mergeRound_count eval cm pb tmp tmp' w w' h
    exact ⟨h1, h3⟩

/-- Witness for C19: a round on three live entries, on an evaluator whose operators all
succeed. -/
theorem round_accesses_safe_witness :
    (2 : Nat) ≤ ([some ⟨1, 1⟩, some ⟨3, 2⟩, some ⟨3, 3⟩] : List (Option (Poly Nat))).length ∧
    mergeRound calmEval calmModel toyBasis [some ⟨1, 1⟩, some ⟨3, 2⟩, some ⟨3, 3⟩]
        (Run.init ())
      = .next [some ⟨1, 1⟩, some ⟨7, 3⟩]
          ⟨(), [.rescale 3 3 none, .mul 3 0 3, .inDelta 2 3 true, .add 3 2 3], 1⟩ ∧
    (liveValues ([some ⟨1, 1⟩, some ⟨7, 3⟩] : List (Option (Poly Nat)))).Sublist
      (liveValues [some ⟨1, 1⟩, some ⟨3, 2⟩, some ⟨3, 3⟩]) :=
  ⟨by decide, rfl,
    ((round_accesses_safe calmEval calmModel toyBasis
      [some ⟨1, 1⟩, some ⟨3, 2⟩, some ⟨3, 3⟩] (Run.init ())
      (allLive_of_all _ rfl) (by decide)).2.2.2.1 _ _ rfl).2⟩

/-- C20: on any evaluator, on a working list of at least two live entries and whatever the
tracked degrees are, a round that performs no merge (no call of `Mul`) is followed by a
round that, unless one of its operator calls fails (then it leaves the function with the
`Rescale` error or the scale panic, and a failed call is recorded), records no failed call,
performs at least one merge and shortens the list.  Consequently, for every split ≥ 1, the
merge loop on split live entries finishes within at most 2 * (split - 1) rounds: with one
entry left when no operator call of the run fails, and otherwise with the `Rescale` error
or the scale panic of a recorded failed call. -/
theorem mergeLoop_round_bound (eval : PolynomialEvaluatorInterface σ H E Sc SI)
    (cm : CiphertextModel σ H Sc) (pb : PowerBasis H) :
    (∀ (tmp tmp1 : List (Option (Poly H))) (w w1 : Run σ H E Sc SI),
      AllLive tmp → 2 ≤ tmp.length → mergeRound eval cm pb tmp w = .next tmp1 w1 →
      (∃ l, w1.log = w.log ++ l ∧ l.countP Event.isMul = 0) →
      (∃ tmp2 w2 l2, mergeRound eval cm pb tmp1 w1 = .next tmp2 w2 ∧
        w2.log = w1.log ++ l2 ∧ NoFailure l2 ∧ 1 ≤ l2.countP Event.isMul ∧
        tmp2.length < tmp1.length) ∨
      (∃ r w2 l2, mergeRound eval cm pb tmp1 w1 = .exit r w2 ∧ MergeAbort r ∧
        w2.log = w1.log ++ l2 ∧ ¬ NoFailure l2)) ∧
    (∀ (split fuel : Nat) (tmp : List (Option (Poly H))) (w : Run σ H E Sc SI),
      1 ≤ split → tmp.length = split → AllLive tmp → 2 * (split - 1) < fuel →
      (∃ p w' l, mergeLoop eval cm pb fuel tmp w = .next [some p] w' ∧
        w'.rounds ≤ w.rounds + 2 * (split - 1) ∧ w'.log = w.log ++ l ∧ NoFailure l) ∨
      (∃ r w' l, mergeLoop eval cm pb fuel tmp w = .exit r w' ∧ MergeAbort r ∧
        w'.rounds ≤ w.rounds + 2 * (split - 1) ∧ w'.log = w.log ++ l ∧ ¬ NoFailure l)) := by
  refine ⟨?_, ?_⟩
  · intro tmp tmp1 w w1 hlive hlen h ⟨l, hl, hno⟩
    obtain ⟨hlive1, -, -, l', hl', c1, -, -⟩ := mergeRound_count eval cm pb tmp tmp1 w w1 h
    have hll : l' = l := List.append_cancel_left (by rw [← hl', hl])
    subst hll
    rw [liveCount_of_allLive hlive, hno] at c1
    have hsame : tmp1.length = tmp.length := by omega
    have heq : EqLast tmp1 := by
      rcases mergeRound_spec eval cm pb tmp w hlive hlen with
        ⟨r, w0, h0, -⟩ | ⟨t, w0, h0, -, -, hcase, -⟩
      · rw [h0] at h; simp at h
      · rw [h0] at h
        simp only [Flow.next.injEq] at h
        obtain ⟨rfl, rfl⟩ := h
        rcases hcase with hlt | ⟨-, heq⟩
        · omega
        · exact heq
    rcases mergeRound_spec eval cm pb tmp1 w1 hlive1 (by omega) with
      ⟨r, w2, h2, hab⟩ | ⟨tmp2, w2, h2, -, -, -, hprog⟩
    · obtain ⟨l2, hl2, ha⟩ := (mergeRound_trace eval cm pb tmp1 w1).2 r w2 h2
      exact Or.inr ⟨r, w2, l2, h2, hab, hl2, Aborted.failure hab ha⟩
    · obtain ⟨-, -, -, l2, hl2, c2, -, -⟩ := mergeRound_count eval cm pb tmp1 tmp2 w1 w2 h2
      obtain ⟨l3, hl3, hn3⟩ := (mergeRound_trace eval cm pb tmp1 w1).1 tmp2 w2 h2
      have hll : l3 = l2 := List.append_cancel_left (by rw [← hl3, hl2])
      subst hll
      rw [liveCount_of_allLive hlive1] at c2
      have hlt := hprog heq
      exact Or.inl ⟨tmp2, w2, l3, h2, hl2, hn3, by omega, hlt⟩
  · intro split fuel tmp w hsplit hlen hlive hfuel
    rcases (mergeLoop_ends_aux eval cm pb split tmp hlen hlive hsplit fuel w).1 hfuel with
      ⟨p, w', h1, h2⟩ | ⟨r, w', h1, hab, h2⟩
    · obtain ⟨l, hl, hn⟩ := (mergeLoop_trace eval cm pb fuel tmp w).1 _ w' h1
      exact Or.inl ⟨p, w', l, h1, h2, hl, hn⟩
    · obtain ⟨l, hl, ha⟩ := (mergeLoop_trace eval cm pb fuel tmp w).2 r w' h1
      exact Or.inr ⟨r, w', l, h1, hab, h2, hl, Aborted.failure hab ha⟩

/-- Witness for C20 on the example evaluator, whose `Rescale` fails at level 0 and whose
scale check fails on unequal scales, with two ciphertexts of scale 5 and level 5 at the
handles 1 and 2: the round on degrees [1, 3] merges nothing, and of the round that follows
the theorem gives the two cases; the round merges once. -/
theorem mergeLoop_round_bound_witness :
    mergeRound toyEval toyModel toyBasis [some ⟨1, 1⟩, some ⟨3, 2⟩]
        (Run.init [⟨1, 1, 9⟩, ⟨1, 5, 5⟩, ⟨1, 5, 5⟩])
      = .next [some ⟨1, 1⟩, some ⟨1, 2⟩] ⟨[⟨1, 1, 9⟩, ⟨1, 5, 5⟩, ⟨1, 5, 5⟩], [], 1⟩ ∧
    mergeRound toyEval toyModel toyBasis [some ⟨1, 1⟩, some ⟨1, 2⟩]
        ⟨[⟨1, 1, 9⟩, ⟨1, 5, 5⟩, ⟨1, 5, 5⟩], [], 1⟩
      = .next [some ⟨3, 2⟩] ⟨[⟨1, 1, 9⟩, ⟨1, 5, 5⟩, ⟨1, 5, 5⟩],
          [.rescale 2 2 none, .mul 2 0 2, .inDelta 1 2 true, .add 2 1 2], 2⟩ ∧
    ((∃ tmp2 w2 l2, mergeRound toyEval toyModel toyBasis [some ⟨1, 1⟩, some ⟨1, 2⟩]
          ⟨[⟨1, 1, 9⟩, ⟨1, 5, 5⟩, ⟨1, 5, 5⟩], [], 1⟩ = .next tmp2 w2 ∧
        w2.log = ([] : List (Event Nat Nat Int Unit)) ++ l2 ∧ NoFailure l2 ∧
        1 ≤ l2.countP Event.isMul ∧
        tmp2.length < ([some ⟨1, 1⟩, some ⟨1, 2⟩] : List (Option (Poly Nat))).length) ∨
      (∃ r w2 l2, mergeRound toyEval toyModel toyBasis [some ⟨1, 1⟩, some ⟨1, 2⟩]
          ⟨[⟨1, 1, 9⟩, ⟨1, 5, 5⟩, ⟨1, 5, 5⟩], [], 1⟩ = .exit r w2 ∧ MergeAbort r ∧
        w2.log = ([] : List (Event Nat Nat Int Unit)) ++ l2 ∧ ¬ NoFailure l2)) :=
  ⟨rfl, rfl,
    (mergeLoop_round_bound toyEval toyModel toyBasis).1
      [some ⟨1, 1⟩, some ⟨3, 2⟩] [some ⟨1, 1⟩, some ⟨1, 2⟩]
      (Run.init [⟨1, 1, 9⟩, ⟨1, 5, 5⟩, ⟨1, 5, 5⟩]) ⟨[⟨1, 1, 9⟩, ⟨1, 5, 5⟩, ⟨1, 5, 5⟩], [], 1⟩
      (allLive_of_all _ rfl) (by decide) rfl ⟨[], rfl, rfl⟩⟩

end rlwe
